import Mathlib

/-!
Verification development for the `rs-lru` crate: an intrusive doubly linked
list (`src/list.rs`) and two caches built on it, a plain LRU cache
(`src/lru.rs`) and an LRU-K cache (`src/lru_k.rs`).

The raw pointers (`NonNull<Node<T>>`) of the source are modelled by
natural-number identifiers into an explicit heap (an association list from
identifier to node).  `Box::leak` is allocation of a fresh identifier,
`Box::from_raw` removes the identifier from the heap.  Every list and cache
operation below is a direct transcription of the corresponding Rust function;
`usize` arithmetic is modelled by `Nat` (the decrements `len -= 1` use
truncated subtraction, which agrees with the source whenever the length is
positive; a decrement at length zero panics in a debug build of the source).
-/

namespace RsLru

/-- A node of the intrusive doubly linked list of `list.rs`: optional links to
the neighbouring nodes and the stored element. -/
structure Node (T : Type) where
  next : Option Nat
  prev : Option Nat
  element : T
deriving DecidableEq

/-- The explicit heap holding every currently allocated node, keyed by the
identifier that models its address. -/
def Heap (T : Type) : Type := List (Nat × Node T)

/-- Dereference a node pointer: look the identifier up in the heap. -/
def hfind {T : Type} : Heap T → Nat → Option (Node T)
  | [], _ => none
  | (j, nd) :: t, i => if j = i then some nd else hfind t i

/-- Write through a node pointer: update the node stored at `i` (a write to a
freed node — undefined behaviour in the source — leaves the heap unchanged). -/
def hmodify {T : Type} (h : Heap T) (i : Nat) (f : Node T → Node T) : Heap T :=
  h.map (fun p => if p.1 = i then (p.1, f p.2) else p)

/-- Allocate: `Box::leak(Box::new (…))` with the fresh identifier `i`. -/
def halloc {T : Type} (h : Heap T) (i : Nat) (nd : Node T) : Heap T :=
  (i, nd) :: h

/-- Free: `Box::from_raw` dropping the node at `i`. -/
def herase {T : Type} (h : Heap T) (i : Nat) : Heap T :=
  h.filter (fun p => p.1 ≠ i)

/-- The bookkeeping fields of `List<T>`: head link, tail link and length.
The nodes themselves live in the shared heap. -/
structure ListS where
  head : Option Nat
  tail : Option Nat
  len : Nat
deriving DecidableEq

/-- `List::new`. -/
def listNew : ListS := ⟨none, none, 0⟩

/-- `List::is_empty`: `self.len == 0 && self.head.is_none() && self.tail.is_none()`. -/
def listIsEmpty (l : ListS) : Bool :=
  decide (l.len = 0) && l.head.isNone && l.tail.isNone

/-- `List::check_head`: if the head is gone the tail must be cleared, otherwise
the (new) head's `prev` link is cleared. -/
def check_head {T : Type} (h : Heap T) (l : ListS) : Heap T × ListS :=
  match l.head with
  | none => if l.tail.isSome then (h, { l with tail := none }) else (h, l)
  | some n => (hmodify h n (fun nd => { nd with prev := none }), l)

/-- `List::check_tail`: mirror image of `check_head`. -/
def check_tail {T : Type} (h : Heap T) (l : ListS) : Heap T × ListS :=
  match l.tail with
  | none => if l.head.isSome then (h, { l with head := none }) else (h, l)
  | some n => (hmodify h n (fun nd => { nd with next := none }), l)

/-- `List::push_back`.  `fresh` is the identifier of the newly allocated node.
(The `assert!(self.is_empty())` of the empty branch holds on well formed
lists and is not modelled.) -/
def push_back {T : Type} (h : Heap T) (l : ListS) (fresh : Nat) (ele : T) :
    Heap T × ListS :=
  let h1 := halloc h fresh ⟨none, none, ele⟩
  match l.tail with
  | none =>
      (h1, { l with head := some fresh, tail := some fresh, len := l.len + 1 })
  | some t =>
      let h2 := hmodify h1 fresh (fun nd => { nd with prev := some t })
      let h3 := hmodify h2 t (fun nd => { nd with next := some fresh })
      (h3, { l with tail := some fresh, len := l.len + 1 })

/-- `List::push_front`. -/
def push_front {T : Type} (h : Heap T) (l : ListS) (fresh : Nat) (ele : T) :
    Heap T × ListS :=
  let h1 := halloc h fresh ⟨none, none, ele⟩
  match l.head with
  | none =>
      (h1, { l with head := some fresh, tail := some fresh, len := l.len + 1 })
  | some hd =>
      let h2 := hmodify h1 fresh (fun nd => { nd with next := some hd })
      let h3 := hmodify h2 hd (fun nd => { nd with prev := some fresh })
      (h3, { l with head := some fresh, len := l.len + 1 })

/-- `List::pop_front`.  Dereferencing a dangling head pointer is undefined
behaviour in the source and is modelled as a miss that leaves the state
unchanged. -/
def pop_front {T : Type} (h : Heap T) (l : ListS) : Option T × Heap T × ListS :=
  match l.head with
  | none => (none, h, l)
  | some e =>
      match hfind h e with
      | none => (none, h, l)
      | some nd =>
          let h1 := herase h e
          let (h2, l2) := check_head h1 { l with head := nd.next }
          (some nd.element, h2, { l2 with len := l2.len - 1 })

/-- `List::pop_back`. -/
def pop_back {T : Type} (h : Heap T) (l : ListS) : Option T × Heap T × ListS :=
  match l.tail with
  | none => (none, h, l)
  | some e =>
      match hfind h e with
      | none => (none, h, l)
      | some nd =>
          let h1 := herase h e
          let (h2, l2) := check_tail h1 { l with tail := nd.prev }
          (some nd.element, h2, { l2 with len := l2.len - 1 })

/-- `List::begin_node`. -/
def begin_node (l : ListS) : Option Nat := l.head

/-- `List::end_node`. -/
def end_node (l : ListS) : Option Nat := l.tail

/-- `List::front`: peek at the head element. -/
def frontE {T : Type} (h : Heap T) (l : ListS) : Option T :=
  l.head.bind (fun e => (hfind h e).map (·.element))

/-- `List::back`: peek at the tail element. -/
def backE {T : Type} (h : Heap T) (l : ListS) : Option T :=
  l.tail.bind (fun e => (hfind h e).map (·.element))

/-- `List::detach`: unlink `node` from this list's chain.  Each field read goes
through the pointer, i.e. through the current heap, exactly as in the source. -/
def detach {T : Type} (h : Heap T) (l : ListS) (node : Nat) : Heap T × ListS :=
  match hfind h node with
  | none => (h, l)
  | some nd =>
      let (h1, l1) :=
        match nd.prev with
        | none => check_head h { l with head := nd.next }
        | some p => (hmodify h p (fun x => { x with next := nd.next }), l)
      match hfind h1 node with
      | none => (h1, l1)
      | some nd1 =>
          match nd1.next with
          | none => check_tail h1 { l1 with tail := nd1.prev }
          | some nx => (hmodify h1 nx (fun x => { x with prev := nd1.prev }), l1)

/-- `List::splice_front_node`: relink the (already detached) node `src`
immediately before `dst`, or as the sole element when `dst` is `None`. -/
def splice_front_node {T : Type} (h : Heap T) (l : ListS) (dst : Option Nat)
    (src : Nat) : Heap T × ListS :=
  match dst with
  | none =>
      let h1 := hmodify h src (fun x => { x with next := none })
      let h2 := hmodify h1 src (fun x => { x with prev := none })
      (h2, { l with head := some src, tail := some src })
  | some d =>
      match hfind h d with
      | none => (h, l)
      | some dnd =>
          let dstPrev := dnd.prev
          let h1 := hmodify h src (fun x => { x with next := some d })
          let h2 := hmodify h1 src (fun x => { x with prev := dstPrev })
          let h3 := hmodify h2 d (fun x => { x with prev := some src })
          match dstPrev with
          | none => (h3, { l with head := some src })
          | some p => (hmodify h3 p (fun x => { x with next := some src }), l)

/-- `List::splice_back_node`: relink the (already detached) node `src`
immediately after `dst`, or as the sole element when `dst` is `None`. -/
def splice_back_node {T : Type} (h : Heap T) (l : ListS) (dst : Option Nat)
    (src : Nat) : Heap T × ListS :=
  match dst with
  | none =>
      let h1 := hmodify h src (fun x => { x with next := none })
      let h2 := hmodify h1 src (fun x => { x with prev := none })
      (h2, { l with head := some src, tail := some src })
  | some d =>
      match hfind h d with
      | none => (h, l)
      | some dnd =>
          let dstNext := dnd.next
          let h1 := hmodify h src (fun x => { x with next := dstNext })
          let h2 := hmodify h1 src (fun x => { x with prev := some d })
          let h3 := hmodify h2 d (fun x => { x with next := some src })
          match dstNext with
          | none => (h3, { l with tail := some src })
          | some nx => (hmodify h3 nx (fun x => { x with prev := some src }), l)

/-- `List::splice_self_front`: reposition `src` in front of `dst` within the
same list; a no-op when the two handles coincide. -/
def splice_self_front {T : Type} (h : Heap T) (l : ListS) (dst : Option Nat)
    (src : Nat) : Heap T × ListS :=
  match dst with
  | some d =>
      if d = src then (h, l)
      else
        let (h1, l1) := detach h l src
        splice_front_node h1 l1 (some d) src
  | none =>
      let (h1, l1) := detach h l src
      splice_front_node h1 l1 none src

/-- `List::splice_front` on the destination list `dstL`: detach `src` from the
source list `srcL` and relink it in front of `dst` in the destination;
both lengths are updated. -/
def splice_front {T : Type} (h : Heap T) (dstL : ListS) (dst : Option Nat)
    (srcL : ListS) (src : Nat) : Heap T × ListS × ListS :=
  let (h1, srcL1) := detach h srcL src
  let (h2, dstL1) := splice_front_node h1 dstL dst src
  (h2, { dstL1 with len := dstL1.len + 1 }, { srcL1 with len := srcL1.len - 1 })

/-- `List::splice_back` on the destination list `dstL`.  The source calls
`src.splice_back_node(dst_node, src_node)` — the relinking is performed on the
*source* list (its head/tail fields are the ones updated), while the length
bookkeeping transfers one element from source to destination.  This is
transcribed verbatim. -/
def splice_back {T : Type} (h : Heap T) (dstL : ListS) (dst : Option Nat)
    (srcL : ListS) (src : Nat) : Heap T × ListS × ListS :=
  let (h1, srcL1) := detach h srcL src
  let (h2, srcL2) := splice_back_node h1 srcL1 dst src
  (h2, { dstL with len := dstL.len + 1 }, { srcL2 with len := srcL2.len - 1 })

/-- `List::remove_node`: detach the node, fix the length, free the node and
return its element (the element is `none` only if the handle was dangling,
which is undefined behaviour in the source). -/
def remove_node {T : Type} (h : Heap T) (l : ListS) (node : Nat) :
    Option T × Heap T × ListS :=
  let (h1, l1) := detach h l node
  let l2 := { l1 with len := l1.len - 1 }
  match hfind h1 node with
  | none => (none, h1, l2)
  | some nd => (some nd.element, herase h1 node, l2)

/-- Extract the identifier chain of a list by walking `next` links from the
head; the fuel bounds the walk by the number of allocated nodes. -/
def walkChain {T : Type} (h : Heap T) : Nat → Option Nat → List Nat
  | 0, _ => []
  | _ + 1, none => []
  | fuel + 1, some i =>
      match hfind h i with
      | none => []
      | some nd => i :: walkChain h fuel nd.next

/-- The chain of node identifiers a list currently holds, head first. -/
def chainOf {T : Type} (h : Heap T) (l : ListS) : List Nat :=
  walkChain h h.length l.head

/-! ### The LRU-K cache (`lru_k.rs`) -/

/-- The `Item<K, V>` of `lru_k.rs`: key, value and the access-frequency
counter (a `u32`; it is only ever incremented while strictly below the
threshold, so `Nat` models it exactly). -/
structure KItem (K V : Type) where
  key : K
  value : V
  freq : Nat
deriving DecidableEq

/-- `LRUkCache<K, V>`.  The `HashMap<KeyNode<K, V>, NonNullNode<…>>` stores,
for each entry, a non-owning pointer to the node; the hash key is read through
that same pointer.  It is modelled by the list of stored node identifiers,
with lookups comparing the key read from the heap.  `nextId` is the allocator
for fresh node identifiers. -/
structure KState (K V : Type) where
  heap : Heap (KItem K V)
  nextId : Nat
  map : List Nat
  fcfo : ListS
  lru : ListS
  freq : Nat
  cap : Nat

/-- The key currently stored behind the node pointer `i` (what `KeyNode`'s
`Borrow`/`Hash`/`Eq` implementations read). -/
def keyOf {K V : Type} (h : Heap (KItem K V)) (i : Nat) : Option K :=
  (hfind h i).map (·.element.key)

/-- The frequency counter currently stored behind node pointer `i`. -/
def freqOf {K V : Type} (h : Heap (KItem K V)) (i : Nat) : Option Nat :=
  (hfind h i).map (·.element.freq)

/-- The value currently stored behind node pointer `i` (LRU-K cache). -/
def valOf {K V : Type} (h : Heap (KItem K V)) (i : Nat) : Option V :=
  (hfind h i).map (·.element.value)

/-- `HashMap::get(&k)`: the entry whose stored key equals `k`. -/
def mapGet {K V : Type} [DecidableEq K] (h : Heap (KItem K V)) (m : List Nat)
    (k : K) : Option Nat :=
  m.find? (fun i => decide (keyOf h i = some k))

/-- `HashMap::remove(&k)`: drop the entry whose stored key equals `k`,
returning it if present. -/
def mapRemove {K V : Type} [DecidableEq K] (h : Heap (KItem K V)) (m : List Nat)
    (k : K) : Option Nat × List Nat :=
  match mapGet h m k with
  | none => (none, m)
  | some n => (some n, m.erase n)

/-- `LRUkCache::with_capacity_freq`. -/
def kNew (K V : Type) (cap freq : Nat) : KState K V :=
  ⟨[], 0, [], listNew, listNew, freq, cap⟩

/-- `LRUkCache::update`: promoted items are spliced to the front of the `lru`
list; probationary items have their counter incremented and are promoted once
it reaches the threshold. -/
def kUpdate {K V : Type} (s : KState K V) (n : Nat) : KState K V :=
  match hfind s.heap n with
  | none => s
  | some nd =>
      if nd.element.freq ≥ s.freq then
        let r := splice_self_front s.heap s.lru (begin_node s.lru) n
        { s with heap := r.1, lru := r.2 }
      else
        let h1 := hmodify s.heap n
          (fun x => { x with element := { x.element with freq := x.element.freq + 1 } })
        if nd.element.freq + 1 ≥ s.freq then
          let r := splice_front h1 s.lru (begin_node s.lru) s.fcfo n
          { s with heap := r.1, lru := r.2.1, fcfo := r.2.2 }
        else
          { s with heap := h1 }

/-- `LRUkCache::get`. -/
def kGet {K V : Type} [DecidableEq K] (s : KState K V) (k : K) :
    Option V × KState K V :=
  match mapGet s.heap s.map k with
  | none => (none, s)
  | some n =>
      let s1 := kUpdate s n
      ((hfind s1.heap n).map (·.element.value), s1)

/-- `LRUkCache::disuse`: evict the front of the probationary (`fcfo`) list if
it is non-empty, otherwise the back of the promoted (`lru`) list.  Each `?` of
the source is an early return keeping the mutations made so far. -/
def kDisuse {K V : Type} [DecidableEq K] (s : KState K V) :
    Option Unit × KState K V :=
  if listIsEmpty s.fcfo = false then
    match frontE s.heap s.fcfo with
    | none => (none, s)
    | some it =>
        match mapRemove s.heap s.map it.key with
        | (none, _) => (none, s)
        | (some _, m1) =>
            let r := pop_front s.heap s.fcfo
            match r.1 with
            | none => (none, { s with map := m1, heap := r.2.1, fcfo := r.2.2 })
            | some _ => (some (), { s with map := m1, heap := r.2.1, fcfo := r.2.2 })
  else
    match backE s.heap s.lru with
    | none => (none, s)
    | some it =>
        match mapRemove s.heap s.map it.key with
        | (none, _) => (none, s)
        | (some _, m1) =>
            let r := pop_back s.heap s.lru
            match r.1 with
            | none => (none, { s with map := m1, heap := r.2.1, lru := r.2.2 })
            | some _ => (some (), { s with map := m1, heap := r.2.1, lru := r.2.2 })

/-- `LRUkCache::insert`.  An existing key has its value replaced and runs the
same update path as `get`; a new key may trigger `disuse` and always enters at
the back of the probationary list with frequency zero. -/
def kInsert {K V : Type} [DecidableEq K] (s : KState K V) (k : K) (v : V) :
    Option V × KState K V :=
  match mapGet s.heap s.map k with
  | some n =>
      let old := (hfind s.heap n).map (·.element.value)
      let h1 := hmodify s.heap n
        (fun x => { x with element := { x.element with value := v } })
      let s1 := kUpdate { s with heap := h1 } n
      (old, s1)
  | none =>
      let s1 := if s.map.length + 1 > s.cap then (kDisuse s).2 else s
      let r := push_back s1.heap s1.fcfo s1.nextId ⟨k, v, 0⟩
      let s2 := { s1 with heap := r.1, fcfo := r.2, nextId := s1.nextId + 1 }
      match end_node s2.fcfo with
      | some n => (none, { s2 with map := n :: s2.map })
      | none => (none, s2)

/-- `LRUkCache::remove`: the frequency state decides which list the node is
removed from. -/
def kRemove {K V : Type} [DecidableEq K] (s : KState K V) (k : K) :
    Option V × KState K V :=
  match mapRemove s.heap s.map k with
  | (none, _) => (none, s)
  | (some n, m1) =>
      let s1 := { s with map := m1 }
      match hfind s1.heap n with
      | none => (none, s1)
      | some nd =>
          if nd.element.freq ≥ s.freq then
            let r := remove_node s1.heap s1.lru n
            (r.1.map (·.value), { s1 with heap := r.2.1, lru := r.2.2 })
          else
            let r := remove_node s1.heap s1.fcfo n
            (r.1.map (·.value), { s1 with heap := r.2.1, fcfo := r.2.2 })

/-- `LRUkCache::is_emtpy` (name as in the source). -/
def kIsEmtpy {K V : Type} (s : KState K V) : Bool :=
  s.map.isEmpty && listIsEmpty s.fcfo && listIsEmpty s.lru

/-! ### The LRU cache (`lru.rs`) -/

/-- The `Item<K, V>` of `lru.rs`: key and value. -/
structure LItem (K V : Type) where
  key : K
  value : V
deriving DecidableEq

/-- `LRUCache<K, V>`: hash index, one recency-ordered list, capacity. -/
structure LState (K V : Type) where
  heap : Heap (LItem K V)
  nextId : Nat
  map : List Nat
  list : ListS
  cap : Nat

/-- The key stored behind node pointer `i` of an LRU cache (what `KeyRef`
reads). -/
def lkeyOf {K V : Type} (h : Heap (LItem K V)) (i : Nat) : Option K :=
  (hfind h i).map (·.element.key)

/-- The value currently stored behind node pointer `i` (LRU cache). -/
def lvalOf {K V : Type} (h : Heap (LItem K V)) (i : Nat) : Option V :=
  (hfind h i).map (·.element.value)

/-- `HashMap::get(&k)` for the LRU cache's index. -/
def lmapGet {K V : Type} [DecidableEq K] (h : Heap (LItem K V)) (m : List Nat)
    (k : K) : Option Nat :=
  m.find? (fun i => decide (lkeyOf h i = some k))

/-- `HashMap::remove(&k)` for the LRU cache's index. -/
def lmapRemove {K V : Type} [DecidableEq K] (h : Heap (LItem K V)) (m : List Nat)
    (k : K) : Option Nat × List Nat :=
  match lmapGet h m k with
  | none => (none, m)
  | some n => (some n, m.erase n)

/-- `LRUCache::with_capacity`. -/
def lruNew (K V : Type) (cap : Nat) : LState K V :=
  ⟨[], 0, [], listNew, cap⟩

/-- `LRUCache::update`: move the node to the list front (no-op on an empty
list per the source's guard). -/
def lruUpdate {K V : Type} (s : LState K V) (n : Nat) : LState K V :=
  if listIsEmpty s.list then s
  else
    let r := splice_self_front s.heap s.list (begin_node s.list) n
    { s with heap := r.1, list := r.2 }

/-- `LRUCache::get`. -/
def lruGet {K V : Type} [DecidableEq K] (s : LState K V) (k : K) :
    Option V × LState K V :=
  match lmapGet s.heap s.map k with
  | none => (none, s)
  | some n =>
      let s1 := lruUpdate s n
      ((hfind s1.heap n).map (·.element.value), s1)

/-- `LRUCache::insert`: replace-and-refresh on an existing key; otherwise
evict the list tail when at capacity (read its key, erase the index entry,
then pop the node) and push the new item to the front. -/
def lruInsert {K V : Type} [DecidableEq K] (s : LState K V) (k : K) (v : V) :
    Option V × LState K V :=
  match lmapGet s.heap s.map k with
  | some n =>
      let s1 := lruUpdate s n
      let old := (hfind s1.heap n).map (·.element.value)
      let h1 := hmodify s1.heap n
        (fun x => { x with element := { x.element with value := v } })
      (old, { s1 with heap := h1 })
  | none =>
      let s1 :=
        if s.map.length + 1 > s.cap then
          let s1 :=
            match backE s.heap s.list with
            | some e => { s with map := (lmapRemove s.heap s.map e.key).2 }
            | none => s
          let r := pop_back s1.heap s1.list
          { s1 with heap := r.2.1, list := r.2.2 }
        else s
      let r := push_front s1.heap s1.list s1.nextId ⟨k, v⟩
      let s2 := { s1 with heap := r.1, list := r.2, nextId := s1.nextId + 1 }
      match begin_node s2.list with
      | some n => (none, { s2 with map := n :: s2.map })
      | none => (none, s2)

/-- `LRUCache::remove`. -/
def lruRemove {K V : Type} [DecidableEq K] (s : LState K V) (k : K) :
    Option V × LState K V :=
  match lmapRemove s.heap s.map k with
  | (none, _) => (none, s)
  | (some n, m1) =>
      let r := remove_node s.heap s.list n
      (r.1.map (·.value), { s with map := m1, heap := r.2.1, list := r.2.2 })

/-- `LRUCache::is_emtpy` (name as in the source). -/
def lruIsEmtpy {K V : Type} (s : LState K V) : Bool :=
  s.map.isEmpty && listIsEmpty s.list

/-! ### Operation sequences -/

/-- One call through the `Cache` trait. -/
inductive Op (K V : Type) where
  | get : K → Op K V
  | insert : K → V → Op K V
  | remove : K → Op K V

/-- Run one operation on an LRU-K cache, discarding the returned value. -/
def kStep {K V : Type} [DecidableEq K] (s : KState K V) : Op K V → KState K V
  | .get k => (kGet s k).2
  | .insert k v => (kInsert s k v).2
  | .remove k => (kRemove s k).2

/-- The LRU-K cache state after constructing with `with_capacity_freq(cap, freq)`
and running `ops`. -/
def kRun {K V : Type} [DecidableEq K] (cap freq : Nat) (ops : List (Op K V)) :
    KState K V :=
  ops.foldl kStep (kNew K V cap freq)

/-- Run one operation on an LRU cache, discarding the returned value. -/
def lruStep {K V : Type} [DecidableEq K] (s : LState K V) : Op K V → LState K V
  | .get k => (lruGet s k).2
  | .insert k v => (lruInsert s k v).2
  | .remove k => (lruRemove s k).2

/-- The LRU cache state after constructing with `with_capacity(cap)` and
running `ops`. -/
def lruRun {K V : Type} [DecidableEq K] (cap : Nat) (ops : List (Op K V)) :
    LState K V :=
  ops.foldl lruStep (lruNew K V cap)

/-! ### Representation predicates

`seg h pv ids nx` says that the identifiers `ids` form a doubly linked segment
in heap `h`: the first node's `prev` is `pv`, consecutive nodes point at each
other, and the last node's `next` is `nx`.  `Rep h l ids` says the list `l`
exactly holds the chain `ids`. -/

/-- The `next` pointer expected of a node directly before the segment `ids`
(whose exit pointer is `nx`). -/
def segNext (ids : List Nat) (nx : Option Nat) : Option Nat :=
  match ids with
  | [] => nx
  | j :: _ => some j

/-- The `prev` pointer expected of a node directly after the segment `ids`
(whose entry pointer is `pv`): the segment's last identifier, or `pv` when the
segment is empty. -/
def lastO : List Nat → Option Nat → Option Nat
  | [], pv => pv
  | i :: rest, _ => lastO rest (some i)

/-- A doubly linked segment: entry `prev` pointer `pv`, exit `next`
pointer `nx`. -/
def seg {T : Type} (h : Heap T) : Option Nat → List Nat → Option Nat → Prop
  | _, [], _ => True
  | pv, i :: rest, nx =>
      (∃ nd, hfind h i = some nd ∧ nd.prev = pv ∧ nd.next = segNext rest nx) ∧
      seg h (some i) rest nx

/-- `Rep h l ids`: the list bookkeeping `l` and the heap `h` represent exactly
the node chain `ids` (head first). -/
structure Rep {T : Type} (h : Heap T) (l : ListS) (ids : List Nat) : Prop where
  hseg : seg h none ids none
  hhead : l.head = ids.head?
  htail : l.tail = ids.getLast?
  hlen : l.len = ids.length
  hnodup : ids.Nodup

/-- Well-formedness of a reachable LRU-K cache state: the two lists hold
disjoint chains `pf` (probationary, first-seen order: identifiers are
allocated in increasing order, so `pf` is sorted) and `pl` (promoted,
recency order); the index holds exactly the chain nodes; probationary nodes
have counters below the threshold, promoted nodes at or above it; stored keys
are pairwise distinct; all live nodes are chain nodes with identifiers below
the allocator; and the entry count respects the capacity. -/
structure KInv {K V : Type} (s : KState K V) (pf pl : List Nat) : Prop where
  repF : Rep s.heap s.fcfo pf
  repL : Rep s.heap s.lru pl
  disj : ∀ j ∈ pf, j ∉ pl
  mapNodup : s.map.Nodup
  mapMem : ∀ i, i ∈ s.map ↔ i ∈ pf ++ pl
  freqF : ∀ i ∈ pf, ∃ c, freqOf s.heap i = some c ∧ c < s.freq
  freqL : ∀ i ∈ pl, ∃ c, freqOf s.heap i = some c ∧ s.freq ≤ c
  keysU : ∀ i ∈ pf ++ pl, ∀ j ∈ pf ++ pl, keyOf s.heap i = keyOf s.heap j → i = j
  bound : ∀ i ∈ pf ++ pl, i < s.nextId
  domSub : ∀ i, (hfind s.heap i).isSome → i ∈ pf ++ pl
  sortF : pf.Pairwise (· < ·)
  capB : s.map.length ≤ max s.cap 1

/-- Well-formedness of a reachable LRU cache state (mirror of `KInv` with a
single list and no frequency state). -/
structure LInv {K V : Type} (s : LState K V) (ids : List Nat) : Prop where
  rep : Rep s.heap s.list ids
  mapNodup : s.map.Nodup
  mapMem : ∀ i, i ∈ s.map ↔ i ∈ ids
  keysU : ∀ i ∈ ids, ∀ j ∈ ids, lkeyOf s.heap i = lkeyOf s.heap j → i = j
  bound : ∀ i ∈ ids, i < s.nextId
  domSub : ∀ i, (hfind s.heap i).isSome → i ∈ ids
  capB : s.map.length ≤ max s.cap 1

/-- The light index invariant of an LRU-K cache, which holds for *every*
threshold (including the degenerate `K = 0`): index entries are distinct,
reference live nodes with pairwise distinct keys, and all live identifiers
are below the allocator counter. -/
structure AInv {K V : Type} (s : KState K V) : Prop where
  mapNodup : s.map.Nodup
  alive : ∀ i ∈ s.map, (hfind s.heap i).isSome
  keysU : ∀ i ∈ s.map, ∀ j ∈ s.map, keyOf s.heap i = keyOf s.heap j → i = j
  bound : ∀ i, (hfind s.heap i).isSome → i < s.nextId

/-! ## Heap lemmas -/

theorem hfind_cons {T : Type} (a : Nat) (nd : Node T) (t : Heap T) (i : Nat) :
    hfind ((a, nd) :: t) i = if a = i then some nd else hfind t i := rfl

theorem hmodify_cons {T : Type} (a : Nat) (nd : Node T) (t : Heap T) (i : Nat)
    (f : Node T → Node T) :
    hmodify ((a, nd) :: t) i f =
      (if a = i then (a, f nd) else (a, nd)) :: hmodify t i f := rfl

theorem herase_cons {T : Type} (a : Nat) (nd : Node T) (t : Heap T) (i : Nat) :
    herase ((a, nd) :: t) i =
      if a = i then herase t i else (a, nd) :: herase t i := by
  by_cases ha : a = i <;> simp [herase, List.filter_cons, ha]

theorem hfind_hmodify_self {T : Type} (h : Heap T) (i : Nat) (f : Node T → Node T) :
    hfind (hmodify h i f) i = (hfind h i).map f := by
  induction h with
  | nil => rfl
  | cons p t ih =>
      obtain ⟨a, nd⟩ := p
      by_cases ha : a = i
      · subst ha; simp [hmodify_cons, hfind_cons]
      · simp [hmodify_cons, hfind_cons, ha, ih]

theorem hfind_hmodify_ne {T : Type} (h : Heap T) {i j : Nat} (f : Node T → Node T)
    (hne : j ≠ i) : hfind (hmodify h i f) j = hfind h j := by
  induction h with
  | nil => rfl
  | cons p t ih =>
      obtain ⟨a, nd⟩ := p
      by_cases ha : a = i
      · subst ha
        simp [hmodify_cons, hfind_cons, Ne.symm hne, ih]
      · by_cases haj : a = j <;> simp [hmodify_cons, hfind_cons, ha, haj, hne, ih]

theorem hfind_halloc_same {T : Type} (h : Heap T) (i : Nat) (nd : Node T) :
    hfind (halloc h i nd) i = some nd := by
  simp [halloc, hfind_cons]

theorem hfind_halloc_ne {T : Type} (h : Heap T) {i j : Nat} (nd : Node T)
    (hne : j ≠ i) : hfind (halloc h i nd) j = hfind h j := by
  simp [halloc, hfind_cons, Ne.symm hne]

theorem hfind_herase_self {T : Type} (h : Heap T) (i : Nat) :
    hfind (herase h i) i = none := by
  induction h with
  | nil => rfl
  | cons p t ih =>
      obtain ⟨a, nd⟩ := p
      by_cases ha : a = i
      · simp [herase_cons, ha, ih]
      · simp [herase_cons, hfind_cons, ha, ih]

theorem hfind_herase_ne {T : Type} (h : Heap T) {i j : Nat} (hne : j ≠ i) :
    hfind (herase h i) j = hfind h j := by
  induction h with
  | nil => rfl
  | cons p t ih =>
      obtain ⟨a, nd⟩ := p
      by_cases ha : a = i
      · subst ha
        simp [herase_cons, hfind_cons, Ne.symm hne, ih]
      · by_cases haj : a = j <;> simp [herase_cons, hfind_cons, ha, haj, hne, ih]

theorem length_hmodify {T : Type} (h : Heap T) (i : Nat) (f : Node T → Node T) :
    (hmodify h i f).length = h.length := by
  simp [hmodify]

theorem length_herase_le {T : Type} (h : Heap T) (i : Nat) :
    (herase h i).length ≤ h.length :=
  List.length_filter_le _ _

theorem isSome_hfind_hmodify {T : Type} (h : Heap T) (i j : Nat)
    (f : Node T → Node T) :
    (hfind (hmodify h i f) j).isSome = (hfind h j).isSome := by
  by_cases hj : j = i
  · subst hj; rw [hfind_hmodify_self]; cases hfind h j <;> rfl
  · rw [hfind_hmodify_ne h f hj]

/-! ## Segment lemmas -/

theorem segNext_append (xs ys : List Nat) (nx : Option Nat) :
    segNext (xs ++ ys) nx = segNext xs (segNext ys nx) := by
  cases xs <;> rfl

theorem lastO_eq_getLast? (ids : List Nat) (pv : Option Nat) (hne : ids ≠ []) :
    lastO ids pv = ids.getLast? := by
  induction ids generalizing pv with
  | nil => exact absurd rfl hne
  | cons j rest ih =>
      cases rest with
      | nil => simp [lastO]
      | cons y ys =>
          show lastO (y :: ys) (some j) = (j :: y :: ys).getLast?
          rw [List.getLast?_cons_cons]
          exact ih (some j) (by simp)

theorem lastO_none_eq_getLast? (ids : List Nat) :
    lastO ids none = ids.getLast? := by
  cases ids with
  | nil => rfl
  | cons j rest => exact lastO_eq_getLast? _ _ (by simp)

theorem seg_congr {T : Type} {h h' : Heap T} {pv nx : Option Nat} {ids : List Nat}
    (hagree : ∀ i ∈ ids, hfind h' i = hfind h i) (hs : seg h pv ids nx) :
    seg h' pv ids nx := by
  induction ids generalizing pv with
  | nil => trivial
  | cons i rest ih =>
      obtain ⟨⟨nd, hnd, hp, hn⟩, hrest⟩ := hs
      refine ⟨⟨nd, ?_, hp, hn⟩, ih (fun j hj => hagree j (by simp [hj])) hrest⟩
      rw [hagree i (by simp)]; exact hnd

theorem seg_append {T : Type} (h : Heap T) (pv nx : Option Nat) (xs ys : List Nat) :
    seg h pv (xs ++ ys) nx ↔
      seg h pv xs (segNext ys nx) ∧ seg h (lastO xs pv) ys nx := by
  induction xs generalizing pv with
  | nil => simp [seg, lastO]
  | cons x xs ih =>
      simp only [List.cons_append, seg, List.append_eq, segNext_append, lastO]
      rw [ih]
      tauto

theorem seg_live {T : Type} {h : Heap T} {pv nx : Option Nat} {ids : List Nat}
    (hs : seg h pv ids nx) : ∀ i ∈ ids, ∃ nd, hfind h i = some nd := by
  induction ids generalizing pv with
  | nil => intro i hi; cases hi
  | cons j rest ih =>
      obtain ⟨⟨nd, hnd, _, _⟩, hrest⟩ := hs
      intro i hi
      rcases List.mem_cons.mp hi with rfl | hi
      · exact ⟨nd, hnd⟩
      · exact ih hrest i hi

/-! ## List operation lemmas over the representation predicate -/

theorem segNext_none (ids : List Nat) : segNext ids none = ids.head? := by
  cases ids <;> rfl

theorem nodup_mid {xs ys : List Nat} {n : Nat} (hnd : (xs ++ n :: ys).Nodup) :
    n ∉ xs ∧ n ∉ ys ∧ xs.Nodup ∧ ys.Nodup ∧ ∀ a ∈ xs, a ∉ ys := by
  rw [List.nodup_append] at hnd
  obtain ⟨h1, h2, h3⟩ := hnd
  rw [List.nodup_cons] at h2
  refine ⟨fun hn => h3 hn (List.mem_cons_self n ys), h2.1, h1, h2.2, ?_⟩
  intro a ha hay
  exact h3 ha (List.mem_cons_of_mem n hay)

theorem map_element_hfind_hmodify {T : Type} (h : Heap T) (i j : Nat)
    (f : Node T → Node T) (hf : ∀ nd, (f nd).element = nd.element) :
    (hfind (hmodify h i f) j).map (·.element) = (hfind h j).map (·.element) := by
  by_cases hj : j = i
  · subst hj
    rw [hfind_hmodify_self]
    cases hfind h j with
    | none => rfl
    | some nd => simp [hf]
  · rw [hfind_hmodify_ne h f hj]

theorem map_element_set_prev {T : Type} (h : Heap T) (i j : Nat) (v : Option Nat) :
    (hfind (hmodify h i (fun x => { x with prev := v })) j).map (·.element) =
      (hfind h j).map (·.element) :=
  map_element_hfind_hmodify h i j _ (fun _ => rfl)

theorem map_element_set_next {T : Type} (h : Heap T) (i j : Nat) (v : Option Nat) :
    (hfind (hmodify h i (fun x => { x with next := v })) j).map (·.element) =
      (hfind h j).map (·.element) :=
  map_element_hfind_hmodify h i j _ (fun _ => rfl)

theorem lastO_concat (xs : List Nat) (p : Nat) :
    lastO (xs ++ [p]) none = some p := by
  rw [lastO_none_eq_getLast?, List.getLast?_append_cons]
  rfl

theorem detach_rep {T : Type} {h : Heap T} {l : ListS} {xs ys : List Nat} {n : Nat}
    (hrep : Rep h l (xs ++ n :: ys)) :
    seg (detach h l n).1 none (xs ++ ys) none ∧
    (detach h l n).2.head = (xs ++ ys).head? ∧
    (detach h l n).2.tail = (xs ++ ys).getLast? ∧
    (detach h l n).2.len = l.len ∧
    (∀ j, j ∉ xs → j ∉ ys → hfind (detach h l n).1 j = hfind h j) ∧
    (∀ j, (hfind (detach h l n).1 j).map (·.element) = (hfind h j).map (·.element)) ∧
    (∀ j, (hfind (detach h l n).1 j).isSome = (hfind h j).isSome) := by
  obtain ⟨hseg, hhead, htail, hlen, hnodup⟩ := hrep
  obtain ⟨hnxs, hnys, hxsnd, hysnd, hdisj⟩ := nodup_mid hnodup
  have hsplit := (seg_append h none none xs (n :: ys)).mp hseg
  obtain ⟨hsegxs, hsegn⟩ := hsplit
  obtain ⟨⟨nd, hfnd, hprev, hnext⟩, hsegys⟩ := hsegn
  rcases List.eq_nil_or_concat xs with hxs | ⟨xs0, p, hxs⟩
  · subst hxs
    have hprev' : nd.prev = none := by simpa [lastO] using hprev
    cases ys with
    | nil =>
        have hnext' : nd.next = none := by simpa [segNext] using hnext
        have hdet : detach h l n = (h, ⟨none, none, l.len⟩) := by
          simp [detach, hfnd, hprev', hnext', check_head, check_tail, hhead, htail]
        rw [hdet]
        exact ⟨trivial, rfl, rfl, rfl, fun j _ _ => rfl, fun j => rfl, fun j => rfl⟩
    | cons q ys' =>
        have hnext' : nd.next = some q := by simpa [segNext] using hnext
        have hnq : n ≠ q := fun hc => hnys (hc ▸ List.mem_cons_self q ys')
        obtain ⟨⟨qnd, hqf, hqp, hqn⟩, hsegys'⟩ := hsegys
        have hqys' : q ∉ ys' := (List.nodup_cons.mp hysnd).1
        have hdet : detach h l n =
            (hmodify (hmodify h q (fun x => { x with prev := none })) q
               (fun x => { x with prev := none }),
             { l with head := some q }) := by
          simp only [detach, hfnd, hprev', hnext', check_head]
          rw [hfind_hmodify_ne _ _ hnq, hfnd]
          simp [hnext', hprev']
        rw [hdet]
        have hagree : ∀ i ∈ ys', hfind
            (hmodify (hmodify h q (fun x => { x with prev := none })) q
              (fun x => { x with prev := none })) i = hfind h i := by
          intro i hi
          have hiq : i ≠ q := fun hc => hqys' (hc ▸ hi)
          rw [hfind_hmodify_ne _ _ hiq, hfind_hmodify_ne _ _ hiq]
        have hfq : hfind
            (hmodify (hmodify h q (fun x => { x with prev := none })) q
              (fun x => { x with prev := none })) q =
            some { qnd with prev := none } := by
          rw [hfind_hmodify_self, hfind_hmodify_self, hqf]
          rfl
        refine ⟨⟨⟨{ qnd with prev := none }, hfq, rfl, ?_⟩, seg_congr hagree hsegys'⟩,
          rfl, ?_, rfl, ?_, ?_, ?_⟩
        · simpa using hqn
        · rw [htail]
          simp [List.getLast?_cons_cons]
        · intro j hjx hjy
          have hjq : j ≠ q := fun hc => hjy (hc ▸ List.mem_cons_self q ys')
          rw [hfind_hmodify_ne _ _ hjq, hfind_hmodify_ne _ _ hjq]
        · intro j
          rw [map_element_set_prev, map_element_set_prev]
        · intro j
          rw [isSome_hfind_hmodify, isSome_hfind_hmodify]
  · rw [List.concat_eq_append] at hxs
    subst hxs
    have hprev' : nd.prev = some p := by rw [hprev, lastO_concat]
    have hnp : n ≠ p := fun hc => hnxs (by
      rw [hc]
      exact List.mem_append_right xs0 (List.mem_cons_self p []))
    have hxs0split := (seg_append h none (some n) xs0 [p]).mp hsegxs
    obtain ⟨hsegxs0, hsegp⟩ := hxs0split
    obtain ⟨⟨pnd, hpf, hpp, hpn⟩, -⟩ := hsegp
    have hpn' : pnd.next = some n := by simpa [segNext] using hpn
    have hpxs0 : p ∉ xs0 := by
      have := hxsnd
      rw [List.nodup_append] at this
      exact fun hc => this.2.2 hc (List.mem_cons_self p [])
    cases ys with
    | nil =>
        have hnext' : nd.next = none := by simpa [segNext] using hnext
        have hdet : detach h l n =
            (hmodify (hmodify h p (fun x => { x with next := none })) p
               (fun x => { x with next := none }),
             { l with tail := some p }) := by
          simp only [detach, hfnd, hprev', hnext']
          rw [hfind_hmodify_ne _ _ hnp, hfnd]
          simp [hnext', hprev', check_tail]
        rw [hdet]
        have hagree : ∀ i ∈ xs0, hfind
            (hmodify (hmodify h p (fun x => { x with next := none })) p
              (fun x => { x with next := none })) i = hfind h i := by
          intro i hi
          have hip : i ≠ p := fun hc => hpxs0 (hc ▸ hi)
          rw [hfind_hmodify_ne _ _ hip, hfind_hmodify_ne _ _ hip]
        have hfp : hfind
            (hmodify (hmodify h p (fun x => { x with next := none })) p
              (fun x => { x with next := none })) p =
            some { pnd with next := none } := by
          rw [hfind_hmodify_self, hfind_hmodify_self, hpf]
          rfl
        refine ⟨?_, ?_, ?_, rfl, ?_, ?_, ?_⟩
        · rw [List.append_nil, seg_append]
          refine ⟨seg_congr hagree hsegxs0, ⟨⟨{ pnd with next := none }, hfp, ?_, rfl⟩, trivial⟩⟩
          simpa using hpp
        · rw [hhead, List.append_nil, List.head?_append_of_ne_nil (xs0 ++ [p]) (by simp)]
        · rw [List.append_nil, List.getLast?_append_cons]
          rfl
        · intro j hjx hjy
          have hjp : j ≠ p := fun hc => hjx (by
            rw [hc]
            exact List.mem_append_right xs0 (List.mem_cons_self p []))
          rw [hfind_hmodify_ne _ _ hjp, hfind_hmodify_ne _ _ hjp]
        · intro j
          rw [map_element_set_next, map_element_set_next]
        · intro j
          rw [isSome_hfind_hmodify, isSome_hfind_hmodify]
    | cons q ys' =>
        have hnext' : nd.next = some q := by simpa [segNext] using hnext
        have hnq : n ≠ q := fun hc => hnys (hc ▸ List.mem_cons_self q ys')
        obtain ⟨⟨qnd, hqf, hqp, hqn⟩, hsegys'⟩ := hsegys
        have hqys' : q ∉ ys' := (List.nodup_cons.mp hysnd).1
        have hpq : p ≠ q := fun hc =>
          hdisj p (List.mem_append_right xs0 (List.mem_cons_self p []))
            (hc ▸ List.mem_cons_self q ys')
        have hpmem : p ∈ xs0 ++ [p] := List.mem_append_right xs0 (List.mem_cons_self p [])
        have hdet : detach h l n =
            (hmodify (hmodify h p (fun x => { x with next := some q })) q
               (fun x => { x with prev := some p }), l) := by
          simp only [detach, hfnd, hprev', hnext']
          rw [hfind_hmodify_ne _ _ hnp, hfnd]
          simp [hnext', hprev']
        rw [hdet]
        have hagree0 : ∀ i ∈ xs0, hfind
            (hmodify (hmodify h p (fun x => { x with next := some q })) q
              (fun x => { x with prev := some p })) i = hfind h i := by
          intro i hi
          have hip : i ≠ p := fun hc => hpxs0 (hc ▸ hi)
          have hiq : i ≠ q := fun hc =>
            hdisj i (List.mem_append_left [p] hi) (hc ▸ List.mem_cons_self q ys')
          rw [hfind_hmodify_ne _ _ hiq, hfind_hmodify_ne _ _ hip]
        have hagree' : ∀ i ∈ ys', hfind
            (hmodify (hmodify h p (fun x => { x with next := some q })) q
              (fun x => { x with prev := some p })) i = hfind h i := by
          intro i hi
          have hiq : i ≠ q := fun hc => hqys' (hc ▸ hi)
          have hip : i ≠ p := fun hc => hdisj p hpmem (by
            subst hc
            exact List.mem_cons_of_mem q hi)
          rw [hfind_hmodify_ne _ _ hiq, hfind_hmodify_ne _ _ hip]
        have hfp : hfind
            (hmodify (hmodify h p (fun x => { x with next := some q })) q
              (fun x => { x with prev := some p })) p =
            some { pnd with next := some q } := by
          rw [hfind_hmodify_ne _ _ (Ne.symm hpq).symm, hfind_hmodify_self, hpf]
          rfl
        have hfq : hfind
            (hmodify (hmodify h p (fun x => { x with next := some q })) q
              (fun x => { x with prev := some p })) q =
            some { qnd with prev := some p } := by
          rw [hfind_hmodify_self, hfind_hmodify_ne _ _ hpq.symm, hqf]
          rfl
        refine ⟨?_, ?_, ?_, rfl, ?_, ?_, ?_⟩
        · rw [seg_append]
          constructor
          · rw [seg_append]
            refine ⟨seg_congr hagree0 hsegxs0, ⟨⟨{ pnd with next := some q }, hfp, ?_, rfl⟩, trivial⟩⟩
            simpa using hpp
          · rw [lastO_concat]
            exact ⟨⟨{ qnd with prev := some p }, hfq, rfl, by simpa using hqn⟩,
              seg_congr hagree' hsegys'⟩
        · rw [hhead, List.head?_append_of_ne_nil (xs0 ++ [p]) (by simp),
            List.head?_append_of_ne_nil (xs0 ++ [p]) (by simp)]
        · rw [htail, List.getLast?_append_cons, List.getLast?_append_cons,
            List.getLast?_cons_cons]
        · intro j hjx hjy
          have hjp : j ≠ p := fun hc => hjx (hc ▸ hpmem)
          have hjq : j ≠ q := fun hc => hjy (hc ▸ List.mem_cons_self q ys')
          rw [hfind_hmodify_ne _ _ hjq, hfind_hmodify_ne _ _ hjp]
        · intro j
          rw [map_element_set_prev, map_element_set_next]
        · intro j
          rw [isSome_hfind_hmodify, isSome_hfind_hmodify]


theorem splice_front_node_rep {T : Type} {h : Heap T} {l : ListS} {ids : List Nat}
    {n : Nat} {nd : Node T}
    (hseg : seg h none ids none) (hhead : l.head = ids.head?)
    (htail : l.tail = ids.getLast?) (hnodup : ids.Nodup)
    (hfn : hfind h n = some nd) (hnin : n ∉ ids) :
    seg (splice_front_node h l ids.head? n).1 none (n :: ids) none ∧
    (splice_front_node h l ids.head? n).2.head = some n ∧
    (splice_front_node h l ids.head? n).2.tail = (n :: ids).getLast? ∧
    (splice_front_node h l ids.head? n).2.len = l.len ∧
    (∀ j, j ≠ n → j ∉ ids → hfind (splice_front_node h l ids.head? n).1 j = hfind h j) ∧
    (∀ j, (hfind (splice_front_node h l ids.head? n).1 j).map (·.element) =
      (hfind h j).map (·.element)) ∧
    (∀ j, (hfind (splice_front_node h l ids.head? n).1 j).isSome = (hfind h j).isSome) := by
  cases ids with
  | nil =>
      have hres : splice_front_node h l (List.head? []) n =
          (hmodify (hmodify h n (fun x => { x with next := none })) n
            (fun x => { x with prev := none }),
           { l with head := some n, tail := some n }) := rfl
      rw [hres]
      refine ⟨⟨⟨{ nd with next := none, prev := none }, ?_, rfl, rfl⟩, trivial⟩,
        rfl, by simp, rfl, ?_, ?_, ?_⟩
      · rw [hfind_hmodify_self, hfind_hmodify_self, hfn]
        rfl
      · intro j hjn _
        rw [hfind_hmodify_ne _ _ hjn, hfind_hmodify_ne _ _ hjn]
      · intro j
        rw [map_element_set_prev, map_element_set_next]
      · intro j
        rw [isSome_hfind_hmodify, isSome_hfind_hmodify]
  | cons q rest =>
      obtain ⟨⟨qnd, hqf, hqp, hqn⟩, hsegrest⟩ := hseg
      have hqp' : qnd.prev = none := hqp
      have hnq : n ≠ q := fun hc => hnin (hc ▸ List.mem_cons_self q rest)
      have hqrest : q ∉ rest := (List.nodup_cons.mp hnodup).1
      have hres : splice_front_node h l (List.head? (q :: rest)) n =
          (hmodify (hmodify (hmodify h n (fun x => { x with next := some q })) n
              (fun x => { x with prev := none })) q
            (fun x => { x with prev := some n }),
           { l with head := some n }) := by
        simp [splice_front_node, hqf, hqp']
      rw [hres]
      have hfn' : hfind (hmodify (hmodify (hmodify h n
          (fun x => { x with next := some q })) n
            (fun x => { x with prev := none })) q
          (fun x => { x with prev := some n })) n =
          some { nd with next := some q, prev := none } := by
        rw [hfind_hmodify_ne _ _ hnq, hfind_hmodify_self, hfind_hmodify_self, hfn]
        rfl
      have hfq' : hfind (hmodify (hmodify (hmodify h n
          (fun x => { x with next := some q })) n
            (fun x => { x with prev := none })) q
          (fun x => { x with prev := some n })) q =
          some { qnd with prev := some n } := by
        rw [hfind_hmodify_self, hfind_hmodify_ne _ _ (Ne.symm hnq),
          hfind_hmodify_ne _ _ (Ne.symm hnq), hqf]
        rfl
      have hagree : ∀ i ∈ rest, hfind (hmodify (hmodify (hmodify h n
          (fun x => { x with next := some q })) n
            (fun x => { x with prev := none })) q
          (fun x => { x with prev := some n })) i = hfind h i := by
        intro i hi
        have hiq : i ≠ q := fun hc => hqrest (hc ▸ hi)
        have hin : i ≠ n := fun hc => hnin (hc ▸ List.mem_cons_of_mem q hi)
        rw [hfind_hmodify_ne _ _ hiq, hfind_hmodify_ne _ _ hin,
          hfind_hmodify_ne _ _ hin]
      refine ⟨⟨⟨{ nd with next := some q, prev := none }, hfn', rfl, rfl⟩,
        ⟨{ qnd with prev := some n }, hfq', rfl, by simpa using hqn⟩,
        seg_congr hagree hsegrest⟩,
        rfl, by rw [htail, List.getLast?_cons_cons], rfl, ?_, ?_, ?_⟩
      · intro j hjn hjids
        have hjq : j ≠ q := fun hc => hjids (hc ▸ List.mem_cons_self q rest)
        rw [hfind_hmodify_ne _ _ hjq, hfind_hmodify_ne _ _ hjn,
          hfind_hmodify_ne _ _ hjn]
      · intro j
        rw [map_element_set_prev, map_element_set_prev, map_element_set_next]
      · intro j
        rw [isSome_hfind_hmodify, isSome_hfind_hmodify, isSome_hfind_hmodify]

theorem splice_self_front_rep {T : Type} {h : Heap T} {l : ListS} {xs ys : List Nat}
    {n : Nat} (hrep : Rep h l (xs ++ n :: ys)) :
    Rep (splice_self_front h l l.head n).1 (splice_self_front h l l.head n).2
      (n :: (xs ++ ys)) ∧
    (∀ j, j ∉ xs → j ∉ ys → j ≠ n →
      hfind (splice_self_front h l l.head n).1 j = hfind h j) ∧
    (∀ j, (hfind (splice_self_front h l l.head n).1 j).map (·.element) =
      (hfind h j).map (·.element)) ∧
    (∀ j, (hfind (splice_self_front h l l.head n).1 j).isSome = (hfind h j).isSome) := by
  obtain ⟨hnxs, hnys, hxsnd, hysnd, hdisj⟩ := nodup_mid hrep.hnodup
  have hfn : ∃ nd, hfind h n = some nd :=
    seg_live hrep.hseg n (List.mem_append_right xs (List.mem_cons_self n ys))
  obtain ⟨nd, hfn⟩ := hfn
  cases xs with
  | nil =>
      have hhead : l.head = some n := hrep.hhead
      have hres : splice_self_front h l l.head n = (h, l) := by
        rw [hhead]
        simp [splice_self_front]
      rw [hres]
      exact ⟨by simpa using hrep, fun j _ _ _ => rfl, fun j => rfl, fun j => rfl⟩
  | cons x xs' =>
      have hxn : x ≠ n := fun hc => hnxs (hc ▸ List.mem_cons_self x xs')
      have hhead : l.head = some x := by
        rw [hrep.hhead]
        rfl
      have hd := detach_rep hrep
      have hres : splice_self_front h l l.head n =
          splice_front_node (detach h l n).1 (detach h l n).2 (some x) n := by
        rw [hhead]
        simp [splice_self_front, hxn]
      have hfn1 : hfind (detach h l n).1 n = some nd := by
        rw [hd.2.2.2.2.1 n hnxs hnys, hfn]
      have hnin : n ∉ (x :: xs') ++ ys := by
        intro hc
        rcases List.mem_append.mp hc with hc | hc
        · exact hnxs hc
        · exact hnys hc
      have hhead1 : (detach h l n).2.head = ((x :: xs') ++ ys).head? := hd.2.1
      have hshape : ((x :: xs') ++ ys).head? = some x := rfl
      have hsub : List.Sublist ((x :: xs') ++ ys) ((x :: xs') ++ n :: ys) :=
        List.Sublist.append (List.Sublist.refl _)
          (List.sublist_cons_of_sublist n (List.Sublist.refl ys))
      have hsp := splice_front_node_rep (l := (detach h l n).2) hd.1 hhead1
        hd.2.2.1 (hrep.hnodup.sublist hsub) hfn1 hnin
      rw [hshape] at hsp
      rw [hres]
      refine ⟨⟨hsp.1, hsp.2.1, ?_, ?_, ?_⟩, ?_, ?_, ?_⟩
      · rw [hsp.2.2.1]
      · rw [hsp.2.2.2.1, hd.2.2.2.1, hrep.hlen]
        simp only [List.length_append, List.length_cons]
        omega
      · exact List.nodup_cons.mpr ⟨hnin, hrep.hnodup.sublist hsub⟩
      · intro j hjx hjy hjn
        rw [hsp.2.2.2.2.1 j hjn (fun hc => by
          rcases List.mem_append.mp hc with hc | hc
          · exact hjx hc
          · exact hjy hc), hd.2.2.2.2.1 j hjx hjy]
      · intro j
        rw [hsp.2.2.2.2.2.1 j, hd.2.2.2.2.2.1 j]
      · intro j
        rw [hsp.2.2.2.2.2.2 j, hd.2.2.2.2.2.2 j]

theorem splice_front_rep {T : Type} {h : Heap T} {A B : ListS} {aIds xs ys : List Nat}
    {n : Nat} (hA : Rep h A aIds) (hB : Rep h B (xs ++ n :: ys))
    (hdisj : ∀ j ∈ aIds, j ∉ xs ++ n :: ys) :
    Rep (splice_front h A A.head B n).1 (splice_front h A A.head B n).2.1
      (n :: aIds) ∧
    Rep (splice_front h A A.head B n).1 (splice_front h A A.head B n).2.2
      (xs ++ ys) ∧
    (∀ j, j ∉ aIds → j ∉ xs → j ∉ ys → j ≠ n →
      hfind (splice_front h A A.head B n).1 j = hfind h j) ∧
    (∀ j, (hfind (splice_front h A A.head B n).1 j).map (·.element) =
      (hfind h j).map (·.element)) ∧
    (∀ j, (hfind (splice_front h A A.head B n).1 j).isSome = (hfind h j).isSome) := by
  obtain ⟨hnxs, hnys, hxsnd, hysnd, hdisjB⟩ := nodup_mid hB.hnodup
  have hnmem : n ∈ xs ++ n :: ys := List.mem_append_right xs (List.mem_cons_self n ys)
  have hnA : n ∉ aIds := fun hc => hdisj n hc hnmem
  obtain ⟨nd, hfn⟩ := seg_live hB.hseg n hnmem
  have hd := detach_rep hB
  have hfn1 : hfind (detach h B n).1 n = some nd := by
    rw [hd.2.2.2.2.1 n hnxs hnys, hfn]
  -- A's representation survives the detach on B
  have hagreeA : ∀ i ∈ aIds, hfind (detach h B n).1 i = hfind h i := by
    intro i hi
    refine hd.2.2.2.2.1 i ?_ ?_
    · exact fun hc => hdisj i hi (List.mem_append_left _ hc)
    · exact fun hc => hdisj i hi (List.mem_append_right _ (List.mem_cons_of_mem n hc))
  have hsegA1 : seg (detach h B n).1 none aIds none := seg_congr hagreeA hA.hseg
  have hres : splice_front h A A.head B n =
      ((splice_front_node (detach h B n).1 A A.head n).1,
       { (splice_front_node (detach h B n).1 A A.head n).2 with
          len := (splice_front_node (detach h B n).1 A A.head n).2.len + 1 },
       { (detach h B n).2 with len := (detach h B n).2.len - 1 }) := rfl
  have hheadA : A.head = aIds.head? := hA.hhead
  have hsp := splice_front_node_rep (l := A) hsegA1 hA.hhead hA.htail hA.hnodup hfn1 hnA
  rw [hres, hheadA]
  refine ⟨⟨hsp.1, hsp.2.1, by rw [hsp.2.2.1], ?_, ?_⟩,
    ⟨?_, ?_, ?_, ?_, ?_⟩, ?_, ?_, ?_⟩
  · rw [hsp.2.2.2.1, hA.hlen]
    rfl
  · exact List.nodup_cons.mpr ⟨hnA, hA.hnodup⟩
  -- source list representation
  · refine seg_congr ?_ hd.1
    intro i hi
    have hiA : i ∉ aIds := by
      intro hc
      rcases List.mem_append.mp hi with hx | hy
      · exact hdisj i hc (List.mem_append_left _ hx)
      · exact hdisj i hc (List.mem_append_right _ (List.mem_cons_of_mem n hy))
    have hin : i ≠ n := by
      intro hc
      subst hc
      rcases List.mem_append.mp hi with hx | hy
      · exact hnxs hx
      · exact hnys hy
    exact hsp.2.2.2.2.1 i hin hiA
  · exact hd.2.1
  · exact hd.2.2.1
  · rw [hd.2.2.2.1, hB.hlen]
    simp only [List.length_append, List.length_cons]
    omega
  · exact hB.hnodup.sublist (List.Sublist.append (List.Sublist.refl _)
      (List.sublist_cons_of_sublist n (List.Sublist.refl ys)))
  · intro j hjA hjx hjy hjn
    rw [hsp.2.2.2.2.1 j hjn hjA, hd.2.2.2.2.1 j hjx hjy]
  · intro j
    rw [hsp.2.2.2.2.2.1 j, hd.2.2.2.2.2.1 j]
  · intro j
    rw [hsp.2.2.2.2.2.2 j, hd.2.2.2.2.2.2 j]

theorem push_back_rep {T : Type} {h : Heap T} {l : ListS} {ids : List Nat}
    {fresh : Nat} {ele : T} (hrep : Rep h l ids) (hfree : hfind h fresh = none) :
    Rep (push_back h l fresh ele).1 (push_back h l fresh ele).2 (ids ++ [fresh]) ∧
    (∀ j, j ∉ ids → j ≠ fresh → hfind (push_back h l fresh ele).1 j = hfind h j) ∧
    (∀ j, j ≠ fresh → (hfind (push_back h l fresh ele).1 j).map (·.element) =
      (hfind h j).map (·.element)) ∧
    (∀ j, j ≠ fresh → (hfind (push_back h l fresh ele).1 j).isSome =
      (hfind h j).isSome) ∧
    ((hfind (push_back h l fresh ele).1 fresh).map (·.element) = some ele) := by
  have hfreshnin : fresh ∉ ids := by
    intro hc
    obtain ⟨nd, hnd⟩ := seg_live hrep.hseg fresh hc
    rw [hfree] at hnd
    cases hnd
  rcases List.eq_nil_or_concat ids with hids | ⟨xs0, t, hids⟩
  · subst hids
    have htail : l.tail = none := hrep.htail
    have hres : push_back h l fresh ele =
        (halloc h fresh ⟨none, none, ele⟩,
         { l with head := some fresh, tail := some fresh, len := l.len + 1 }) := by
      rw [push_back, htail]
    rw [hres]
    refine ⟨⟨⟨⟨⟨none, none, ele⟩, hfind_halloc_same h fresh _, rfl, rfl⟩, trivial⟩,
      rfl, by simp, by simp [hrep.hlen], by simp⟩, ?_, ?_, ?_, ?_⟩
    · intro j _ hjf
      exact hfind_halloc_ne h _ hjf
    · intro j hjf
      rw [hfind_halloc_ne h _ hjf]
    · intro j hjf
      rw [hfind_halloc_ne h _ hjf]
    · rw [hfind_halloc_same]
      rfl
  · rw [List.concat_eq_append] at hids
    subst hids
    have htail : l.tail = some t := by
      rw [hrep.htail, List.getLast?_append_cons]
      rfl
    have htf : t ≠ fresh := by
      intro hc
      exact hfreshnin (hc ▸ List.mem_append_right xs0 (List.mem_cons_self t []))
    obtain ⟨hsegxs0, hsegt⟩ := (seg_append h none none xs0 [t]).mp hrep.hseg
    obtain ⟨⟨tnd, htf', htp, htn⟩, -⟩ := hsegt
    have htn' : tnd.next = none := htn
    have htxs0 : t ∉ xs0 := by
      have := hrep.hnodup
      rw [List.nodup_append] at this
      exact fun hc => this.2.2 hc (List.mem_cons_self t [])
    have hres : push_back h l fresh ele =
        (hmodify (hmodify (halloc h fresh ⟨none, none, ele⟩) fresh
            (fun nd => { nd with prev := some t })) t
          (fun nd => { nd with next := some fresh }),
         { l with tail := some fresh, len := l.len + 1 }) := by
      rw [push_back, htail]
    rw [hres]
    have hft : hfind (hmodify (hmodify (halloc h fresh ⟨none, none, ele⟩) fresh
        (fun nd => { nd with prev := some t })) t
          (fun nd => { nd with next := some fresh })) t =
        some { tnd with next := some fresh } := by
      rw [hfind_hmodify_self, hfind_hmodify_ne _ _ htf, hfind_halloc_ne h _ htf, htf']
      rfl
    have hffresh : hfind (hmodify (hmodify (halloc h fresh ⟨none, none, ele⟩) fresh
        (fun nd => { nd with prev := some t })) t
          (fun nd => { nd with next := some fresh })) fresh =
        some ⟨none, some t, ele⟩ := by
      rw [hfind_hmodify_ne _ _ (Ne.symm htf), hfind_hmodify_self, hfind_halloc_same]
      rfl
    have hagree : ∀ i ∈ xs0, hfind (hmodify (hmodify (halloc h fresh ⟨none, none, ele⟩)
        fresh (fun nd => { nd with prev := some t })) t
          (fun nd => { nd with next := some fresh })) i = hfind h i := by
      intro i hi
      have hit : i ≠ t := fun hc => htxs0 (hc ▸ hi)
      have hif : i ≠ fresh := fun hc =>
        hfreshnin (hc ▸ List.mem_append_left _ hi)
      rw [hfind_hmodify_ne _ _ hit, hfind_hmodify_ne _ _ hif, hfind_halloc_ne h _ hif]
    refine ⟨⟨?_, ?_, ?_, ?_, ?_⟩, ?_, ?_, ?_, ?_⟩
    · rw [show (xs0 ++ [t]) ++ [fresh] = xs0 ++ ([t] ++ [fresh]) from by
        rw [List.append_assoc], seg_append]
      constructor
      · exact seg_congr hagree hsegxs0
      · refine ⟨⟨{ tnd with next := some fresh }, hft, by simpa using htp, rfl⟩,
          ⟨⟨none, some t, ele⟩, hffresh, rfl, rfl⟩, trivial⟩
    · rw [hrep.hhead, List.head?_append_of_ne_nil (xs0 ++ [t]) (by simp)]
    · rw [List.getLast?_append_cons]
      rfl
    · rw [hrep.hlen]
      simp
    · rw [List.nodup_append]
      refine ⟨hrep.hnodup, List.nodup_singleton fresh, ?_⟩
      intro a ha hc
      rw [List.mem_singleton] at hc
      subst hc
      exact hfreshnin ha
    · intro j hjids hjf
      have hjt : j ≠ t := fun hc => hjids (by
        rw [hc]
        exact List.mem_append_right xs0 (List.mem_cons_self t []))
      rw [hfind_hmodify_ne _ _ hjt, hfind_hmodify_ne _ _ hjf, hfind_halloc_ne h _ hjf]
    · intro j hjf
      rw [map_element_set_next, map_element_set_prev]
      by_cases hjt : j = t
      · subst hjt
        rw [hfind_halloc_ne h _ hjf]
      · rw [hfind_halloc_ne h _ hjf]
    · intro j hjf
      rw [isSome_hfind_hmodify, isSome_hfind_hmodify, hfind_halloc_ne h _ hjf]
    · rw [hffresh]
      rfl

theorem push_front_rep {T : Type} {h : Heap T} {l : ListS} {ids : List Nat}
    {fresh : Nat} {ele : T} (hrep : Rep h l ids) (hfree : hfind h fresh = none) :
    Rep (push_front h l fresh ele).1 (push_front h l fresh ele).2 (fresh :: ids) ∧
    (∀ j, j ∉ ids → j ≠ fresh → hfind (push_front h l fresh ele).1 j = hfind h j) ∧
    (∀ j, j ≠ fresh → (hfind (push_front h l fresh ele).1 j).map (·.element) =
      (hfind h j).map (·.element)) ∧
    (∀ j, j ≠ fresh → (hfind (push_front h l fresh ele).1 j).isSome =
      (hfind h j).isSome) ∧
    ((hfind (push_front h l fresh ele).1 fresh).map (·.element) = some ele) := by
  have hfreshnin : fresh ∉ ids := by
    intro hc
    obtain ⟨nd, hnd⟩ := seg_live hrep.hseg fresh hc
    rw [hfree] at hnd
    cases hnd
  cases ids with
  | nil =>
      have hhead : l.head = none := hrep.hhead
      have hres : push_front h l fresh ele =
          (halloc h fresh ⟨none, none, ele⟩,
           { l with head := some fresh, tail := some fresh, len := l.len + 1 }) := by
        rw [push_front, hhead]
      rw [hres]
      refine ⟨⟨⟨⟨⟨none, none, ele⟩, hfind_halloc_same h fresh _, rfl, rfl⟩, trivial⟩,
        rfl, by simp, by simp [hrep.hlen], by simp⟩, ?_, ?_, ?_, ?_⟩
      · intro j _ hjf
        exact hfind_halloc_ne h _ hjf
      · intro j hjf
        rw [hfind_halloc_ne h _ hjf]
      · intro j hjf
        rw [hfind_halloc_ne h _ hjf]
      · rw [hfind_halloc_same]
        rfl
  | cons q rest =>
      have hhead : l.head = some q := hrep.hhead
      obtain ⟨⟨qnd, hqf, hqp, hqn⟩, hsegrest⟩ := hrep.hseg
      have hqf' : q ≠ fresh := fun hc => hfreshnin (hc ▸ List.mem_cons_self q rest)
      have hqrest : q ∉ rest := (List.nodup_cons.mp hrep.hnodup).1
      have hres : push_front h l fresh ele =
          (hmodify (hmodify (halloc h fresh ⟨none, none, ele⟩) fresh
              (fun nd => { nd with next := some q })) q
            (fun nd => { nd with prev := some fresh }),
           { l with head := some fresh, len := l.len + 1 }) := by
        rw [push_front, hhead]
      rw [hres]
      have hfq : hfind (hmodify (hmodify (halloc h fresh ⟨none, none, ele⟩) fresh
          (fun nd => { nd with next := some q })) q
            (fun nd => { nd with prev := some fresh })) q =
          some { qnd with prev := some fresh } := by
        rw [hfind_hmodify_self, hfind_hmodify_ne _ _ hqf', hfind_halloc_ne h _ hqf', hqf]
        rfl
      have hffresh : hfind (hmodify (hmodify (halloc h fresh ⟨none, none, ele⟩) fresh
          (fun nd => { nd with next := some q })) q
            (fun nd => { nd with prev := some fresh })) fresh =
          some ⟨some q, none, ele⟩ := by
        rw [hfind_hmodify_ne _ _ (Ne.symm hqf'), hfind_hmodify_self, hfind_halloc_same]
        rfl
      have hagree : ∀ i ∈ rest, hfind (hmodify (hmodify (halloc h fresh ⟨none, none, ele⟩)
          fresh (fun nd => { nd with next := some q })) q
            (fun nd => { nd with prev := some fresh })) i = hfind h i := by
        intro i hi
        have hiq : i ≠ q := fun hc => hqrest (hc ▸ hi)
        have hif : i ≠ fresh := fun hc =>
          hfreshnin (hc ▸ List.mem_cons_of_mem q hi)
        rw [hfind_hmodify_ne _ _ hiq, hfind_hmodify_ne _ _ hif, hfind_halloc_ne h _ hif]
      refine ⟨⟨⟨⟨⟨some q, none, ele⟩, hffresh, rfl, rfl⟩,
        ⟨{ qnd with prev := some fresh }, hfq, rfl, by simpa using hqn⟩,
        seg_congr hagree hsegrest⟩,
        rfl, by rw [hrep.htail, List.getLast?_cons_cons], by simp [hrep.hlen],
        List.nodup_cons.mpr ⟨hfreshnin, hrep.hnodup⟩⟩, ?_, ?_, ?_, ?_⟩
      · intro j hjids hjf
        have hjq : j ≠ q := fun hc => hjids (hc ▸ List.mem_cons_self q rest)
        rw [hfind_hmodify_ne _ _ hjq, hfind_hmodify_ne _ _ hjf, hfind_halloc_ne h _ hjf]
      · intro j hjf
        rw [map_element_set_prev, map_element_set_next, hfind_halloc_ne h _ hjf]
      · intro j hjf
        rw [isSome_hfind_hmodify, isSome_hfind_hmodify, hfind_halloc_ne h _ hjf]
      · rw [hffresh]
        rfl

theorem pop_front_rep {T : Type} {h : Heap T} {l : ListS} {i : Nat} {rest : List Nat}
    (hrep : Rep h l (i :: rest)) :
    (∃ nd, hfind h i = some nd ∧ (pop_front h l).1 = some nd.element) ∧
    Rep (pop_front h l).2.1 (pop_front h l).2.2 rest ∧
    hfind (pop_front h l).2.1 i = none ∧
    (∀ j, j ≠ i → j ∉ rest → hfind (pop_front h l).2.1 j = hfind h j) ∧
    (∀ j, j ≠ i → (hfind (pop_front h l).2.1 j).map (·.element) =
      (hfind h j).map (·.element)) ∧
    (∀ j, j ≠ i → (hfind (pop_front h l).2.1 j).isSome = (hfind h j).isSome) := by
  obtain ⟨⟨nd, hfi, hip, hin⟩, hsegrest⟩ := hrep.hseg
  have hhead : l.head = some i := hrep.hhead
  have hirest : i ∉ rest := (List.nodup_cons.mp hrep.hnodup).1
  cases rest with
  | nil =>
      have hin' : nd.next = none := hin
      have htail : l.tail = some i := hrep.htail
      have hres : pop_front h l = (some nd.element, herase h i, ⟨none, none, l.len - 1⟩) := by
        rw [pop_front, hhead]
        simp [hfi, hin', check_head, htail]
      rw [hres]
      refine ⟨⟨nd, hfi, rfl⟩, ⟨trivial, rfl, rfl, by simp [hrep.hlen], by simp⟩,
        hfind_herase_self h i, ?_, ?_, ?_⟩
      · intro j hji _
        exact hfind_herase_ne h hji
      · intro j hji
        rw [hfind_herase_ne h hji]
      · intro j hji
        rw [hfind_herase_ne h hji]
  | cons q rest' =>
      have hin' : nd.next = some q := hin
      obtain ⟨⟨qnd, hqf, hqp, hqn⟩, hsegrest'⟩ := hsegrest
      have hiq : i ≠ q := fun hc => hirest (hc ▸ List.mem_cons_self q rest')
      have hqrest' : q ∉ rest' := (List.nodup_cons.mp (List.nodup_cons.mp hrep.hnodup).2).1
      have hres : pop_front h l =
          (some nd.element,
           hmodify (herase h i) q (fun x => { x with prev := none }),
           { l with head := some q, len := l.len - 1 }) := by
        rw [pop_front, hhead]
        simp [hfi, hin', check_head]
      rw [hres]
      have hfq : hfind (hmodify (herase h i) q (fun x => { x with prev := none })) q =
          some { qnd with prev := none } := by
        rw [hfind_hmodify_self, hfind_herase_ne h (Ne.symm hiq), hqf]
        rfl
      have hagree : ∀ a ∈ rest', hfind (hmodify (herase h i) q
          (fun x => { x with prev := none })) a = hfind h a := by
        intro a ha
        have haq : a ≠ q := fun hc => hqrest' (hc ▸ ha)
        have hai : a ≠ i := fun hc =>
          hirest (hc ▸ List.mem_cons_of_mem q ha)
        rw [hfind_hmodify_ne _ _ haq, hfind_herase_ne h hai]
      refine ⟨⟨nd, hfi, rfl⟩,
        ⟨⟨⟨{ qnd with prev := none }, hfq, rfl, by simpa using hqn⟩,
          seg_congr hagree hsegrest'⟩,
         rfl, by rw [hrep.htail, List.getLast?_cons_cons],
         by rw [hrep.hlen]; rfl,
         (List.nodup_cons.mp hrep.hnodup).2⟩, ?_, ?_, ?_, ?_⟩
      · rw [hfind_hmodify_ne _ _ hiq, hfind_herase_self]
      · intro j hji hjrest
        have hjq : j ≠ q := fun hc => hjrest (hc ▸ List.mem_cons_self q rest')
        rw [hfind_hmodify_ne _ _ hjq, hfind_herase_ne h hji]
      · intro j hji
        rw [map_element_set_prev, hfind_herase_ne h hji]
      · intro j hji
        rw [isSome_hfind_hmodify, hfind_herase_ne h hji]

theorem pop_back_rep {T : Type} {h : Heap T} {l : ListS} {t : Nat} {ids : List Nat}
    (hrep : Rep h l (ids ++ [t])) :
    (∃ nd, hfind h t = some nd ∧ (pop_back h l).1 = some nd.element) ∧
    Rep (pop_back h l).2.1 (pop_back h l).2.2 ids ∧
    hfind (pop_back h l).2.1 t = none ∧
    (∀ j, j ≠ t → j ∉ ids → hfind (pop_back h l).2.1 j = hfind h j) ∧
    (∀ j, j ≠ t → (hfind (pop_back h l).2.1 j).map (·.element) =
      (hfind h j).map (·.element)) ∧
    (∀ j, j ≠ t → (hfind (pop_back h l).2.1 j).isSome = (hfind h j).isSome) := by
  have htail : l.tail = some t := by
    rw [hrep.htail, List.getLast?_append_cons]
    rfl
  have htids : t ∉ ids := by
    have := hrep.hnodup
    rw [List.nodup_append] at this
    exact fun hc => this.2.2 hc (List.mem_cons_self t [])
  obtain ⟨hsegids, hsegt⟩ := (seg_append h none none ids [t]).mp hrep.hseg
  obtain ⟨⟨tnd, htf, htp, htn⟩, -⟩ := hsegt
  have htn' : tnd.next = none := htn
  rcases List.eq_nil_or_concat ids with hids | ⟨xs0, p, hids⟩
  · subst hids
    have htp' : tnd.prev = none := htp
    have hhead : l.head = some t := hrep.hhead
    have hres : pop_back h l = (some tnd.element, herase h t, ⟨none, none, l.len - 1⟩) := by
      rw [pop_back, htail]
      simp [htf, htp', check_tail, hhead]
    rw [hres]
    refine ⟨⟨tnd, htf, rfl⟩, ⟨trivial, rfl, rfl, by simp [hrep.hlen], by simp⟩,
      hfind_herase_self h t, ?_, ?_, ?_⟩
    · intro j hjt _
      exact hfind_herase_ne h hjt
    · intro j hjt
      rw [hfind_herase_ne h hjt]
    · intro j hjt
      rw [hfind_herase_ne h hjt]
  · rw [List.concat_eq_append] at hids
    subst hids
    have htp' : tnd.prev = some p := by
      rw [htp, lastO_concat]
    have hpt : p ≠ t := fun hc => htids (by
      rw [hc]
      exact List.mem_append_right xs0 (List.mem_cons_self t []))
    obtain ⟨hsegxs0, hsegp⟩ := (seg_append h none (some t) xs0 [p]).mp hsegids
    obtain ⟨⟨pnd, hpf, hpp, hpn⟩, -⟩ := hsegp
    have hpn' : pnd.next = some t := hpn
    have hpxs0 : p ∉ xs0 := by
      have h2 := hrep.hnodup
      rw [List.nodup_append] at h2
      have h3 := h2.1
      rw [List.nodup_append] at h3
      exact fun hc => h3.2.2 hc (List.mem_cons_self p [])
    have hres : pop_back h l =
        (some tnd.element,
         hmodify (herase h t) p (fun x => { x with next := none }),
         { l with tail := some p, len := l.len - 1 }) := by
      rw [pop_back, htail]
      simp [htf, htp', check_tail]
    rw [hres]
    have hfp : hfind (hmodify (herase h t) p (fun x => { x with next := none })) p =
        some { pnd with next := none } := by
      rw [hfind_hmodify_self, hfind_herase_ne h hpt, hpf]
      rfl
    have hagree : ∀ a ∈ xs0, hfind (hmodify (herase h t) p
        (fun x => { x with next := none })) a = hfind h a := by
      intro a ha
      have hap : a ≠ p := fun hc => hpxs0 (hc ▸ ha)
      have hat : a ≠ t := fun hc => htids (by
        rw [← hc]
        exact List.mem_append_left _ ha)
      rw [hfind_hmodify_ne _ _ hap, hfind_herase_ne h hat]
    refine ⟨⟨tnd, htf, rfl⟩,
      ⟨?_, ?_, ?_, ?_, ?_⟩, ?_, ?_, ?_, ?_⟩
    · rw [seg_append]
      refine ⟨seg_congr hagree hsegxs0, ⟨⟨{ pnd with next := none }, hfp, by simpa using hpp, rfl⟩, trivial⟩⟩
    · rw [hrep.hhead, List.head?_append_of_ne_nil (xs0 ++ [p]) (by simp)]
    · rw [List.getLast?_append_cons]
      rfl
    · rw [hrep.hlen]
      simp only [List.length_append, List.length_cons, List.length_nil]
      omega
    · exact hrep.hnodup.sublist (List.sublist_append_left _ _)
    · rw [hfind_hmodify_ne _ _ (Ne.symm hpt), hfind_herase_self]
    · intro j hjt hjids
      have hjp : j ≠ p := fun hc => hjids (by
        rw [hc]
        exact List.mem_append_right xs0 (List.mem_cons_self p []))
      rw [hfind_hmodify_ne _ _ hjp, hfind_herase_ne h hjt]
    · intro j hjt
      rw [map_element_set_next, hfind_herase_ne h hjt]
    · intro j hjt
      rw [isSome_hfind_hmodify, hfind_herase_ne h hjt]

theorem remove_node_rep {T : Type} {h : Heap T} {l : ListS} {xs ys : List Nat}
    {n : Nat} (hrep : Rep h l (xs ++ n :: ys)) :
    (∃ nd, hfind h n = some nd ∧ (remove_node h l n).1 = some nd.element) ∧
    Rep (remove_node h l n).2.1 (remove_node h l n).2.2 (xs ++ ys) ∧
    hfind (remove_node h l n).2.1 n = none ∧
    (∀ j, j ≠ n → j ∉ xs → j ∉ ys → hfind (remove_node h l n).2.1 j = hfind h j) ∧
    (∀ j, j ≠ n → (hfind (remove_node h l n).2.1 j).map (·.element) =
      (hfind h j).map (·.element)) ∧
    (∀ j, j ≠ n → (hfind (remove_node h l n).2.1 j).isSome = (hfind h j).isSome) := by
  obtain ⟨hnxs, hnys, hxsnd, hysnd, hdisj⟩ := nodup_mid hrep.hnodup
  obtain ⟨nd, hfn⟩ := seg_live hrep.hseg n
    (List.mem_append_right xs (List.mem_cons_self n ys))
  have hd := detach_rep hrep
  have hfn1 : hfind (detach h l n).1 n = some nd := by
    rw [hd.2.2.2.2.1 n hnxs hnys, hfn]
  have hres : remove_node h l n =
      (some nd.element, herase (detach h l n).1 n,
       { (detach h l n).2 with len := (detach h l n).2.len - 1 }) := by
    simp only [remove_node, hfn1]
  rw [hres]
  have hnin : n ∉ xs ++ ys := by
    intro hc
    rcases List.mem_append.mp hc with hc | hc
    · exact hnxs hc
    · exact hnys hc
  refine ⟨⟨nd, hfn, rfl⟩,
    ⟨seg_congr (fun a ha => hfind_herase_ne _ (fun hc => hnin (hc ▸ ha))) hd.1,
     hd.2.1, hd.2.2.1, ?_, ?_⟩, hfind_herase_self _ n, ?_, ?_, ?_⟩
  · rw [hd.2.2.2.1, hrep.hlen]
    simp only [List.length_append, List.length_cons]
    omega
  · exact hrep.hnodup.sublist (List.Sublist.append (List.Sublist.refl _)
      (List.sublist_cons_of_sublist n (List.Sublist.refl ys)))
  · intro j hjn hjx hjy
    rw [hfind_herase_ne _ hjn, hd.2.2.2.2.1 j hjx hjy]
  · intro j hjn
    rw [hfind_herase_ne _ hjn, hd.2.2.2.2.2.1 j]
  · intro j hjn
    rw [hfind_herase_ne _ hjn, hd.2.2.2.2.2.2 j]

theorem frontE_rep {T : Type} {h : Heap T} {l : ListS} {i : Nat} {rest : List Nat}
    (hrep : Rep h l (i :: rest)) :
    ∃ nd, hfind h i = some nd ∧ frontE h l = some nd.element := by
  obtain ⟨⟨nd, hfi, -, -⟩, -⟩ := hrep.hseg
  refine ⟨nd, hfi, ?_⟩
  rw [frontE, hrep.hhead]
  simp [hfi]

theorem backE_rep {T : Type} {h : Heap T} {l : ListS} {t : Nat} {ids : List Nat}
    (hrep : Rep h l (ids ++ [t])) :
    ∃ nd, hfind h t = some nd ∧ backE h l = some nd.element := by
  obtain ⟨-, ⟨⟨nd, hft, -, -⟩, -⟩⟩ := (seg_append h none none ids [t]).mp hrep.hseg
  refine ⟨nd, hft, ?_⟩
  have htail : l.tail = some t := by
    rw [hrep.htail, List.getLast?_append_cons]
    rfl
  rw [backE, htail]
  simp [hft]

theorem frontE_rep_nil {T : Type} {h : Heap T} {l : ListS}
    (hrep : Rep h l []) : frontE h l = none := by
  rw [frontE, hrep.hhead]
  rfl

theorem backE_rep_nil {T : Type} {h : Heap T} {l : ListS}
    (hrep : Rep h l []) : backE h l = none := by
  rw [backE, hrep.htail]
  rfl

theorem listIsEmpty_rep {T : Type} {h : Heap T} {l : ListS} {ids : List Nat}
    (hrep : Rep h l ids) : listIsEmpty l = ids.isEmpty := by
  cases ids with
  | nil =>
      rw [listIsEmpty, hrep.hhead, hrep.htail, hrep.hlen]
      rfl
  | cons i rest =>
      rw [listIsEmpty, hrep.hhead, hrep.hlen]
      rfl

theorem hfind_isSome_mem_keys {T : Type} {h : Heap T} {i : Nat}
    (hs : (hfind h i).isSome) : i ∈ h.map Prod.fst := by
  induction h with
  | nil => cases hs
  | cons p t ih =>
      obtain ⟨a, nd⟩ := p
      by_cases ha : a = i
      · subst ha; simp
      · rw [hfind_cons, if_neg ha] at hs
        simpa using Or.inr (ih hs)

theorem nodup_live_length_le {T : Type} {h : Heap T} {ids : List Nat}
    (hnodup : ids.Nodup) (hlive : ∀ i ∈ ids, (hfind h i).isSome) :
    ids.length ≤ h.length := by
  have hsub : ids.toFinset ⊆ (h.map Prod.fst).toFinset := by
    intro i hi
    rw [List.mem_toFinset] at hi
    rw [List.mem_toFinset]
    exact hfind_isSome_mem_keys (hlive i hi)
  calc ids.length = ids.toFinset.card := (List.toFinset_card_of_nodup hnodup).symm
    _ ≤ (h.map Prod.fst).toFinset.card := Finset.card_le_card hsub
    _ ≤ (h.map Prod.fst).length := (h.map Prod.fst).toFinset_card_le
    _ = h.length := List.length_map h Prod.fst

theorem walk_of_seg {T : Type} {h : Heap T} {pv : Option Nat} {ids : List Nat}
    (hs : seg h pv ids none) :
    ∀ fuel, ids.length ≤ fuel → walkChain h fuel ids.head? = ids := by
  induction ids generalizing pv with
  | nil =>
      intro fuel _
      cases fuel <;> rfl
  | cons i rest ih =>
      intro fuel hfuel
      obtain ⟨⟨nd, hfi, -, hn⟩, hrest⟩ := hs
      cases fuel with
      | zero => cases hfuel
      | succ f =>
          have : walkChain h (f + 1) (some i) = i :: walkChain h f nd.next := by
            rw [walkChain, hfi]
          rw [List.head?_cons, this, hn, segNext_none]
          rw [ih hrest f (Nat.le_of_succ_le_succ hfuel)]

theorem chainOf_rep {T : Type} {h : Heap T} {l : ListS} {ids : List Nat}
    (hrep : Rep h l ids) : chainOf h l = ids := by
  rw [chainOf, hrep.hhead]
  exact walk_of_seg hrep.hseg h.length
    (nodup_live_length_le hrep.hnodup
      (fun i hi => by
        obtain ⟨nd, hnd⟩ := seg_live hrep.hseg i hi
        rw [hnd]
        rfl))

/-! ## Cache level lemmas -/

theorem find?_key_some {K : Type} [DecidableEq K] {f : Nat → Option K}
    {m : List Nat} {k : K} {n : Nat}
    (hfind : m.find? (fun i => decide (f i = some k)) = some n) :
    n ∈ m ∧ f n = some k := by
  have h1 := List.find?_some hfind
  have h2 := List.mem_of_find?_eq_some hfind
  rw [decide_eq_true_iff] at h1
  exact ⟨h2, h1⟩

theorem find?_key_eq_some {K : Type} [DecidableEq K] {f : Nat → Option K}
    {m : List Nat} {k : K} {n : Nat}
    (hmem : n ∈ m) (hk : f n = some k)
    (huniq : ∀ i ∈ m, f i = some k → i = n) :
    m.find? (fun i => decide (f i = some k)) = some n := by
  induction m with
  | nil => cases hmem
  | cons a t ih =>
      by_cases ha : f a = some k
      · have han : a = n := huniq a (List.mem_cons_self a t) ha
        subst han
        rw [List.find?_cons_of_pos]
        simpa using ha
      · have hna : n ≠ a := fun hc => ha (hc ▸ hk)
        have hmem' : n ∈ t := by
          rcases List.mem_cons.mp hmem with hc | hc
          · exact absurd hc hna
          · exact hc
        rw [List.find?_cons_of_neg]
        · exact ih hmem' (fun i hi hik => huniq i (List.mem_cons_of_mem a hi) hik)
        · simpa using ha

theorem find?_key_eq_none {K : Type} [DecidableEq K] {f : Nat → Option K}
    {m : List Nat} {k : K}
    (hnone : ∀ i ∈ m, ¬ f i = some k) :
    m.find? (fun i => decide (f i = some k)) = none := by
  rw [List.find?_eq_none]
  intro i hi
  simpa using hnone i hi

theorem find?_key_isSome {K : Type} [DecidableEq K] {f : Nat → Option K}
    {m : List Nat} {k : K} :
    (m.find? (fun i => decide (f i = some k))).isSome = true ↔
      ∃ i ∈ m, f i = some k := by
  constructor
  · intro hs
    obtain ⟨n, hn⟩ := Option.isSome_iff_exists.mp hs
    obtain ⟨hmem, hk⟩ := find?_key_some hn
    exact ⟨n, hmem, hk⟩
  · rintro ⟨i, hi, hk⟩
    cases hfind : m.find? (fun i => decide (f i = some k)) with
    | some n => rfl
    | none =>
        rw [List.find?_eq_none] at hfind
        have := hfind i hi
        simp [hk] at this

theorem find?_key_congr {K : Type} [DecidableEq K] {f g : Nat → Option K}
    {m : List Nat} {k : K} (hagree : ∀ i ∈ m, g i = f i) :
    m.find? (fun i => decide (g i = some k)) =
      m.find? (fun i => decide (f i = some k)) := by
  induction m with
  | nil => rfl
  | cons a t ih =>
      have ha := hagree a (List.mem_cons_self a t)
      by_cases hfa : f a = some k
      · rw [List.find?_cons_of_pos, List.find?_cons_of_pos]
        · simpa using hfa
        · simp [ha, hfa]
      · rw [List.find?_cons_of_neg, List.find?_cons_of_neg]
        · exact ih (fun i hi => hagree i (List.mem_cons_of_mem a hi))
        · simpa using hfa
        · simp [ha, hfa]

theorem erase_of_mid {xs ys : List Nat} {n : Nat} (hnxs : n ∉ xs) :
    (xs ++ n :: ys).erase n = xs ++ ys := by
  rw [List.erase_append_right _ hnxs, List.erase_cons_head]

theorem seg_hmodify_preserve {T : Type} {h : Heap T} {pv nx : Option Nat}
    {ids : List Nat} {n : Nat} {f : Node T → Node T}
    (hf : ∀ nd, (f nd).prev = nd.prev ∧ (f nd).next = nd.next)
    (hs : seg h pv ids nx) : seg (hmodify h n f) pv ids nx := by
  induction ids generalizing pv with
  | nil => trivial
  | cons i rest ih =>
      obtain ⟨⟨nd, hfi, hp, hn⟩, hrest⟩ := hs
      refine ⟨?_, ih hrest⟩
      by_cases hin : i = n
      · subst hin
        refine ⟨f nd, ?_, ?_, ?_⟩
        · rw [hfind_hmodify_self, hfi]
          rfl
        · rw [(hf nd).1, hp]
        · rw [(hf nd).2, hn]
      · exact ⟨nd, by rw [hfind_hmodify_ne _ _ hin]; exact hfi, hp, hn⟩


theorem Rep_congr {T : Type} {h h' : Heap T} {l : ListS} {ids : List Nat}
    (hrep : Rep h l ids) (hagree : ∀ i ∈ ids, hfind h' i = hfind h i) :
    Rep h' l ids :=
  ⟨seg_congr hagree hrep.hseg, hrep.hhead, hrep.htail, hrep.hlen, hrep.hnodup⟩

theorem map_element_proj {T α : Type} {h h' : Heap T} {j : Nat}
    (g : T → α)
    (he : (hfind h' j).map (·.element) = (hfind h j).map (·.element)) :
    (hfind h' j).map (fun nd => g nd.element) =
      (hfind h j).map (fun nd => g nd.element) := by
  cases hfd : hfind h' j with
  | none =>
      cases hfd2 : hfind h j with
      | none => rfl
      | some nd => rw [hfd, hfd2] at he; simp at he
  | some nd =>
      cases hfd2 : hfind h j with
      | none => rw [hfd, hfd2] at he; simp at he
      | some nd2 =>
          rw [hfd, hfd2] at he
          have heq : nd.element = nd2.element := by simpa using he
          simp [heq]

theorem keyOf_congr {K V : Type} {h h' : Heap (KItem K V)} {j : Nat}
    (he : (hfind h' j).map (·.element) = (hfind h j).map (·.element)) :
    keyOf h' j = keyOf h j :=
  map_element_proj (fun it : KItem K V => it.key) he

theorem freqOf_congr {K V : Type} {h h' : Heap (KItem K V)} {j : Nat}
    (he : (hfind h' j).map (·.element) = (hfind h j).map (·.element)) :
    freqOf h' j = freqOf h j :=
  map_element_proj (fun it : KItem K V => it.freq) he

theorem valOf_congr {K V : Type} {h h' : Heap (KItem K V)} {j : Nat}
    (he : (hfind h' j).map (·.element) = (hfind h j).map (·.element)) :
    valOf h' j = valOf h j :=
  map_element_proj (fun it : KItem K V => it.value) he

theorem lkeyOf_congr {K V : Type} {h h' : Heap (LItem K V)} {j : Nat}
    (he : (hfind h' j).map (·.element) = (hfind h j).map (·.element)) :
    lkeyOf h' j = lkeyOf h j :=
  map_element_proj (fun it : LItem K V => it.key) he

theorem lvalOf_congr {K V : Type} {h h' : Heap (LItem K V)} {j : Nat}
    (he : (hfind h' j).map (·.element) = (hfind h j).map (·.element)) :
    lvalOf h' j = lvalOf h j :=
  map_element_proj (fun it : LItem K V => it.value) he

theorem KInv_aux_rebuild {K V : Type} [DecidableEq K] {s : KState K V}
    (s' : KState K V) {pf pl pf' pl' : List Nat} (hinv : KInv s pf pl)
    (hmap : s'.map = s.map) (hnext : s'.nextId = s.nextId)
    (hkey : ∀ j, keyOf s'.heap j = keyOf s.heap j)
    (hsome : ∀ j, (hfind s'.heap j).isSome = (hfind s.heap j).isSome)
    (hmm : ∀ j, j ∈ pf' ++ pl' ↔ j ∈ pf ++ pl) :
    s'.map.Nodup ∧ (∀ i, i ∈ s'.map ↔ i ∈ pf' ++ pl') ∧
    (∀ i ∈ pf' ++ pl', ∀ j ∈ pf' ++ pl', keyOf s'.heap i = keyOf s'.heap j → i = j) ∧
    (∀ i ∈ pf' ++ pl', i < s'.nextId) ∧
    (∀ i, (hfind s'.heap i).isSome → i ∈ pf' ++ pl') := by
  refine ⟨hmap ▸ hinv.mapNodup, ?_, ?_, ?_, ?_⟩
  · intro i
    rw [hmap, hmm i]
    exact hinv.mapMem i
  · intro i hi j hj hk
    exact hinv.keysU i ((hmm i).mp hi) j ((hmm j).mp hj)
      (by rw [← hkey i, ← hkey j]; exact hk)
  · intro i hi
    rw [hnext]
    exact hinv.bound i ((hmm i).mp hi)
  · intro i hi
    rw [hsome i] at hi
    exact (hmm i).mpr (hinv.domSub i hi)

theorem kUpdate_inv {K V : Type} [DecidableEq K] {s : KState K V} {pf pl : List Nat}
    {n : Nat} (hinv : KInv s pf pl) (hmem : n ∈ pf ++ pl) :
    (kUpdate s n).map = s.map ∧
    (kUpdate s n).nextId = s.nextId ∧
    (kUpdate s n).freq = s.freq ∧
    (kUpdate s n).cap = s.cap ∧
    (∀ j, keyOf (kUpdate s n).heap j = keyOf s.heap j) ∧
    (∀ j, valOf (kUpdate s n).heap j = valOf s.heap j) ∧
    (∀ j, j ≠ n → freqOf (kUpdate s n).heap j = freqOf s.heap j) ∧
    (∀ j, (hfind (kUpdate s n).heap j).isSome = (hfind s.heap j).isSome) ∧
    ((∃ c, freqOf s.heap n = some c ∧ s.freq ≤ c ∧
        freqOf (kUpdate s n).heap n = some c ∧ n ∈ pl ∧
        KInv (kUpdate s n) pf (n :: pl.erase n)) ∨
     (∃ c, freqOf s.heap n = some c ∧ c < s.freq ∧ s.freq ≤ c + 1 ∧
        freqOf (kUpdate s n).heap n = some (c + 1) ∧ n ∈ pf ∧
        KInv (kUpdate s n) (pf.erase n) (n :: pl)) ∨
     (∃ c, freqOf s.heap n = some c ∧ c + 1 < s.freq ∧
        freqOf (kUpdate s n).heap n = some (c + 1) ∧ n ∈ pf ∧
        KInv (kUpdate s n) pf pl)) := by
  have hlive : ∃ nd, hfind s.heap n = some nd := by
    rcases List.mem_append.mp hmem with hc | hc
    · exact seg_live hinv.repF.hseg n hc
    · exact seg_live hinv.repL.hseg n hc
  obtain ⟨nd, hnd⟩ := hlive
  have hfreqn : freqOf s.heap n = some nd.element.freq := by
    rw [freqOf, hnd]
    rfl
  by_cases hge : s.freq ≤ nd.element.freq
  · -- already promoted: splice to the front of the lru list
    have hnpl : n ∈ pl := by
      rcases List.mem_append.mp hmem with hc | hc
      · obtain ⟨c, hc1, hc2⟩ := hinv.freqF n hc
        rw [hfreqn] at hc1
        have hceq : nd.element.freq = c := Option.some.inj hc1
        omega
      · exact hc
    obtain ⟨xs, ys, hpl⟩ := List.append_of_mem hnpl
    have hres : kUpdate s n = { s with
        heap := (splice_self_front s.heap s.lru s.lru.head n).1,
        lru := (splice_self_front s.heap s.lru s.lru.head n).2 } := by
      simp only [kUpdate, hnd, begin_node]
      rw [if_pos hge]
    subst hpl
    have hnxs : n ∉ xs := (nodup_mid hinv.repL.hnodup).1
    have hssf := splice_self_front_rep hinv.repL
    have hel : ∀ j, (hfind (splice_self_front s.heap s.lru s.lru.head n).1 j).map
        (·.element) = (hfind s.heap j).map (·.element) := hssf.2.2.1
    have hsome : ∀ j, (hfind (splice_self_front s.heap s.lru s.lru.head n).1 j).isSome =
        (hfind s.heap j).isSome := hssf.2.2.2
    rw [hres]
    have hmm : ∀ j, j ∈ pf ++ (n :: (xs ++ n :: ys).erase n) ↔
        j ∈ pf ++ (xs ++ n :: ys) := by
      intro j
      rw [erase_of_mid hnxs]
      simp only [List.mem_append, List.mem_cons]
      tauto
    have haux := KInv_aux_rebuild { s with
        heap := (splice_self_front s.heap s.lru s.lru.head n).1,
        lru := (splice_self_front s.heap s.lru s.lru.head n).2 }
      hinv rfl rfl (fun j => keyOf_congr (hel j)) hsome hmm
    refine ⟨rfl, rfl, rfl, rfl, fun j => keyOf_congr (hel j),
      fun j => valOf_congr (hel j), fun j _ => freqOf_congr (hel j),
      hsome, Or.inl ⟨nd.element.freq, hfreqn, hge, ?_, hnpl, ?_⟩⟩
    · rw [freqOf_congr (hel n), hfreqn]
    · refine ⟨?_, ?_, ?_, haux.1, haux.2.1, ?_, ?_, haux.2.2.1, haux.2.2.2.1,
        haux.2.2.2.2, hinv.sortF, ?_⟩
      · refine Rep_congr hinv.repF ?_
        intro i hi
        have hdisj := hinv.disj i hi
        refine hssf.2.1 i (fun hc => hdisj (List.mem_append_left _ hc))
          (fun hc => hdisj (List.mem_append_right _ (List.mem_cons_of_mem n hc)))
          (fun hc => hdisj (by
            rw [hc]
            exact List.mem_append_right xs (List.mem_cons_self n ys)))
      · rw [erase_of_mid hnxs]
        exact hssf.1
      · intro j hj
        have hdisj := hinv.disj j hj
        intro hc
        rw [erase_of_mid hnxs] at hc
        rcases List.mem_cons.mp hc with hc | hc
        · exact hdisj (by
            rw [hc]
            exact List.mem_append_right xs (List.mem_cons_self n ys))
        · rcases List.mem_append.mp hc with hc | hc
          · exact hdisj (List.mem_append_left _ hc)
          · exact hdisj (List.mem_append_right _ (List.mem_cons_of_mem n hc))
      · intro i hi
        obtain ⟨c, hc1, hc2⟩ := hinv.freqF i hi
        exact ⟨c, by rw [freqOf_congr (hel i)]; exact hc1, hc2⟩
      · intro i hi
        rcases List.mem_cons.mp hi with rfl | hi
        · exact ⟨nd.element.freq, by rw [freqOf_congr (hel i), hfreqn], hge⟩
        · rw [erase_of_mid hnxs] at hi
          have hipl : i ∈ xs ++ n :: ys := by
            rcases List.mem_append.mp hi with hc | hc
            · exact List.mem_append_left _ hc
            · exact List.mem_append_right _ (List.mem_cons_of_mem n hc)
          obtain ⟨c, hc1, hc2⟩ := hinv.freqL i hipl
          exact ⟨c, by rw [freqOf_congr (hel i)]; exact hc1, hc2⟩
      · exact hinv.capB
  · -- probationary: bump the counter, possibly promote
    push_neg at hge
    have hnpf : n ∈ pf := by
      rcases List.mem_append.mp hmem with hc | hc
      · exact hc
      · obtain ⟨c, hc1, hc2⟩ := hinv.freqL n hc
        rw [hfreqn] at hc1
        have hceq : nd.element.freq = c := Option.some.inj hc1
        omega
    have hnnpl : n ∉ pl := fun hc => hinv.disj n hnpf hc
    -- the heap after the counter increment
    have hm1 : ∀ j, j ≠ n → hfind (hmodify s.heap n
        (fun x => { x with element := { x.element with freq := x.element.freq + 1 } })) j
          = hfind s.heap j := fun j hj => hfind_hmodify_ne _ _ hj
    have hm1n : hfind (hmodify s.heap n
        (fun x => { x with element := { x.element with freq := x.element.freq + 1 } })) n
          = some { nd with element := { nd.element with freq := nd.element.freq + 1 } } := by
      rw [hfind_hmodify_self, hnd]
      rfl
    have hm1key : ∀ j, keyOf (hmodify s.heap n
        (fun x => { x with element := { x.element with freq := x.element.freq + 1 } })) j
          = keyOf s.heap j := by
      intro j
      by_cases hj : j = n
      · subst hj
        rw [keyOf, keyOf, hm1n, hnd]
        rfl
      · rw [keyOf, keyOf, hm1 j hj]
    have hm1val : ∀ j, valOf (hmodify s.heap n
        (fun x => { x with element := { x.element with freq := x.element.freq + 1 } })) j
          = valOf s.heap j := by
      intro j
      by_cases hj : j = n
      · subst hj
        rw [valOf, valOf, hm1n, hnd]
        rfl
      · rw [valOf, valOf, hm1 j hj]
    have hm1some : ∀ j, (hfind (hmodify s.heap n
        (fun x => { x with element := { x.element with freq := x.element.freq + 1 } })) j).isSome
          = (hfind s.heap j).isSome := fun j => isSome_hfind_hmodify _ _ _ _
    obtain ⟨xs, ys, hpf⟩ := List.append_of_mem hnpf
    have hrepF1 : Rep (hmodify s.heap n
        (fun x => { x with element := { x.element with freq := x.element.freq + 1 } }))
        s.fcfo pf :=
      ⟨seg_hmodify_preserve (fun _ => ⟨rfl, rfl⟩) hinv.repF.hseg,
        hinv.repF.hhead, hinv.repF.htail, hinv.repF.hlen, hinv.repF.hnodup⟩
    have hrepL1 : Rep (hmodify s.heap n
        (fun x => { x with element := { x.element with freq := x.element.freq + 1 } }))
        s.lru pl :=
      ⟨seg_hmodify_preserve (fun _ => ⟨rfl, rfl⟩) hinv.repL.hseg,
        hinv.repL.hhead, hinv.repL.htail, hinv.repL.hlen, hinv.repL.hnodup⟩
    by_cases hpr : s.freq ≤ nd.element.freq + 1
    · -- promotion to the lru list
      have hres : kUpdate s n = { s with
          heap := (splice_front (hmodify s.heap n
            (fun x => { x with element := { x.element with freq := x.element.freq + 1 } }))
            s.lru s.lru.head s.fcfo n).1,
          lru := (splice_front (hmodify s.heap n
            (fun x => { x with element := { x.element with freq := x.element.freq + 1 } }))
            s.lru s.lru.head s.fcfo n).2.1,
          fcfo := (splice_front (hmodify s.heap n
            (fun x => { x with element := { x.element with freq := x.element.freq + 1 } }))
            s.lru s.lru.head s.fcfo n).2.2 } := by
        simp only [kUpdate, hnd, begin_node]
        rw [if_neg (by omega), if_pos hpr]
      have hnxs : n ∉ xs := (nodup_mid (hpf ▸ hinv.repF.hnodup)).1
      have hdisjBA : ∀ j ∈ pl, j ∉ xs ++ n :: ys := fun j hj hc =>
        hinv.disj j (hpf ▸ hc) hj
      have hsf := splice_front_rep hrepL1 (hpf ▸ hrepF1) hdisjBA
      have hel : ∀ j, (hfind (splice_front (hmodify s.heap n
          (fun x => { x with element := { x.element with freq := x.element.freq + 1 } }))
          s.lru s.lru.head s.fcfo n).1 j).map (·.element) =
          (hfind (hmodify s.heap n
          (fun x => { x with element := { x.element with freq := x.element.freq + 1 } })) j).map
            (·.element) := hsf.2.2.2.1
      have hsome2 : ∀ j, (hfind (splice_front (hmodify s.heap n
          (fun x => { x with element := { x.element with freq := x.element.freq + 1 } }))
          s.lru s.lru.head s.fcfo n).1 j).isSome =
          (hfind s.heap j).isSome := by
        intro j
        rw [hsf.2.2.2.2 j, hm1some j]
      have hkey2 : ∀ j, keyOf (splice_front (hmodify s.heap n
          (fun x => { x with element := { x.element with freq := x.element.freq + 1 } }))
          s.lru s.lru.head s.fcfo n).1 j = keyOf s.heap j := by
        intro j
        rw [keyOf_congr (hel j), hm1key j]
      have hval2 : ∀ j, valOf (splice_front (hmodify s.heap n
          (fun x => { x with element := { x.element with freq := x.element.freq + 1 } }))
          s.lru s.lru.head s.fcfo n).1 j = valOf s.heap j := by
        intro j
        rw [valOf_congr (hel j), hm1val j]
      have hfrq2 : ∀ j, j ≠ n → freqOf (splice_front (hmodify s.heap n
          (fun x => { x with element := { x.element with freq := x.element.freq + 1 } }))
          s.lru s.lru.head s.fcfo n).1 j = freqOf s.heap j := by
        intro j hj
        rw [freqOf_congr (hel j), freqOf, hm1 j hj, freqOf]
      have hfrq2n : freqOf (splice_front (hmodify s.heap n
          (fun x => { x with element := { x.element with freq := x.element.freq + 1 } }))
          s.lru s.lru.head s.fcfo n).1 n = some (nd.element.freq + 1) := by
        rw [freqOf_congr (hel n), freqOf, hm1n]
        rfl
      rw [hres]
      have hmm : ∀ j, j ∈ pf.erase n ++ (n :: pl) ↔ j ∈ pf ++ pl := by
        intro j
        rw [hpf, erase_of_mid hnxs]
        simp only [List.mem_append, List.mem_cons]
        tauto
      have haux := KInv_aux_rebuild { s with
          heap := (splice_front (hmodify s.heap n
            (fun x => { x with element := { x.element with freq := x.element.freq + 1 } }))
            s.lru s.lru.head s.fcfo n).1,
          lru := (splice_front (hmodify s.heap n
            (fun x => { x with element := { x.element with freq := x.element.freq + 1 } }))
            s.lru s.lru.head s.fcfo n).2.1,
          fcfo := (splice_front (hmodify s.heap n
            (fun x => { x with element := { x.element with freq := x.element.freq + 1 } }))
            s.lru s.lru.head s.fcfo n).2.2 }
        hinv rfl rfl hkey2 hsome2 hmm
      refine ⟨rfl, rfl, rfl, rfl, hkey2, hval2, hfrq2, hsome2,
        Or.inr (Or.inl ⟨nd.element.freq, hfreqn, hge, hpr, hfrq2n, hnpf, ?_⟩)⟩
      refine ⟨?_, hsf.1, ?_, haux.1, haux.2.1, ?_, ?_, haux.2.2.1, haux.2.2.2.1,
        haux.2.2.2.2, ?_, ?_⟩
      · rw [hpf, erase_of_mid hnxs]
        exact hsf.2.1
      · intro j hj hc
        have hjn : j ≠ n ∧ j ∈ pf := (List.Nodup.mem_erase_iff hinv.repF.hnodup).mp hj
        rcases List.mem_cons.mp hc with hc | hc
        · exact hjn.1 hc
        · exact hinv.disj j hjn.2 hc
      · intro i hi
        have hin : i ≠ n ∧ i ∈ pf := (List.Nodup.mem_erase_iff hinv.repF.hnodup).mp hi
        obtain ⟨c, hc1, hc2⟩ := hinv.freqF i hin.2
        exact ⟨c, by rw [hfrq2 i hin.1]; exact hc1, hc2⟩
      · intro i hi
        rcases List.mem_cons.mp hi with rfl | hi
        · exact ⟨nd.element.freq + 1, hfrq2n, hpr⟩
        · have hin : i ≠ n := fun hc => hnnpl (hc ▸ hi)
          obtain ⟨c, hc1, hc2⟩ := hinv.freqL i hi
          exact ⟨c, by rw [hfrq2 i hin]; exact hc1, hc2⟩
      · exact hinv.sortF.sublist (List.erase_sublist n pf)
      · exact hinv.capB
    · -- stays probationary
      have hres : kUpdate s n = { s with
          heap := hmodify s.heap n
            (fun x => { x with element := { x.element with freq := x.element.freq + 1 } }) } := by
        simp only [kUpdate, hnd, begin_node]
        rw [if_neg (by omega), if_neg hpr]
      rw [hres]
      have hkey2 : ∀ j, keyOf (hmodify s.heap n
          (fun x => { x with element := { x.element with freq := x.element.freq + 1 } })) j =
          keyOf s.heap j := hm1key
      have hmm : ∀ j, j ∈ pf ++ pl ↔ j ∈ pf ++ pl := fun j => Iff.rfl
      have haux := KInv_aux_rebuild { s with
          heap := hmodify s.heap n
            (fun x => { x with element := { x.element with freq := x.element.freq + 1 } }) }
        hinv rfl rfl hkey2 hm1some hmm
      push_neg at hpr
      refine ⟨rfl, rfl, rfl, rfl, hkey2, hm1val, ?_, hm1some,
        Or.inr (Or.inr ⟨nd.element.freq, hfreqn, by omega,
          by rw [freqOf, hm1n]; rfl, hnpf, ?_⟩)⟩
      · intro j hj
        rw [freqOf, hm1 j hj, freqOf]
      · refine ⟨hrepF1, hrepL1, hinv.disj, haux.1, haux.2.1, ?_, ?_,
          haux.2.2.1, haux.2.2.2.1, haux.2.2.2.2, hinv.sortF, hinv.capB⟩
        · intro i hi
          by_cases hin : i = n
          · subst hin
            exact ⟨nd.element.freq + 1, by rw [freqOf, hm1n]; rfl,
              by show nd.element.freq + 1 < s.freq; omega⟩
          · obtain ⟨c, hc1, hc2⟩ := hinv.freqF i hi
            exact ⟨c, by rw [freqOf, hm1 i hin]; exact hc1, hc2⟩
        · intro i hi
          have hin : i ≠ n := fun hc => hnnpl (hc ▸ hi)
          obtain ⟨c, hc1, hc2⟩ := hinv.freqL i hi
          exact ⟨c, by rw [freqOf, hm1 i hin]; exact hc1, hc2⟩

theorem kDisuse_inv {K V : Type} [DecidableEq K] {s : KState K V} {pf pl : List Nat}
    (hinv : KInv s pf pl) :
    (kDisuse s).2.nextId = s.nextId ∧
    (kDisuse s).2.freq = s.freq ∧
    (kDisuse s).2.cap = s.cap ∧
    ((∃ q pf', pf = q :: pf' ∧
        (kDisuse s).2.map = s.map.erase q ∧
        (kDisuse s).2.map.length = s.map.length - 1 ∧
        KInv (kDisuse s).2 pf' pl ∧
        hfind (kDisuse s).2.heap q = none ∧
        (∀ j, j ≠ q → keyOf (kDisuse s).2.heap j = keyOf s.heap j) ∧
        (∀ j, j ≠ q → valOf (kDisuse s).2.heap j = valOf s.heap j) ∧
        (∀ j, j ≠ q → freqOf (kDisuse s).2.heap j = freqOf s.heap j) ∧
        (∀ j, j ≠ q → (hfind (kDisuse s).2.heap j).isSome = (hfind s.heap j).isSome)) ∨
     (∃ t pl', pf = [] ∧ pl = pl' ++ [t] ∧
        (kDisuse s).2.map = s.map.erase t ∧
        (kDisuse s).2.map.length = s.map.length - 1 ∧
        KInv (kDisuse s).2 [] pl' ∧
        hfind (kDisuse s).2.heap t = none ∧
        (∀ j, j ≠ t → keyOf (kDisuse s).2.heap j = keyOf s.heap j) ∧
        (∀ j, j ≠ t → valOf (kDisuse s).2.heap j = valOf s.heap j) ∧
        (∀ j, j ≠ t → freqOf (kDisuse s).2.heap j = freqOf s.heap j) ∧
        (∀ j, j ≠ t → (hfind (kDisuse s).2.heap j).isSome = (hfind s.heap j).isSome)) ∨
     (pf = [] ∧ pl = [] ∧ kDisuse s = (none, s))) := by
  cases pf with
  | cons q pf' =>
      have hisE : listIsEmpty s.fcfo = false := by
        rw [listIsEmpty_rep hinv.repF]
        rfl
      obtain ⟨qnd, hqf, hfrontE⟩ := frontE_rep hinv.repF
      have hqmem : q ∈ (q :: pf') ++ pl :=
        List.mem_append_left pl (List.mem_cons_self q pf')
      have hkq : keyOf s.heap q = some qnd.element.key := by
        rw [keyOf, hqf]
        rfl
      have hmg : mapGet s.heap s.map qnd.element.key = some q := by
        refine find?_key_eq_some ((hinv.mapMem q).mpr hqmem) hkq ?_
        intro i hi hik
        exact hinv.keysU i ((hinv.mapMem i).mp hi) q hqmem (by rw [hik, hkq])
      have hpop := pop_front_rep hinv.repF
      obtain ⟨⟨qnd2, hqf2, hpop1⟩, hrep', hfree, hfr1, hfr2, hfr3⟩ := hpop
      have hres : kDisuse s = (some (),
          { s with
            map := s.map.erase q,
            heap := (pop_front s.heap s.fcfo).2.1,
            fcfo := (pop_front s.heap s.fcfo).2.2 }) := by
        simp only [kDisuse, hisE, hfrontE, mapRemove, hmg, hpop1, if_true, eq_self_iff_true]
      rw [hres]
      have hqpf' : q ∉ pf' := (List.nodup_cons.mp hinv.repF.hnodup).1
      have hqpl : q ∉ pl := hinv.disj q (List.mem_cons_self q pf')
      have hkeyfr : ∀ j, j ≠ q → keyOf (pop_front s.heap s.fcfo).2.1 j = keyOf s.heap j :=
        fun j hj => keyOf_congr (hfr2 j hj)
      have hmemup : ∀ i, i ∈ pf' ++ pl → i ∈ (q :: pf') ++ pl := by
        intro i hi
        rcases List.mem_append.mp hi with hc | hc
        · exact List.mem_append_left _ (List.mem_cons_of_mem q hc)
        · exact List.mem_append_right _ hc
      have hiqne : ∀ i, i ∈ pf' ++ pl → i ≠ q := by
        intro i hi
        rintro rfl
        rcases List.mem_append.mp hi with hc | hc
        · exact hqpf' hc
        · exact hqpl hc
      refine ⟨rfl, rfl, rfl, Or.inl ⟨q, pf', rfl, rfl,
        List.length_erase_of_mem ((hinv.mapMem q).mpr hqmem), ?_, hfree,
        hkeyfr, fun j hj => valOf_congr (hfr2 j hj),
        fun j hj => freqOf_congr (hfr2 j hj), hfr3⟩⟩
      refine ⟨hrep', ?_, ?_, hinv.mapNodup.erase q, ?_, ?_, ?_, ?_, ?_, ?_, ?_, ?_⟩
      · refine Rep_congr hinv.repL ?_
        intro i hi
        exact hfr1 i (fun hc => hqpl (hc ▸ hi))
          (fun hc => hinv.disj i (List.mem_cons_of_mem q hc) hi)
      · intro j hj
        exact hinv.disj j (List.mem_cons_of_mem q hj)
      · intro i
        rw [List.Nodup.mem_erase_iff hinv.mapNodup, hinv.mapMem i]
        simp only [List.mem_append, List.mem_cons]
        constructor
        · rintro ⟨hne, hmem⟩
          tauto
        · intro hmem
          have h1 : i ≠ q := by
            rintro rfl
            rcases hmem with hc | hc
            · exact hqpf' hc
            · exact hqpl hc
          tauto
      · intro i hi
        have hiq : i ≠ q := hiqne i (List.mem_append_left _ hi)
        obtain ⟨c, hc1, hc2⟩ := hinv.freqF i (List.mem_cons_of_mem q hi)
        exact ⟨c, by rw [freqOf_congr (hfr2 i hiq)]; exact hc1, hc2⟩
      · intro i hi
        have hiq : i ≠ q := hiqne i (List.mem_append_right _ hi)
        obtain ⟨c, hc1, hc2⟩ := hinv.freqL i hi
        exact ⟨c, by rw [freqOf_congr (hfr2 i hiq)]; exact hc1, hc2⟩
      · intro i hi j hj hk
        refine hinv.keysU i (hmemup i hi) j (hmemup j hj) ?_
        rw [← hkeyfr i (hiqne i hi), ← hkeyfr j (hiqne j hj)]
        exact hk
      · intro i hi
        exact hinv.bound i (hmemup i hi)
      · intro i hi
        by_cases hiq : i = q
        · subst hiq
          rw [hfree] at hi
          cases hi
        · rw [hfr3 i hiq] at hi
          have hmem2 := hinv.domSub i hi
          rcases List.mem_append.mp hmem2 with hc | hc
          · rcases List.mem_cons.mp hc with hc | hc
            · exact absurd hc hiq
            · exact List.mem_append_left _ hc
          · exact List.mem_append_right _ hc
      · exact (List.pairwise_cons.mp hinv.sortF).2
      · calc (s.map.erase q).length ≤ s.map.length :=
            (List.erase_sublist q s.map).length_le
          _ ≤ max s.cap 1 := hinv.capB
  | nil =>
      have hisE : listIsEmpty s.fcfo = true := by
        rw [listIsEmpty_rep hinv.repF]
        rfl
      rcases List.eq_nil_or_concat pl with hpl | ⟨pl', t, hpl⟩
      · subst hpl
        have hbe : backE s.heap s.lru = none := backE_rep_nil hinv.repL
        have hres : kDisuse s = (none, s) := by
          simp [kDisuse, hisE, hbe]
        rw [hres]
        exact ⟨rfl, rfl, rfl, Or.inr (Or.inr ⟨rfl, rfl, rfl⟩)⟩
      · rw [List.concat_eq_append] at hpl
        subst hpl
        obtain ⟨tnd, htf, hbackE⟩ := backE_rep hinv.repL
        have htmem : t ∈ ([] : List Nat) ++ (pl' ++ [t]) :=
          List.mem_append_right _ (List.mem_append_right pl' (List.mem_cons_self t []))
        have hkt : keyOf s.heap t = some tnd.element.key := by
          rw [keyOf, htf]
          rfl
        have hmg : mapGet s.heap s.map tnd.element.key = some t := by
          refine find?_key_eq_some ((hinv.mapMem t).mpr htmem) hkt ?_
          intro i hi hik
          exact hinv.keysU i ((hinv.mapMem i).mp hi) t htmem (by rw [hik, hkt])
        have hpop := pop_back_rep hinv.repL
        obtain ⟨⟨tnd2, htf2, hpop1⟩, hrep', hfree, hfr1, hfr2, hfr3⟩ := hpop
        have hres : kDisuse s = (some (),
            { s with
              map := s.map.erase t,
              heap := (pop_back s.heap s.lru).2.1,
              lru := (pop_back s.heap s.lru).2.2 }) := by
          simp only [kDisuse, hisE, hbackE, mapRemove, hmg, hpop1]
          simp
        rw [hres]
        have htpl' : t ∉ pl' := by
          have hnd2 := hinv.repL.hnodup
          rw [List.nodup_append] at hnd2
          exact fun hc => hnd2.2.2 hc (List.mem_cons_self t [])
        have hkeyfr : ∀ j, j ≠ t → keyOf (pop_back s.heap s.lru).2.1 j = keyOf s.heap j :=
          fun j hj => keyOf_congr (hfr2 j hj)
        have hiqne : ∀ i, i ∈ ([] : List Nat) ++ pl' → i ≠ t := by
          intro i hi
          rintro rfl
          rcases List.mem_append.mp hi with hc | hc
          · cases hc
          · exact htpl' hc
        have hmemup : ∀ i, i ∈ ([] : List Nat) ++ pl' → i ∈ ([] : List Nat) ++ (pl' ++ [t]) := by
          intro i hi
          rcases List.mem_append.mp hi with hc | hc
          · cases hc
          · exact List.mem_append_right _ (List.mem_append_left _ hc)
        refine ⟨rfl, rfl, rfl, Or.inr (Or.inl ⟨t, pl', rfl, rfl, rfl,
          List.length_erase_of_mem ((hinv.mapMem t).mpr htmem), ?_, hfree,
          hkeyfr, fun j hj => valOf_congr (hfr2 j hj),
          fun j hj => freqOf_congr (hfr2 j hj), hfr3⟩)⟩
        refine ⟨?_, hrep', ?_, hinv.mapNodup.erase t, ?_, ?_, ?_, ?_, ?_, ?_,
          hinv.sortF, ?_⟩
        · refine Rep_congr hinv.repF ?_
          intro i hi
          cases hi
        · intro j hj
          cases hj
        · intro i
          rw [List.Nodup.mem_erase_iff hinv.mapNodup, hinv.mapMem i]
          simp only [List.mem_append, List.mem_cons, List.mem_singleton,
            List.not_mem_nil, false_or]
          constructor
          · rintro ⟨hne, hmem⟩
            tauto
          · intro hmem
            have h1 : i ≠ t := by
              rintro rfl
              apply htpl'
              tauto
            tauto
        · intro i hi
          cases hi
        · intro i hi
          have hit : i ≠ t := hiqne i (List.mem_append_right _ hi)
          obtain ⟨c, hc1, hc2⟩ := hinv.freqL i (List.mem_append_left _ hi)
          exact ⟨c, by rw [freqOf_congr (hfr2 i hit)]; exact hc1, hc2⟩
        · intro i hi j hj hk
          refine hinv.keysU i (hmemup i hi) j (hmemup j hj) ?_
          rw [← hkeyfr i (hiqne i hi), ← hkeyfr j (hiqne j hj)]
          exact hk
        · intro i hi
          exact hinv.bound i (hmemup i hi)
        · intro i hi
          by_cases hit : i = t
          · subst hit
            rw [hfree] at hi
            cases hi
          · rw [hfr3 i hit] at hi
            have hmem2 := hinv.domSub i hi
            rcases List.mem_append.mp hmem2 with hc | hc
            · cases hc
            · rcases List.mem_append.mp hc with hc | hc
              · exact List.mem_append_right _ hc
              · rw [List.mem_singleton] at hc
                exact absurd hc hit
        · calc (s.map.erase t).length ≤ s.map.length :=
              (List.erase_sublist t s.map).length_le
            _ ≤ max s.cap 1 := hinv.capB

/-! ## Directly computed claims -/

/-- C9: a self-splice whose source handle coincides with its (present)
destination handle is a no-op: `splice_self_front` returns the heap and the
list bookkeeping unchanged, so contents, order and length are untouched. -/
theorem c9_splice_self_coincide_noop {T : Type} (h : Heap T) (l : ListS)
    (n : Nat) : splice_self_front h l (some n) n = (h, l) := by
  simp [splice_self_front]

/-- C4 fails on the code: `List::splice_back` calls
`src.splice_back_node(…)` instead of `self.splice_back_node(…)`, so with an
empty destination and a singleton source the element ends up re-linked as the
*source* list's head and tail while only the lengths transfer; the front
variant, evaluated at the same input, moves the element correctly. -/
theorem c4_splice_back_eval :
    (splice_back [(0, (⟨none, none, 5⟩ : Node Nat))] (⟨none, none, 0⟩ : ListS)
        none (⟨some 0, some 0, 1⟩ : ListS) 0).2 =
      ((⟨none, none, 1⟩ : ListS), (⟨some 0, some 0, 0⟩ : ListS)) ∧
    (splice_front [(0, (⟨none, none, 5⟩ : Node Nat))] (⟨none, none, 0⟩ : ListS)
        none (⟨some 0, some 0, 1⟩ : ListS) 0).2 =
      ((⟨some 0, some 0, 1⟩ : ListS), (⟨none, none, 0⟩ : ListS)) := by
  decide

/-- C5: the end-to-end LRU scenario at capacity 2.  `get(1)` returns 100 and
moves key 1 (node 0) to the list front; `insert(3,300)` evicts key 2 and not
key 1; afterwards `get(2)` is empty while `get(1)` and `get(3)` return their
values. -/
theorem c5_lru_scenario :
    let s0 : LState Nat Nat := lruRun 2 [Op.insert 1 100, Op.insert 2 200]
    let g1 := lruGet s0 1
    g1.1 = some 100 ∧
    chainOf g1.2.heap g1.2.list = [0, 1] ∧
    lkeyOf g1.2.heap 0 = some 1 ∧ lkeyOf g1.2.heap 1 = some 2 ∧
    (let s2 := (lruInsert g1.2 3 300).2
     lmapGet s2.heap s2.map 2 = none ∧
     (lmapGet s2.heap s2.map 1).isSome = true ∧
     (lruGet s2 2).1 = none ∧
     (lruGet s2 1).1 = some 100 ∧
     (lruGet (lruGet s2 1).2 3).1 = some 300) := by
  decide

/-- C7 fails on the code: both constructors accept a zero capacity and return
a working cache object; an insert on it is accepted and the cache then holds
one entry (exceeding the zero capacity), instead of construction failing. -/
theorem c7_zero_capacity_accepted :
    ((lruNew Nat Nat 0).cap = 0 ∧
     (lruInsert (lruNew Nat Nat 0) 1 100).2.map.length = 1 ∧
     (lruGet (lruInsert (lruNew Nat Nat 0) 1 100).2 1).1 = some 100) ∧
    ((kNew Nat Nat 0 2).cap = 0 ∧
     (kInsert (kNew Nat Nat 0 2) 1 100).2.map.length = 1 ∧
     (kGet (kInsert (kNew Nat Nat 0 2) 1 100).2 1).1 = some 100) := by
  decide

/-! ## Counterexamples at threshold `K = 0`

With `with_capacity_freq(cap, 0)` every item satisfies `freq >= K` from the
moment it is inserted, while insertion still places it in the probationary
list; `update` and `remove` then operate on the wrong list and corrupt the
structure.  (At the `remove` step of the first trace below, `lru.len -= 1`
underflows: a debug build of the source panics there; a release build wraps
and continues with the fields modelled here.) -/

/-- C1 fails at threshold 0: after `insert(1,10); remove(1); insert(2,20)` on
an LRU-K cache with capacity 1 and threshold 0, the probationary list length
is 2 — the sum of list lengths exceeds the capacity and disagrees with the
index size. -/
theorem c1_cex :
    let s : KState Nat Nat := kRun 1 0 [Op.insert 1 10, Op.remove 1, Op.insert 2 20]
    s.cap = 1 ∧ s.fcfo.len + s.lru.len = 2 ∧ s.map.length = 1 ∧
    ¬ s.fcfo.len + s.lru.len ≤ s.cap := by
  decide

/-- C2 fails at threshold 0: key 1's node (identifier 0) has `freq = 0 ≥ K`,
so the claim classifies it as promoted, yet an access to it mutates the
probationary list (its chain shrinks from `[0, 1]` to `[0]`) and leaves the
node in both chains at once — not a pure reorder of the promoted list. -/
theorem c2_cex :
    let s : KState Nat Nat := kRun 2 0 [Op.insert 1 10, Op.insert 2 20]
    let s' := (kGet s 1).2
    (hfind s.heap 0).map (·.element.freq) = some 0 ∧ s.freq = 0 ∧
    chainOf s.heap s.fcfo = [0, 1] ∧
    chainOf s'.heap s'.fcfo = [0] ∧
    chainOf s'.heap s'.lru = [0] := by
  decide

/-- C3 fails at threshold 0: in the state reached by
`insert(1,10); remove(1); insert(2,20)` at capacity 1, the next insert runs at
capacity with a probationary list reporting non-empty, yet `disuse` evicts
nothing (its early returns fire) and both the old and the new key remain
indexed. -/
theorem c3_cex :
    let s : KState Nat Nat := kRun 1 0 [Op.insert 1 10, Op.remove 1, Op.insert 2 20]
    let s' := (kInsert s 3 30).2
    s.map.length = s.cap ∧ listIsEmpty s.fcfo = false ∧
    (kDisuse s).1 = none ∧ (kDisuse s).2.map = s.map ∧
    mapGet s'.heap s'.map 2 = some 1 ∧ mapGet s'.heap s'.map 3 = some 2 ∧
    s'.map.length = 2 := by
  decide

/-- C6 fails at threshold 0: immediately after `insert(1,10)` the entry has
`freq = 0 ≥ K = 0`, so per the claim the promoted list should hold its node,
but the node sits in the probationary chain and the promoted chain is empty
(`remove` would therefore operate on the wrong list). -/
theorem c6_cex :
    let s : KState Nat Nat := kRun 2 0 [Op.insert 1 10]
    mapGet s.heap s.map 1 = some 0 ∧
    (hfind s.heap 0).map (·.element.freq) = some 0 ∧ s.freq = 0 ∧
    chainOf s.heap s.lru = [] ∧ chainOf s.heap s.fcfo = [0] := by
  decide

/-- C8 fails at threshold 0: after `insert(1,10); insert(2,20); get(1)` at
capacity 2, key 2 is still in the index but its node hangs in neither list's
chain (both chains hold only node 0, whose key is 1) — the index and the
lists have desynchronized. -/
theorem c8_cex :
    let s : KState Nat Nat := kRun 2 0 [Op.insert 1 10, Op.insert 2 20, Op.get 1]
    mapGet s.heap s.map 2 = some 1 ∧
    chainOf s.heap s.fcfo = [0] ∧ chainOf s.heap s.lru = [0] ∧
    keyOf s.heap 0 = some 1 ∧
    (∀ n ∈ chainOf s.heap s.fcfo ++ chainOf s.heap s.lru,
      ¬ keyOf s.heap n = some 2) := by
  decide




theorem proj_of_element {T α : Type} {h : Heap T} {i : Nat} {e : T} (g : T → α)
    (he : (hfind h i).map (·.element) = some e) :
    (hfind h i).map (fun nd => g nd.element) = some (g e) := by
  cases hf : hfind h i with
  | none => rw [hf] at he; cases he
  | some nd =>
      rw [hf] at he
      have : nd.element = e := by simpa using he
      simp [this]

theorem hfind_none_of_bound {K V : Type} [DecidableEq K] {s : KState K V}
    {pf pl : List Nat} (hinv : KInv s pf pl) :
    hfind s.heap s.nextId = none := by
  cases hf : hfind s.heap s.nextId with
  | none => rfl
  | some nd =>
      have hmem := hinv.domSub s.nextId (by rw [hf]; rfl)
      exact absurd (hinv.bound _ hmem) (lt_irrefl _)

theorem push_index_rebuild {K V : Type} [DecidableEq K] {s1 : KState K V}
    {pf1 pl1 : List Nat} {k : K} {v : V}
    (hinv1 : KInv s1 pf1 pl1) (hK : 1 ≤ s1.freq)
    (hnok : ∀ i ∈ pf1 ++ pl1, ¬ keyOf s1.heap i = some k)
    (hroom : s1.map.length + 1 ≤ max s1.cap 1) :
    end_node (push_back s1.heap s1.fcfo s1.nextId ⟨k, v, 0⟩).2 = some s1.nextId ∧
    KInv { s1 with
      heap := (push_back s1.heap s1.fcfo s1.nextId ⟨k, v, 0⟩).1,
      fcfo := (push_back s1.heap s1.fcfo s1.nextId ⟨k, v, 0⟩).2,
      nextId := s1.nextId + 1,
      map := s1.nextId :: s1.map } (pf1 ++ [s1.nextId]) pl1 ∧
    keyOf (push_back s1.heap s1.fcfo s1.nextId ⟨k, v, 0⟩).1 s1.nextId = some k ∧
    valOf (push_back s1.heap s1.fcfo s1.nextId ⟨k, v, 0⟩).1 s1.nextId = some v ∧
    freqOf (push_back s1.heap s1.fcfo s1.nextId ⟨k, v, 0⟩).1 s1.nextId = some 0 ∧
    (∀ j, j ≠ s1.nextId →
      keyOf (push_back s1.heap s1.fcfo s1.nextId ⟨k, v, 0⟩).1 j = keyOf s1.heap j) ∧
    (∀ j, j ≠ s1.nextId →
      valOf (push_back s1.heap s1.fcfo s1.nextId ⟨k, v, 0⟩).1 j = valOf s1.heap j) ∧
    (∀ j, j ≠ s1.nextId →
      freqOf (push_back s1.heap s1.fcfo s1.nextId ⟨k, v, 0⟩).1 j = freqOf s1.heap j) ∧
    (∀ j, j ≠ s1.nextId →
      (hfind (push_back s1.heap s1.fcfo s1.nextId ⟨k, v, 0⟩).1 j).isSome =
        (hfind s1.heap j).isSome) := by
  have hfree : hfind s1.heap s1.nextId = none := hfind_none_of_bound hinv1
  have hpush := @push_back_rep _ _ _ _ _ (⟨k, v, 0⟩ : KItem K V) hinv1.repF hfree
  have hfreshel : (hfind (push_back s1.heap s1.fcfo s1.nextId ⟨k, v, 0⟩).1
      s1.nextId).map (·.element) = some ⟨k, v, 0⟩ := hpush.2.2.2.2
  have hkeyfresh : keyOf (push_back s1.heap s1.fcfo s1.nextId ⟨k, v, 0⟩).1
      s1.nextId = some k := proj_of_element (fun it : KItem K V => it.key) hfreshel
  have hvalfresh : valOf (push_back s1.heap s1.fcfo s1.nextId ⟨k, v, 0⟩).1
      s1.nextId = some v := proj_of_element (fun it : KItem K V => it.value) hfreshel
  have hfreqfresh : freqOf (push_back s1.heap s1.fcfo s1.nextId ⟨k, v, 0⟩).1
      s1.nextId = some 0 := proj_of_element (fun it : KItem K V => it.freq) hfreshel
  have hkeyfr : ∀ j, j ≠ s1.nextId →
      keyOf (push_back s1.heap s1.fcfo s1.nextId ⟨k, v, 0⟩).1 j = keyOf s1.heap j :=
    fun j hj => keyOf_congr (hpush.2.2.1 j hj)
  have hsomefr : ∀ j, j ≠ s1.nextId →
      (hfind (push_back s1.heap s1.fcfo s1.nextId ⟨k, v, 0⟩).1 j).isSome =
        (hfind s1.heap j).isSome := hpush.2.2.2.1
  have hmemne : ∀ i, i ∈ pf1 ++ pl1 → i ≠ s1.nextId := by
    intro i hi
    exact Nat.ne_of_lt (hinv1.bound i hi)
  have htl : end_node (push_back s1.heap s1.fcfo s1.nextId ⟨k, v, 0⟩).2 =
      some s1.nextId := by
    rw [end_node, hpush.1.htail, List.getLast?_append_cons]
    rfl
  refine ⟨htl, ?_, hkeyfresh, hvalfresh, hfreqfresh, hkeyfr,
    fun j hj => valOf_congr (hpush.2.2.1 j hj),
    fun j hj => freqOf_congr (hpush.2.2.1 j hj), hsomefr⟩
  have hfreshpf : s1.nextId ∉ pf1 := fun hc => hmemne _ (List.mem_append_left _ hc) rfl
  have hfreshpl : s1.nextId ∉ pl1 := fun hc => hmemne _ (List.mem_append_right _ hc) rfl
  have hfreshmap : s1.nextId ∉ s1.map := fun hc =>
    hmemne _ ((hinv1.mapMem _).mp hc) rfl
  refine ⟨hpush.1, ?_, ?_, ?_, ?_, ?_, ?_, ?_, ?_, ?_, ?_, ?_⟩
  · refine Rep_congr hinv1.repL ?_
    intro i hi
    exact hpush.2.1 i (fun hc => hinv1.disj i hc hi)
      (hmemne i (List.mem_append_right _ hi))
  · intro j hj
    rcases List.mem_append.mp hj with hc | hc
    · exact hinv1.disj j hc
    · rw [List.mem_singleton] at hc
      subst hc
      exact hfreshpl
  · exact List.nodup_cons.mpr ⟨hfreshmap, hinv1.mapNodup⟩
  · intro i
    simp only [List.mem_cons, List.mem_append, List.mem_singleton, hinv1.mapMem i]
    tauto
  · intro i hi
    rcases List.mem_append.mp hi with hc | hc
    · obtain ⟨c, hc1, hc2⟩ := hinv1.freqF i hc
      exact ⟨c, by
        rw [freqOf_congr (hpush.2.2.1 i (hmemne i (List.mem_append_left _ hc)))]
        exact hc1, hc2⟩
    · rw [List.mem_singleton] at hc
      subst hc
      exact ⟨0, hfreqfresh, hK⟩
  · intro i hi
    obtain ⟨c, hc1, hc2⟩ := hinv1.freqL i hi
    exact ⟨c, by
      rw [freqOf_congr (hpush.2.2.1 i (hmemne i (List.mem_append_right _ hi)))]
      exact hc1, hc2⟩
  · intro i hi j hj hk2
    have hi' : i = s1.nextId ∨ i ∈ pf1 ++ pl1 := by
      rcases List.mem_append.mp hi with hc | hc
      · rcases List.mem_append.mp hc with hc2 | hc2
        · exact Or.inr (List.mem_append_left _ hc2)
        · rw [List.mem_singleton] at hc2
          exact Or.inl hc2
      · exact Or.inr (List.mem_append_right _ hc)
    have hj' : j = s1.nextId ∨ j ∈ pf1 ++ pl1 := by
      rcases List.mem_append.mp hj with hc | hc
      · rcases List.mem_append.mp hc with hc2 | hc2
        · exact Or.inr (List.mem_append_left _ hc2)
        · rw [List.mem_singleton] at hc2
          exact Or.inl hc2
      · exact Or.inr (List.mem_append_right _ hc)
    rcases hi' with rfl | hi'
    · rcases hj' with rfl | hj'
      · rfl
      · exfalso
        rw [hkeyfresh, hkeyfr j (hmemne j hj')] at hk2
        exact hnok j hj' hk2.symm
    · rcases hj' with rfl | hj'
      · exfalso
        rw [hkeyfresh, hkeyfr i (hmemne i hi')] at hk2
        exact hnok i hi' hk2
      · refine hinv1.keysU i hi' j hj' ?_
        rw [← hkeyfr i (hmemne i hi'), ← hkeyfr j (hmemne j hj')]
        exact hk2
  · intro i hi
    rcases List.mem_append.mp hi with hc | hc
    · rcases List.mem_append.mp hc with hc2 | hc2
      · exact Nat.lt_succ_of_lt (hinv1.bound i (List.mem_append_left _ hc2))
      · rw [List.mem_singleton] at hc2
        subst hc2
        exact Nat.lt_succ_self _
    · exact Nat.lt_succ_of_lt (hinv1.bound i (List.mem_append_right _ hc))
  · intro i hi
    by_cases hif : i = s1.nextId
    · subst hif
      exact List.mem_append_left _ (List.mem_append_right _ (List.mem_singleton.mpr rfl))
    · rw [hsomefr i hif] at hi
      have := hinv1.domSub i hi
      rcases List.mem_append.mp this with hc | hc
      · exact List.mem_append_left _ (List.mem_append_left _ hc)
      · exact List.mem_append_right _ hc
  · rw [List.pairwise_append]
    refine ⟨hinv1.sortF, List.pairwise_singleton _ _, ?_⟩
    intro a ha b hb
    rw [List.mem_singleton] at hb
    subst hb
    exact hinv1.bound a (List.mem_append_left _ ha)
  · show (s1.nextId :: s1.map).length ≤ max s1.cap 1
    rw [List.length_cons]
    exact hroom

theorem map_eq_nil_of_empty {K V : Type} [DecidableEq K] {s : KState K V}
    (hinv : KInv s [] []) : s.map = [] := by
  cases hm : s.map with
  | nil => rfl
  | cons a t =>
      have := (hinv.mapMem a).mp (by rw [hm]; exact List.mem_cons_self a t)
      cases this

theorem kInsert_new_inv {K V : Type} [DecidableEq K] {s : KState K V}
    {pf pl : List Nat} {k : K} {v : V}
    (hinv : KInv s pf pl) (hK : 1 ≤ s.freq)
    (hmg : mapGet s.heap s.map k = none) :
    (kInsert s k v).1 = none ∧
    (kInsert s k v).2.nextId = s.nextId + 1 ∧
    (kInsert s k v).2.freq = s.freq ∧
    (kInsert s k v).2.cap = s.cap ∧
    keyOf (kInsert s k v).2.heap s.nextId = some k ∧
    valOf (kInsert s k v).2.heap s.nextId = some v ∧
    freqOf (kInsert s k v).2.heap s.nextId = some 0 ∧
    ((¬ s.map.length + 1 > s.cap ∧
       KInv (kInsert s k v).2 (pf ++ [s.nextId]) pl ∧
       (kInsert s k v).2.map = s.nextId :: s.map ∧
       (∀ j, j ≠ s.nextId → keyOf (kInsert s k v).2.heap j = keyOf s.heap j) ∧
       (∀ j, j ≠ s.nextId → valOf (kInsert s k v).2.heap j = valOf s.heap j) ∧
       (∀ j, j ≠ s.nextId → freqOf (kInsert s k v).2.heap j = freqOf s.heap j) ∧
       (∀ j, j ≠ s.nextId →
         (hfind (kInsert s k v).2.heap j).isSome = (hfind s.heap j).isSome)) ∨
     (s.map.length + 1 > s.cap ∧
      ((∃ q pf', pf = q :: pf' ∧
          KInv (kInsert s k v).2 (pf' ++ [s.nextId]) pl ∧
          (kInsert s k v).2.map = s.nextId :: s.map.erase q ∧
          hfind (kInsert s k v).2.heap q = none ∧
          (∀ j, j ≠ s.nextId → j ≠ q →
            keyOf (kInsert s k v).2.heap j = keyOf s.heap j) ∧
          (∀ j, j ≠ s.nextId → j ≠ q →
            valOf (kInsert s k v).2.heap j = valOf s.heap j) ∧
          (∀ j, j ≠ s.nextId → j ≠ q →
            freqOf (kInsert s k v).2.heap j = freqOf s.heap j) ∧
          (∀ j, j ≠ s.nextId → j ≠ q →
            (hfind (kInsert s k v).2.heap j).isSome = (hfind s.heap j).isSome)) ∨
       (∃ t pl', pf = [] ∧ pl = pl' ++ [t] ∧
          KInv (kInsert s k v).2 [s.nextId] pl' ∧
          (kInsert s k v).2.map = s.nextId :: s.map.erase t ∧
          hfind (kInsert s k v).2.heap t = none ∧
          (∀ j, j ≠ s.nextId → j ≠ t →
            keyOf (kInsert s k v).2.heap j = keyOf s.heap j) ∧
          (∀ j, j ≠ s.nextId → j ≠ t →
            valOf (kInsert s k v).2.heap j = valOf s.heap j) ∧
          (∀ j, j ≠ s.nextId → j ≠ t →
            freqOf (kInsert s k v).2.heap j = freqOf s.heap j) ∧
          (∀ j, j ≠ s.nextId → j ≠ t →
            (hfind (kInsert s k v).2.heap j).isSome = (hfind s.heap j).isSome)) ∨
       (pf = [] ∧ pl = [] ∧
          KInv (kInsert s k v).2 [s.nextId] [] ∧
          (kInsert s k v).2.map = [s.nextId])))) := by
  have hnok : ∀ i ∈ pf ++ pl, ¬ keyOf s.heap i = some k := by
    intro i hi hik
    have hi2 : i ∈ s.map := (hinv.mapMem i).mpr hi
    have := List.find?_eq_none.mp hmg i hi2
    simp [hik] at this
  by_cases hcap : s.map.length + 1 > s.cap
  · -- eviction path
    have hdis := kDisuse_inv hinv
    have hKd : 1 ≤ (kDisuse s).2.freq := by
      rw [hdis.2.1]
      exact hK
    rcases hdis.2.2.2 with
      ⟨q, pf', hpf, hmape, hlen1, hinv1, hfreeq, hkfr, hvfr, hffr, hsfr⟩ |
      ⟨t, pl', hpf, hpl, hmape, hlen1, hinv1, hfreet, hkfr, hvfr, hffr, hsfr⟩ |
      ⟨hpf, hpl, heq⟩
    · -- evicted the probationary front q
      have hqmem : q ∈ pf ++ pl := List.mem_append_left pl (hpf ▸ List.mem_cons_self q pf')
      have hqpf' : q ∉ pf' := by
        have := hinv.repF.hnodup
        rw [hpf] at this
        exact (List.nodup_cons.mp this).1
      have hqpl : q ∉ pl := hinv.disj q (hpf ▸ List.mem_cons_self q pf')
      have hnok1 : ∀ i ∈ pf' ++ pl, ¬ keyOf (kDisuse s).2.heap i = some k := by
        intro i hi hik
        have hiq : i ≠ q := by
          rintro rfl
          rcases List.mem_append.mp hi with hc | hc
          · exact hqpf' hc
          · exact hqpl hc
        rw [hkfr i hiq] at hik
        refine hnok i ?_ hik
        rw [hpf]
        rcases List.mem_append.mp hi with hc | hc
        · exact List.mem_append_left _ (List.mem_cons_of_mem q hc)
        · exact List.mem_append_right _ hc
      have hroom : (kDisuse s).2.map.length + 1 ≤ max (kDisuse s).2.cap 1 := by
        rw [hlen1, hdis.2.2.1]
        have hq1 : 1 ≤ s.map.length :=
          List.length_pos.mpr (List.ne_nil_of_mem ((hinv.mapMem q).mpr hqmem))
        have := hinv.capB
        omega
      have hpir := push_index_rebuild (v := v) hinv1 hKd hnok1 hroom
      have hres : kInsert s k v =
          (none, { (kDisuse s).2 with
            heap := (push_back (kDisuse s).2.heap (kDisuse s).2.fcfo
              (kDisuse s).2.nextId ⟨k, v, 0⟩).1,
            fcfo := (push_back (kDisuse s).2.heap (kDisuse s).2.fcfo
              (kDisuse s).2.nextId ⟨k, v, 0⟩).2,
            nextId := (kDisuse s).2.nextId + 1,
            map := (kDisuse s).2.nextId :: (kDisuse s).2.map }) := by
        simp only [kInsert, hmg, if_pos hcap, hpir.1]
      have hnid : (kDisuse s).2.nextId = s.nextId := hdis.1
      rw [hres]
      have hqnid : q ≠ s.nextId := Nat.ne_of_lt (hinv.bound q hqmem)
      refine ⟨rfl, by rw [hnid], by rw [hdis.2.1], by rw [hdis.2.2.1],
        ?_, ?_, ?_, Or.inr ⟨hcap, Or.inl ⟨q, pf', hpf, ?_, ?_, ?_, ?_, ?_, ?_, ?_⟩⟩⟩
      · rw [show (s.nextId : Nat) = (kDisuse s).2.nextId from hnid.symm]
        exact hpir.2.2.1
      · rw [show (s.nextId : Nat) = (kDisuse s).2.nextId from hnid.symm]
        exact hpir.2.2.2.1
      · rw [show (s.nextId : Nat) = (kDisuse s).2.nextId from hnid.symm]
        exact hpir.2.2.2.2.1
      · rw [show (s.nextId : Nat) = (kDisuse s).2.nextId from hnid.symm]
        exact hpir.2.1
      · rw [show (s.nextId : Nat) = (kDisuse s).2.nextId from hnid.symm, hmape]
      · have h1 := hpir.2.2.2.2.2.2.2.2 q (hnid ▸ hqnid)
        rw [hfreeq] at h1
        cases h2 : hfind (push_back (kDisuse s).2.heap (kDisuse s).2.fcfo
            (kDisuse s).2.nextId ⟨k, v, 0⟩).1 q with
        | none => rfl
        | some nd => rw [h2] at h1; cases h1
      · intro j hj1 hj2
        rw [hpir.2.2.2.2.2.1 j (hnid ▸ hj1), hkfr j hj2]
      · intro j hj1 hj2
        rw [hpir.2.2.2.2.2.2.1 j (hnid ▸ hj1), hvfr j hj2]
      · intro j hj1 hj2
        rw [hpir.2.2.2.2.2.2.2.1 j (hnid ▸ hj1), hffr j hj2]
      · intro j hj1 hj2
        rw [hpir.2.2.2.2.2.2.2.2 j (hnid ▸ hj1), hsfr j hj2]
    · -- evicted the promoted tail t
      have htmem : t ∈ pf ++ pl := by
        rw [hpl]
        exact List.mem_append_right _ (List.mem_append_right pl' (List.mem_cons_self t []))
      have htpl' : t ∉ pl' := by
        have hnd2 := hinv.repL.hnodup
        rw [hpl, List.nodup_append] at hnd2
        exact fun hc => hnd2.2.2 hc (List.mem_cons_self t [])
      have hnok1 : ∀ i ∈ ([] : List Nat) ++ pl', ¬ keyOf (kDisuse s).2.heap i = some k := by
        intro i hi hik
        rcases List.mem_append.mp hi with hc | hc
        · cases hc
        · have hit : i ≠ t := fun he => htpl' (he ▸ hc)
          rw [hkfr i hit] at hik
          refine hnok i ?_ hik
          rw [hpl]
          exact List.mem_append_right _ (List.mem_append_left _ hc)
      have hroom : (kDisuse s).2.map.length + 1 ≤ max (kDisuse s).2.cap 1 := by
        rw [hlen1, hdis.2.2.1]
        have hq1 : 1 ≤ s.map.length :=
          List.length_pos.mpr (List.ne_nil_of_mem ((hinv.mapMem t).mpr htmem))
        have := hinv.capB
        omega
      have hpir := push_index_rebuild (v := v) hinv1 hKd hnok1 hroom
      have hres : kInsert s k v =
          (none, { (kDisuse s).2 with
            heap := (push_back (kDisuse s).2.heap (kDisuse s).2.fcfo
              (kDisuse s).2.nextId ⟨k, v, 0⟩).1,
            fcfo := (push_back (kDisuse s).2.heap (kDisuse s).2.fcfo
              (kDisuse s).2.nextId ⟨k, v, 0⟩).2,
            nextId := (kDisuse s).2.nextId + 1,
            map := (kDisuse s).2.nextId :: (kDisuse s).2.map }) := by
        simp only [kInsert, hmg, if_pos hcap, hpir.1]
      have hnid : (kDisuse s).2.nextId = s.nextId := hdis.1
      rw [hres]
      have htnid : t ≠ s.nextId := Nat.ne_of_lt (hinv.bound t htmem)
      refine ⟨rfl, by rw [hnid], by rw [hdis.2.1], by rw [hdis.2.2.1],
        ?_, ?_, ?_, Or.inr ⟨hcap, Or.inr (Or.inl ⟨t, pl', hpf, hpl, ?_, ?_, ?_, ?_, ?_, ?_, ?_⟩)⟩⟩
      · rw [show (s.nextId : Nat) = (kDisuse s).2.nextId from hnid.symm]
        exact hpir.2.2.1
      · rw [show (s.nextId : Nat) = (kDisuse s).2.nextId from hnid.symm]
        exact hpir.2.2.2.1
      · rw [show (s.nextId : Nat) = (kDisuse s).2.nextId from hnid.symm]
        exact hpir.2.2.2.2.1
      · rw [show (s.nextId : Nat) = (kDisuse s).2.nextId from hnid.symm]
        have := hpir.2.1
        rwa [List.nil_append] at this
      · rw [show (s.nextId : Nat) = (kDisuse s).2.nextId from hnid.symm, hmape]
      · have h1 := hpir.2.2.2.2.2.2.2.2 t (hnid ▸ htnid)
        rw [hfreet] at h1
        cases h2 : hfind (push_back (kDisuse s).2.heap (kDisuse s).2.fcfo
            (kDisuse s).2.nextId ⟨k, v, 0⟩).1 t with
        | none => rfl
        | some nd => rw [h2] at h1; cases h1
      · intro j hj1 hj2
        rw [hpir.2.2.2.2.2.1 j (hnid ▸ hj1), hkfr j hj2]
      · intro j hj1 hj2
        rw [hpir.2.2.2.2.2.2.1 j (hnid ▸ hj1), hvfr j hj2]
      · intro j hj1 hj2
        rw [hpir.2.2.2.2.2.2.2.1 j (hnid ▸ hj1), hffr j hj2]
      · intro j hj1 hj2
        rw [hpir.2.2.2.2.2.2.2.2 j (hnid ▸ hj1), hsfr j hj2]
    · -- nothing to evict: both lists empty
      subst hpf
      subst hpl
      have hmap0 : s.map = [] := map_eq_nil_of_empty hinv
      have hinv1 : KInv (kDisuse s).2 [] [] := by
        rw [heq]
        exact hinv
      have hnok1 : ∀ i ∈ ([] : List Nat) ++ ([] : List Nat),
          ¬ keyOf (kDisuse s).2.heap i = some k := by
        intro i hi
        cases List.mem_append.mp hi with
        | inl hc => cases hc
        | inr hc => cases hc
      have hroom : (kDisuse s).2.map.length + 1 ≤ max (kDisuse s).2.cap 1 := by
        rw [heq, hmap0]
        simp
      have hpir := push_index_rebuild (v := v) hinv1 hKd hnok1 hroom
      have hres : kInsert s k v =
          (none, { (kDisuse s).2 with
            heap := (push_back (kDisuse s).2.heap (kDisuse s).2.fcfo
              (kDisuse s).2.nextId ⟨k, v, 0⟩).1,
            fcfo := (push_back (kDisuse s).2.heap (kDisuse s).2.fcfo
              (kDisuse s).2.nextId ⟨k, v, 0⟩).2,
            nextId := (kDisuse s).2.nextId + 1,
            map := (kDisuse s).2.nextId :: (kDisuse s).2.map }) := by
        simp only [kInsert, hmg, if_pos hcap, hpir.1]
      have hnid : (kDisuse s).2.nextId = s.nextId := hdis.1
      rw [hres]
      refine ⟨rfl, by rw [hnid], by rw [hdis.2.1], by rw [hdis.2.2.1],
        ?_, ?_, ?_, Or.inr ⟨hcap, Or.inr (Or.inr ⟨rfl, rfl, ?_, ?_⟩)⟩⟩
      · rw [show (s.nextId : Nat) = (kDisuse s).2.nextId from hnid.symm]
        exact hpir.2.2.1
      · rw [show (s.nextId : Nat) = (kDisuse s).2.nextId from hnid.symm]
        exact hpir.2.2.2.1
      · rw [show (s.nextId : Nat) = (kDisuse s).2.nextId from hnid.symm]
        exact hpir.2.2.2.2.1
      · rw [show (s.nextId : Nat) = (kDisuse s).2.nextId from hnid.symm]
        have := hpir.2.1
        rwa [List.nil_append] at this
      · rw [show (s.nextId : Nat) = (kDisuse s).2.nextId from hnid.symm, heq, hmap0]
  · -- no eviction needed
    have hroom : s.map.length + 1 ≤ max s.cap 1 := by
      push_neg at hcap
      omega
    have hpir := push_index_rebuild (v := v) hinv hK hnok hroom
    have hres : kInsert s k v =
        (none, { s with
          heap := (push_back s.heap s.fcfo s.nextId ⟨k, v, 0⟩).1,
          fcfo := (push_back s.heap s.fcfo s.nextId ⟨k, v, 0⟩).2,
          nextId := s.nextId + 1,
          map := s.nextId :: s.map }) := by
      simp only [kInsert, hmg, if_neg hcap, hpir.1]
    rw [hres]
    exact ⟨rfl, rfl, rfl, rfl, hpir.2.2.1, hpir.2.2.2.1, hpir.2.2.2.2.1,
      Or.inl ⟨hcap, hpir.2.1, rfl, hpir.2.2.2.2.2.1, hpir.2.2.2.2.2.2.1,
        hpir.2.2.2.2.2.2.2.1, hpir.2.2.2.2.2.2.2.2⟩⟩

theorem keyOf_set_value {K V : Type} (h : Heap (KItem K V)) (n j : Nat) (v : V) :
    keyOf (hmodify h n
      (fun x => { x with element := { x.element with value := v } })) j =
      keyOf h j := by
  by_cases hj : j = n
  · subst hj
    rw [keyOf, keyOf, hfind_hmodify_self]
    cases hfind h j <;> rfl
  · rw [keyOf, keyOf, hfind_hmodify_ne h _ hj]

theorem freqOf_set_value {K V : Type} (h : Heap (KItem K V)) (n j : Nat) (v : V) :
    freqOf (hmodify h n
      (fun x => { x with element := { x.element with value := v } })) j =
      freqOf h j := by
  by_cases hj : j = n
  · subst hj
    rw [freqOf, freqOf, hfind_hmodify_self]
    cases hfind h j <;> rfl
  · rw [freqOf, freqOf, hfind_hmodify_ne h _ hj]

theorem valOf_set_value_ne {K V : Type} (h : Heap (KItem K V)) {n j : Nat} (v : V)
    (hj : j ≠ n) :
    valOf (hmodify h n
      (fun x => { x with element := { x.element with value := v } })) j =
      valOf h j := by
  rw [valOf, valOf, hfind_hmodify_ne h _ hj]

theorem valOf_set_value_self {K V : Type} {h : Heap (KItem K V)} {n : Nat} (v : V)
    (hlive : (hfind h n).isSome) :
    valOf (hmodify h n
      (fun x => { x with element := { x.element with value := v } })) n =
      some v := by
  rw [valOf, hfind_hmodify_self]
  cases hfd : hfind h n with
  | none => rw [hfd] at hlive; cases hlive
  | some nd => rfl

theorem KInv_set_value {K V : Type} [DecidableEq K] {s : KState K V}
    {pf pl : List Nat} {n : Nat} (v : V) (hinv : KInv s pf pl) :
    KInv { s with
      heap := hmodify s.heap n
        (fun x => { x with element := { x.element with value := v } }) } pf pl := by
  refine ⟨⟨seg_hmodify_preserve
        (f := fun x => { x with element := { x.element with value := v } })
        (fun nd => ⟨rfl, rfl⟩) hinv.repF.hseg,
      hinv.repF.hhead, hinv.repF.htail, hinv.repF.hlen, hinv.repF.hnodup⟩,
    ⟨seg_hmodify_preserve
        (f := fun x => { x with element := { x.element with value := v } })
        (fun nd => ⟨rfl, rfl⟩) hinv.repL.hseg,
      hinv.repL.hhead, hinv.repL.htail, hinv.repL.hlen, hinv.repL.hnodup⟩,
    hinv.disj, hinv.mapNodup, hinv.mapMem, ?_, ?_, ?_, hinv.bound, ?_,
    hinv.sortF, hinv.capB⟩
  · intro i hi
    rw [freqOf_set_value]
    exact hinv.freqF i hi
  · intro i hi
    rw [freqOf_set_value]
    exact hinv.freqL i hi
  · intro i hi j hj
    rw [keyOf_set_value, keyOf_set_value]
    exact hinv.keysU i hi j hj
  · intro i hi
    rw [isSome_hfind_hmodify] at hi
    exact hinv.domSub i hi

theorem kInsert_existing_inv {K V : Type} [DecidableEq K] {s : KState K V}
    {pf pl : List Nat} {k : K} {n : Nat} (v : V)
    (hinv : KInv s pf pl) (hmg : mapGet s.heap s.map k = some n) :
    (kInsert s k v).1 = valOf s.heap n ∧
    (kInsert s k v).2.map = s.map ∧
    (kInsert s k v).2.nextId = s.nextId ∧
    (kInsert s k v).2.freq = s.freq ∧
    (kInsert s k v).2.cap = s.cap ∧
    valOf (kInsert s k v).2.heap n = some v ∧
    (∀ j, keyOf (kInsert s k v).2.heap j = keyOf s.heap j) ∧
    (∀ j, j ≠ n → valOf (kInsert s k v).2.heap j = valOf s.heap j) ∧
    (∀ j, (hfind (kInsert s k v).2.heap j).isSome = (hfind s.heap j).isSome) ∧
    ∃ pf' pl', KInv (kInsert s k v).2 pf' pl' ∧
      (∀ j, j ∈ pf' ++ pl' ↔ j ∈ pf ++ pl) := by
  have hnmem : n ∈ s.map := List.mem_of_find?_eq_some hmg
  have hmem : n ∈ pf ++ pl := (hinv.mapMem n).mp hnmem
  have hlive : ∃ nd, hfind s.heap n = some nd := by
    rcases List.mem_append.mp hmem with hc | hc
    · exact seg_live hinv.repF.hseg n hc
    · exact seg_live hinv.repL.hseg n hc
  obtain ⟨nd, hnd⟩ := hlive
  have hinvi := KInv_set_value (n := n) v hinv
  have happ := kUpdate_inv hinvi hmem
  have hres : kInsert s k v =
      ((hfind s.heap n).map (·.element.value),
        kUpdate { s with
          heap := hmodify s.heap n
            (fun x => { x with element := { x.element with value := v } }) } n) := by
    simp only [kInsert, hmg]
  rw [hres]
  refine ⟨rfl, happ.1, happ.2.1, happ.2.2.1, happ.2.2.2.1, ?_, ?_, ?_, ?_, ?_⟩
  · rw [happ.2.2.2.2.2.1 n]
    exact valOf_set_value_self v (by rw [hnd]; rfl)
  · intro j
    rw [happ.2.2.2.2.1 j]
    exact keyOf_set_value s.heap n j v
  · intro j hj
    rw [happ.2.2.2.2.2.1 j]
    exact valOf_set_value_ne s.heap v hj
  · intro j
    rw [happ.2.2.2.2.2.2.2.1 j]
    exact isSome_hfind_hmodify s.heap n j
      (fun x => { x with element := { x.element with value := v } })
  · rcases happ.2.2.2.2.2.2.2.2 with
      ⟨c, _, _, _, hnpl, hk⟩ | ⟨c, _, _, _, _, hnpf, hk⟩ | ⟨c, _, _, _, _, hk⟩
    · refine ⟨pf, n :: pl.erase n, hk, ?_⟩
      intro j
      simp only [List.mem_append, List.mem_cons]
      constructor
      · rintro (hj | rfl | hj)
        · exact Or.inl hj
        · exact Or.inr hnpl
        · exact Or.inr (List.mem_of_mem_erase hj)
      · rintro (hj | hj)
        · exact Or.inl hj
        · by_cases hjn : j = n
          · exact Or.inr (Or.inl hjn)
          · exact Or.inr (Or.inr (List.mem_erase_of_ne hjn |>.mpr hj))
    · refine ⟨pf.erase n, n :: pl, hk, ?_⟩
      intro j
      simp only [List.mem_append, List.mem_cons]
      constructor
      · rintro (hj | rfl | hj)
        · exact Or.inl (List.mem_of_mem_erase hj)
        · exact Or.inl hnpf
        · exact Or.inr hj
      · rintro (hj | hj)
        · by_cases hjn : j = n
          · exact Or.inr (Or.inl hjn)
          · exact Or.inl (List.mem_erase_of_ne hjn |>.mpr hj)
        · exact Or.inr (Or.inr hj)
    · exact ⟨pf, pl, hk, fun j => Iff.rfl⟩

theorem kRemove_absent {K V : Type} [DecidableEq K] {s : KState K V} {k : K}
    (hmg : mapGet s.heap s.map k = none) : kRemove s k = (none, s) := by
  simp only [kRemove, mapRemove, hmg]

theorem kRemove_present_inv {K V : Type} [DecidableEq K] {s : KState K V}
    {pf pl : List Nat} {k : K} {n : Nat}
    (hinv : KInv s pf pl) (hmg : mapGet s.heap s.map k = some n) :
    (kRemove s k).1 = valOf s.heap n ∧
    (kRemove s k).2.map = s.map.erase n ∧
    (kRemove s k).2.nextId = s.nextId ∧
    (kRemove s k).2.freq = s.freq ∧
    (kRemove s k).2.cap = s.cap ∧
    hfind (kRemove s k).2.heap n = none ∧
    (∀ j, j ≠ n → keyOf (kRemove s k).2.heap j = keyOf s.heap j) ∧
    (∀ j, j ≠ n → valOf (kRemove s k).2.heap j = valOf s.heap j) ∧
    (∀ j, j ≠ n → freqOf (kRemove s k).2.heap j = freqOf s.heap j) ∧
    (∀ j, j ≠ n → (hfind (kRemove s k).2.heap j).isSome = (hfind s.heap j).isSome) ∧
    ((∃ c, freqOf s.heap n = some c ∧ s.freq ≤ c ∧ n ∈ pl ∧
        (kRemove s k).2.fcfo = s.fcfo ∧
        KInv (kRemove s k).2 pf (pl.erase n)) ∨
     (∃ c, freqOf s.heap n = some c ∧ c < s.freq ∧ n ∈ pf ∧
        (kRemove s k).2.lru = s.lru ∧
        KInv (kRemove s k).2 (pf.erase n) pl)) := by
  have hres0 : mapRemove s.heap s.map k = (some n, s.map.erase n) := by
    simp only [mapRemove, hmg]
  have hnmap : n ∈ s.map := List.mem_of_find?_eq_some hmg
  have hmem : n ∈ pf ++ pl := (hinv.mapMem n).mp hnmap
  have hlive : ∃ nd, hfind s.heap n = some nd := by
    rcases List.mem_append.mp hmem with hc | hc
    · exact seg_live hinv.repF.hseg n hc
    · exact seg_live hinv.repL.hseg n hc
  obtain ⟨nd, hnd⟩ := hlive
  have hfreqn : freqOf s.heap n = some nd.element.freq := by
    rw [freqOf, hnd]
    rfl
  by_cases hge : s.freq ≤ nd.element.freq
  · -- promoted: removed from the lru list
    have hnpl : n ∈ pl := by
      rcases List.mem_append.mp hmem with hc | hc
      · obtain ⟨c, hc1, hc2⟩ := hinv.freqF n hc
        rw [hfreqn] at hc1
        have hceq : nd.element.freq = c := Option.some.inj hc1
        omega
      · exact hc
    obtain ⟨xs, ys, hpl⟩ := List.append_of_mem hnpl
    subst hpl
    have hnxs : n ∉ xs := (nodup_mid hinv.repL.hnodup).1
    have hnys : n ∉ ys := (nodup_mid hinv.repL.hnodup).2.1
    have hrem := remove_node_rep hinv.repL
    obtain ⟨⟨nd2, hnd2, hrfst⟩, hrep', hfree, hfr1, hfr2, hfr3⟩ := hrem
    rw [hnd] at hnd2
    injection hnd2 with hnd2e
    subst hnd2e
    have hres : kRemove s k =
        ((remove_node s.heap s.lru n).1.map (·.value),
         { s with
           map := s.map.erase n,
           heap := (remove_node s.heap s.lru n).2.1,
           lru := (remove_node s.heap s.lru n).2.2 }) := by
      simp only [kRemove, hres0, hnd]
      rw [if_pos hge]
    rw [hres]
    have hkeyfr : ∀ j, j ≠ n →
        keyOf (remove_node s.heap s.lru n).2.1 j = keyOf s.heap j :=
      fun j hj => keyOf_congr (hfr2 j hj)
    have hmemup : ∀ i, i ∈ pf ++ (xs ++ n :: ys).erase n → i ∈ pf ++ (xs ++ n :: ys) := by
      intro i hi
      rcases List.mem_append.mp hi with hc | hc
      · exact List.mem_append_left _ hc
      · exact List.mem_append_right _ (List.mem_of_mem_erase hc)
    have hiqne : ∀ i, i ∈ pf ++ (xs ++ n :: ys).erase n → i ≠ n := by
      intro i hi
      rintro rfl
      rcases List.mem_append.mp hi with hc | hc
      · exact hinv.disj i hc hnpl
      · rw [erase_of_mid hnxs] at hc
        rcases List.mem_append.mp hc with hc | hc
        · exact hnxs hc
        · exact hnys hc
    refine ⟨by rw [hrfst, valOf, hnd]; rfl, rfl, rfl, rfl, rfl, hfree, hkeyfr,
      fun j hj => valOf_congr (hfr2 j hj), fun j hj => freqOf_congr (hfr2 j hj),
      hfr3, Or.inl ⟨nd.element.freq, hfreqn, hge, hnpl, rfl, ?_⟩⟩
    refine ⟨?_, ?_, ?_, hinv.mapNodup.erase n, ?_, ?_, ?_, ?_, ?_, ?_, hinv.sortF, ?_⟩
    · refine Rep_congr hinv.repF ?_
      intro i hi
      have hiq : i ≠ n := fun hc => hinv.disj i hi (hc ▸ hnpl)
      refine hfr1 i hiq (fun hc => hinv.disj i hi ?_) (fun hc => hinv.disj i hi ?_)
      · exact List.mem_append_left _ hc
      · exact List.mem_append_right _ (List.mem_cons_of_mem n hc)
    · rw [erase_of_mid hnxs]
      exact hrep'
    · intro j hj
      intro hc
      exact hinv.disj j hj (List.mem_of_mem_erase hc)
    · intro i
      rw [List.Nodup.mem_erase_iff hinv.mapNodup, hinv.mapMem i]
      constructor
      · rintro ⟨hne, hmem2⟩
        rcases List.mem_append.mp hmem2 with hc | hc
        · exact List.mem_append_left _ hc
        · exact List.mem_append_right _ ((List.Nodup.mem_erase_iff hinv.repL.hnodup).mpr ⟨hne, hc⟩)
      · intro hmem2
        refine ⟨hiqne i hmem2, hmemup i hmem2⟩
    · intro i hi
      have hiq : i ≠ n := hiqne i (List.mem_append_left _ hi)
      obtain ⟨c, hc1, hc2⟩ := hinv.freqF i hi
      exact ⟨c, by rw [freqOf_congr (hfr2 i hiq)]; exact hc1, hc2⟩
    · intro i hi
      have hiq : i ≠ n := hiqne i (List.mem_append_right _ hi)
      obtain ⟨c, hc1, hc2⟩ := hinv.freqL i (List.mem_of_mem_erase hi)
      exact ⟨c, by rw [freqOf_congr (hfr2 i hiq)]; exact hc1, hc2⟩
    · intro i hi j hj hk
      refine hinv.keysU i (hmemup i hi) j (hmemup j hj) ?_
      rw [← hkeyfr i (hiqne i hi), ← hkeyfr j (hiqne j hj)]
      exact hk
    · intro i hi
      exact hinv.bound i (hmemup i hi)
    · intro i hi
      by_cases hiq : i = n
      · subst hiq
        rw [hfree] at hi
        cases hi
      · rw [hfr3 i hiq] at hi
        have hmem2 := hinv.domSub i hi
        rcases List.mem_append.mp hmem2 with hc | hc
        · exact List.mem_append_left _ hc
        · exact List.mem_append_right _ ((List.Nodup.mem_erase_iff hinv.repL.hnodup).mpr ⟨hiq, hc⟩)
    · calc (s.map.erase n).length ≤ s.map.length :=
          (List.erase_sublist n s.map).length_le
        _ ≤ max s.cap 1 := hinv.capB
  · -- probationary: removed from the fcfo list
    have hnpf : n ∈ pf := by
      rcases List.mem_append.mp hmem with hc | hc
      · exact hc
      · obtain ⟨c, hc1, hc2⟩ := hinv.freqL n hc
        rw [hfreqn] at hc1
        have hceq : nd.element.freq = c := Option.some.inj hc1
        omega
    obtain ⟨xs, ys, hpf⟩ := List.append_of_mem hnpf
    subst hpf
    have hnxs : n ∉ xs := (nodup_mid hinv.repF.hnodup).1
    have hnys : n ∉ ys := (nodup_mid hinv.repF.hnodup).2.1
    have hrem := remove_node_rep hinv.repF
    obtain ⟨⟨nd2, hnd2, hrfst⟩, hrep', hfree, hfr1, hfr2, hfr3⟩ := hrem
    rw [hnd] at hnd2
    injection hnd2 with hnd2e
    subst hnd2e
    have hres : kRemove s k =
        ((remove_node s.heap s.fcfo n).1.map (·.value),
         { s with
           map := s.map.erase n,
           heap := (remove_node s.heap s.fcfo n).2.1,
           fcfo := (remove_node s.heap s.fcfo n).2.2 }) := by
      simp only [kRemove, hres0, hnd]
      rw [if_neg hge]
    rw [hres]
    have hkeyfr : ∀ j, j ≠ n →
        keyOf (remove_node s.heap s.fcfo n).2.1 j = keyOf s.heap j :=
      fun j hj => keyOf_congr (hfr2 j hj)
    have hmemup : ∀ i, i ∈ (xs ++ n :: ys).erase n ++ pl → i ∈ (xs ++ n :: ys) ++ pl := by
      intro i hi
      rcases List.mem_append.mp hi with hc | hc
      · exact List.mem_append_left _ (List.mem_of_mem_erase hc)
      · exact List.mem_append_right _ hc
    have hiqne : ∀ i, i ∈ (xs ++ n :: ys).erase n ++ pl → i ≠ n := by
      intro i hi
      rintro rfl
      rcases List.mem_append.mp hi with hc | hc
      · rw [erase_of_mid hnxs] at hc
        rcases List.mem_append.mp hc with hc | hc
        · exact hnxs hc
        · exact hnys hc
      · exact hinv.disj i hnpf hc
    have hlt : ¬ nd.element.freq ≥ s.freq := hge
    refine ⟨by rw [hrfst, valOf, hnd]; rfl, rfl, rfl, rfl, rfl, hfree, hkeyfr,
      fun j hj => valOf_congr (hfr2 j hj), fun j hj => freqOf_congr (hfr2 j hj),
      hfr3, Or.inr ⟨nd.element.freq, hfreqn, by omega, hnpf, rfl, ?_⟩⟩
    refine ⟨?_, ?_, ?_, hinv.mapNodup.erase n, ?_, ?_, ?_, ?_, ?_, ?_, ?_, ?_⟩
    · rw [erase_of_mid hnxs]
      exact hrep'
    · refine Rep_congr hinv.repL ?_
      intro i hi
      have hiq : i ≠ n := fun hc => hinv.disj n hnpf (hc ▸ hi)
      refine hfr1 i hiq (fun hc => hinv.disj i ?_ hi) (fun hc => hinv.disj i ?_ hi)
      · exact List.mem_append_left _ hc
      · exact List.mem_append_right _ (List.mem_cons_of_mem n hc)
    · intro j hj
      exact hinv.disj j (List.mem_of_mem_erase hj)
    · intro i
      rw [List.Nodup.mem_erase_iff hinv.mapNodup, hinv.mapMem i]
      constructor
      · rintro ⟨hne, hmem2⟩
        rcases List.mem_append.mp hmem2 with hc | hc
        · exact List.mem_append_left _ ((List.Nodup.mem_erase_iff hinv.repF.hnodup).mpr ⟨hne, hc⟩)
        · exact List.mem_append_right _ hc
      · intro hmem2
        refine ⟨hiqne i hmem2, hmemup i hmem2⟩
    · intro i hi
      have hiq : i ≠ n := hiqne i (List.mem_append_left _ hi)
      obtain ⟨c, hc1, hc2⟩ := hinv.freqF i (List.mem_of_mem_erase hi)
      exact ⟨c, by rw [freqOf_congr (hfr2 i hiq)]; exact hc1, hc2⟩
    · intro i hi
      have hiq : i ≠ n := hiqne i (List.mem_append_right _ hi)
      obtain ⟨c, hc1, hc2⟩ := hinv.freqL i hi
      exact ⟨c, by rw [freqOf_congr (hfr2 i hiq)]; exact hc1, hc2⟩
    · intro i hi j hj hk
      refine hinv.keysU i (hmemup i hi) j (hmemup j hj) ?_
      rw [← hkeyfr i (hiqne i hi), ← hkeyfr j (hiqne j hj)]
      exact hk
    · intro i hi
      exact hinv.bound i (hmemup i hi)
    · intro i hi
      by_cases hiq : i = n
      · subst hiq
        rw [hfree] at hi
        cases hi
      · rw [hfr3 i hiq] at hi
        have hmem2 := hinv.domSub i hi
        rcases List.mem_append.mp hmem2 with hc | hc
        · exact List.mem_append_left _ ((List.Nodup.mem_erase_iff hinv.repF.hnodup).mpr ⟨hiq, hc⟩)
        · exact List.mem_append_right _ hc
    · exact hinv.sortF.sublist (List.erase_sublist n (xs ++ n :: ys))
    · calc (s.map.erase n).length ≤ s.map.length :=
          (List.erase_sublist n s.map).length_le
        _ ≤ max s.cap 1 := hinv.capB

theorem kGet_absent {K V : Type} [DecidableEq K] {s : KState K V} {k : K}
    (hmg : mapGet s.heap s.map k = none) : kGet s k = (none, s) := by
  simp only [kGet, hmg]

theorem kGet_present {K V : Type} [DecidableEq K] {s : KState K V} {k : K} {n : Nat}
    (hmg : mapGet s.heap s.map k = some n) :
    kGet s k = ((hfind (kUpdate s n).heap n).map (·.element.value), kUpdate s n) := by
  simp only [kGet, hmg]

theorem kNew_inv {K V : Type} [DecidableEq K] (cap freq : Nat) :
    KInv (kNew K V cap freq) [] [] := by
  refine ⟨⟨trivial, rfl, rfl, rfl, List.nodup_nil⟩,
    ⟨trivial, rfl, rfl, rfl, List.nodup_nil⟩,
    ?_, List.nodup_nil, ?_, ?_, ?_, ?_, ?_, ?_, List.Pairwise.nil, ?_⟩
  · intro j hj
    cases hj
  · intro i
    constructor
    · intro hi
      cases hi
    · intro hi
      cases hi
  · intro i hi
    cases hi
  · intro i hi
    cases hi
  · intro i hi
    cases hi
  · intro i hi
    cases hi
  · intro i hi
    cases hi
  · exact Nat.zero_le _

theorem kStep_inv {K V : Type} [DecidableEq K] {s : KState K V} {pf pl : List Nat}
    (hinv : KInv s pf pl) (hK : 1 ≤ s.freq) (op : Op K V) :
    (kStep s op).freq = s.freq ∧ (kStep s op).cap = s.cap ∧
    ∃ pf' pl', KInv (kStep s op) pf' pl' := by
  cases op with
  | get k =>
      have hst : kStep s (Op.get k) = (kGet s k).2 := rfl
      cases hmg : mapGet s.heap s.map k with
      | none =>
          rw [hst, kGet_absent hmg]
          exact ⟨rfl, rfl, pf, pl, hinv⟩
      | some n =>
          have hmem : n ∈ pf ++ pl :=
            (hinv.mapMem n).mp (List.mem_of_find?_eq_some hmg)
          have hupd := kUpdate_inv hinv hmem
          rw [hst, kGet_present hmg]
          refine ⟨hupd.2.2.1, hupd.2.2.2.1, ?_⟩
          rcases hupd.2.2.2.2.2.2.2.2 with
            ⟨c, _, _, _, _, hk⟩ | ⟨c, _, _, _, _, _, hk⟩ | ⟨c, _, _, _, _, hk⟩
          · exact ⟨pf, n :: pl.erase n, hk⟩
          · exact ⟨pf.erase n, n :: pl, hk⟩
          · exact ⟨pf, pl, hk⟩
  | insert k v =>
      cases hmg : mapGet s.heap s.map k with
      | none =>
          have hins := kInsert_new_inv (v := v) hinv hK hmg
          refine ⟨hins.2.2.1, hins.2.2.2.1, ?_⟩
          rcases hins.2.2.2.2.2.2.2 with
            ⟨_, hk, _⟩ | ⟨_, ⟨q, pf', _, hk, _⟩ | ⟨t, pl', _, _, hk, _⟩ | ⟨_, _, hk, _⟩⟩
          · exact ⟨pf ++ [s.nextId], pl, hk⟩
          · exact ⟨pf' ++ [s.nextId], pl, hk⟩
          · exact ⟨[s.nextId], pl', hk⟩
          · exact ⟨[s.nextId], [], hk⟩
      | some n =>
          have hins := kInsert_existing_inv v hinv hmg
          obtain ⟨pf', pl', hk, _⟩ := hins.2.2.2.2.2.2.2.2.2
          exact ⟨hins.2.2.2.1, hins.2.2.2.2.1, pf', pl', hk⟩
  | remove k =>
      have hst : kStep s (Op.remove k) = (kRemove s k).2 := rfl
      cases hmg : mapGet s.heap s.map k with
      | none =>
          rw [hst, kRemove_absent hmg]
          exact ⟨rfl, rfl, pf, pl, hinv⟩
      | some n =>
          have hrem := kRemove_present_inv hinv hmg
          refine ⟨hrem.2.2.2.1, hrem.2.2.2.2.1, ?_⟩
          rcases hrem.2.2.2.2.2.2.2.2.2.2 with
            ⟨c, _, _, _, _, hk⟩ | ⟨c, _, _, _, _, hk⟩
          · exact ⟨pf, pl.erase n, hk⟩
          · exact ⟨pf.erase n, pl, hk⟩

theorem foldl_kStep_inv {K V : Type} [DecidableEq K] (ops : List (Op K V)) :
    ∀ (s : KState K V) (pf pl : List Nat), KInv s pf pl → 1 ≤ s.freq →
    (ops.foldl kStep s).freq = s.freq ∧ (ops.foldl kStep s).cap = s.cap ∧
    ∃ pf' pl', KInv (ops.foldl kStep s) pf' pl' := by
  induction ops with
  | nil =>
      intro s pf pl hinv _
      exact ⟨rfl, rfl, pf, pl, hinv⟩
  | cons op rest ih =>
      intro s pf pl hinv hK
      obtain ⟨hfq, hcp, pf1, pl1, hinv1⟩ := kStep_inv hinv hK op
      obtain ⟨hfq2, hcp2, pf2, pl2, hinv2⟩ :=
        ih (kStep s op) pf1 pl1 hinv1 (by rw [hfq]; exact hK)
      rw [List.foldl_cons]
      exact ⟨by rw [hfq2, hfq], by rw [hcp2, hcp], pf2, pl2, hinv2⟩

theorem kRun_inv {K V : Type} [DecidableEq K] (cap freq : Nat) (hK : 1 ≤ freq)
    (ops : List (Op K V)) :
    (kRun cap freq ops).freq = freq ∧ (kRun cap freq ops).cap = cap ∧
    ∃ pf pl, KInv (kRun cap freq ops) pf pl :=
  foldl_kStep_inv ops (kNew K V cap freq) [] [] (kNew_inv cap freq) hK

theorem KInv_entry_count {K V : Type} [DecidableEq K] {s : KState K V}
    {pf pl : List Nat} (hinv : KInv s pf pl) :
    s.fcfo.len = pf.length ∧ s.lru.len = pl.length ∧
    s.map.length = pf.length + pl.length := by
  have hnd : (pf ++ pl).Nodup := by
    rw [List.nodup_append]
    exact ⟨hinv.repF.hnodup, hinv.repL.hnodup, fun a ha hb => hinv.disj a ha hb⟩
  have hsub1 : s.map.Subperm (pf ++ pl) :=
    hinv.mapNodup.subperm (fun a ha => (hinv.mapMem a).mp ha)
  have hsub2 : (pf ++ pl).Subperm s.map :=
    hnd.subperm (fun a ha => (hinv.mapMem a).mpr ha)
  have hlen : s.map.length = (pf ++ pl).length :=
    Nat.le_antisymm hsub1.length_le hsub2.length_le
  rw [List.length_append] at hlen
  exact ⟨hinv.repF.hlen, hinv.repL.hlen, hlen⟩

theorem lhfind_none_of_bound {K V : Type} [DecidableEq K] {s : LState K V}
    {ids : List Nat} (hinv : LInv s ids) :
    hfind s.heap s.nextId = none := by
  cases hf : hfind s.heap s.nextId with
  | none => rfl
  | some nd =>
      have hmem := hinv.domSub s.nextId (by rw [hf]; rfl)
      exact absurd (hinv.bound _ hmem) (lt_irrefl _)

theorem lmap_eq_nil_of_empty {K V : Type} [DecidableEq K] {s : LState K V}
    (hinv : LInv s []) : s.map = [] := by
  cases hm : s.map with
  | nil => rfl
  | cons a t =>
      have := (hinv.mapMem a).mp (by rw [hm]; exact List.mem_cons_self a t)
      cases this

theorem lkeyOf_set_value {K V : Type} (h : Heap (LItem K V)) (n j : Nat) (v : V) :
    lkeyOf (hmodify h n
      (fun x => { x with element := { x.element with value := v } })) j =
      lkeyOf h j := by
  by_cases hj : j = n
  · subst hj
    rw [lkeyOf, lkeyOf, hfind_hmodify_self]
    cases hfind h j <;> rfl
  · rw [lkeyOf, lkeyOf, hfind_hmodify_ne h _ hj]

theorem LInv_set_value {K V : Type} [DecidableEq K] {s : LState K V}
    {ids : List Nat} {n : Nat} (v : V) (hinv : LInv s ids) :
    LInv { s with
      heap := hmodify s.heap n
        (fun x => { x with element := { x.element with value := v } }) } ids := by
  refine ⟨⟨seg_hmodify_preserve
        (f := fun x => { x with element := { x.element with value := v } })
        (fun nd => ⟨rfl, rfl⟩) hinv.rep.hseg,
      hinv.rep.hhead, hinv.rep.htail, hinv.rep.hlen, hinv.rep.hnodup⟩,
    hinv.mapNodup, hinv.mapMem, ?_, hinv.bound, ?_, hinv.capB⟩
  · intro i hi j hj
    rw [lkeyOf_set_value, lkeyOf_set_value]
    exact hinv.keysU i hi j hj
  · intro i hi
    rw [isSome_hfind_hmodify] at hi
    exact hinv.domSub i hi

theorem lruUpdate_inv {K V : Type} [DecidableEq K] {s : LState K V}
    {ids : List Nat} {n : Nat} (hinv : LInv s ids) (hmem : n ∈ ids) :
    (lruUpdate s n).map = s.map ∧
    (lruUpdate s n).nextId = s.nextId ∧
    (lruUpdate s n).cap = s.cap ∧
    (∀ j, lkeyOf (lruUpdate s n).heap j = lkeyOf s.heap j) ∧
    (∀ j, lvalOf (lruUpdate s n).heap j = lvalOf s.heap j) ∧
    (∀ j, (hfind (lruUpdate s n).heap j).isSome = (hfind s.heap j).isSome) ∧
    LInv (lruUpdate s n) (n :: ids.erase n) := by
  obtain ⟨xs, ys, hids⟩ := List.append_of_mem hmem
  subst hids
  have hnxs : n ∉ xs := (nodup_mid hinv.rep.hnodup).1
  have hisE : listIsEmpty s.list = false := by
    rw [listIsEmpty_rep hinv.rep]
    cases xs <;> rfl
  have hres : lruUpdate s n = { s with
      heap := (splice_self_front s.heap s.list s.list.head n).1,
      list := (splice_self_front s.heap s.list s.list.head n).2 } := by
    simp only [lruUpdate, hisE, begin_node]
    rfl
  have hssf := splice_self_front_rep hinv.rep
  have hel := hssf.2.2.1
  have hsome := hssf.2.2.2
  rw [hres]
  have hmm : ∀ j, j ∈ n :: (xs ++ n :: ys).erase n ↔ j ∈ xs ++ n :: ys := by
    intro j
    rw [erase_of_mid hnxs]
    simp only [List.mem_append, List.mem_cons]
    tauto
  refine ⟨rfl, rfl, rfl, fun j => lkeyOf_congr (hel j),
    fun j => lvalOf_congr (hel j), hsome, ?_⟩
  refine ⟨?_, hinv.mapNodup, ?_, ?_, ?_, ?_, hinv.capB⟩
  · rw [erase_of_mid hnxs]
    exact hssf.1
  · intro i
    rw [hinv.mapMem i]
    exact (hmm i).symm
  · intro i hi j hj
    rw [lkeyOf_congr (hel i), lkeyOf_congr (hel j)]
    exact hinv.keysU i ((hmm i).mp hi) j ((hmm j).mp hj)
  · intro i hi
    exact hinv.bound i ((hmm i).mp hi)
  · intro i hi
    rw [hsome i] at hi
    exact (hmm i).mpr (hinv.domSub i hi)

theorem lruGet_absent {K V : Type} [DecidableEq K] {s : LState K V} {k : K}
    (hmg : lmapGet s.heap s.map k = none) : lruGet s k = (none, s) := by
  simp only [lruGet, hmg]

theorem lruGet_present {K V : Type} [DecidableEq K] {s : LState K V} {k : K}
    {n : Nat} (hmg : lmapGet s.heap s.map k = some n) :
    lruGet s k =
      ((hfind (lruUpdate s n).heap n).map (·.element.value), lruUpdate s n) := by
  simp only [lruGet, hmg]

theorem lruInsert_existing_inv {K V : Type} [DecidableEq K] {s : LState K V}
    {ids : List Nat} {k : K} {n : Nat} (v : V)
    (hinv : LInv s ids) (hmg : lmapGet s.heap s.map k = some n) :
    (lruInsert s k v).2.map = s.map ∧
    (lruInsert s k v).2.nextId = s.nextId ∧
    (lruInsert s k v).2.cap = s.cap ∧
    LInv (lruInsert s k v).2 (n :: ids.erase n) := by
  have hnmem : n ∈ s.map := List.mem_of_find?_eq_some hmg
  have hmem : n ∈ ids := (hinv.mapMem n).mp hnmem
  have hupd := lruUpdate_inv hinv hmem
  have hres : lruInsert s k v =
      ((hfind (lruUpdate s n).heap n).map (·.element.value),
       { lruUpdate s n with
         heap := hmodify (lruUpdate s n).heap n
           (fun x => { x with element := { x.element with value := v } }) }) := by
    simp only [lruInsert, hmg]
  rw [hres]
  exact ⟨hupd.1, hupd.2.1, hupd.2.2.1, LInv_set_value v hupd.2.2.2.2.2.2⟩

theorem lpush_index_rebuild {K V : Type} [DecidableEq K] {s1 : LState K V}
    {ids1 : List Nat} {k : K} {v : V}
    (hinv1 : LInv s1 ids1)
    (hnok : ∀ i ∈ ids1, ¬ lkeyOf s1.heap i = some k)
    (hroom : s1.map.length + 1 ≤ max s1.cap 1) :
    begin_node (push_front s1.heap s1.list s1.nextId ⟨k, v⟩).2 = some s1.nextId ∧
    LInv { s1 with
      heap := (push_front s1.heap s1.list s1.nextId ⟨k, v⟩).1,
      list := (push_front s1.heap s1.list s1.nextId ⟨k, v⟩).2,
      nextId := s1.nextId + 1,
      map := s1.nextId :: s1.map } (s1.nextId :: ids1) ∧
    lkeyOf (push_front s1.heap s1.list s1.nextId ⟨k, v⟩).1 s1.nextId = some k ∧
    lvalOf (push_front s1.heap s1.list s1.nextId ⟨k, v⟩).1 s1.nextId = some v ∧
    (∀ j, j ≠ s1.nextId →
      lkeyOf (push_front s1.heap s1.list s1.nextId ⟨k, v⟩).1 j = lkeyOf s1.heap j) ∧
    (∀ j, j ≠ s1.nextId →
      lvalOf (push_front s1.heap s1.list s1.nextId ⟨k, v⟩).1 j = lvalOf s1.heap j) ∧
    (∀ j, j ≠ s1.nextId →
      (hfind (push_front s1.heap s1.list s1.nextId ⟨k, v⟩).1 j).isSome =
        (hfind s1.heap j).isSome) := by
  have hfree : hfind s1.heap s1.nextId = none := lhfind_none_of_bound hinv1
  have hpush := @push_front_rep _ _ _ _ _ (⟨k, v⟩ : LItem K V) hinv1.rep hfree
  have hfreshel : (hfind (push_front s1.heap s1.list s1.nextId ⟨k, v⟩).1
      s1.nextId).map (·.element) = some ⟨k, v⟩ := hpush.2.2.2.2
  have hkeyfresh : lkeyOf (push_front s1.heap s1.list s1.nextId ⟨k, v⟩).1
      s1.nextId = some k := proj_of_element (fun it : LItem K V => it.key) hfreshel
  have hvalfresh : lvalOf (push_front s1.heap s1.list s1.nextId ⟨k, v⟩).1
      s1.nextId = some v := proj_of_element (fun it : LItem K V => it.value) hfreshel
  have hkeyfr : ∀ j, j ≠ s1.nextId →
      lkeyOf (push_front s1.heap s1.list s1.nextId ⟨k, v⟩).1 j = lkeyOf s1.heap j :=
    fun j hj => lkeyOf_congr (hpush.2.2.1 j hj)
  have hsomefr := hpush.2.2.2.1
  have hmemne : ∀ i, i ∈ ids1 → i ≠ s1.nextId := by
    intro i hi
    exact Nat.ne_of_lt (hinv1.bound i hi)
  have hhd : begin_node (push_front s1.heap s1.list s1.nextId ⟨k, v⟩).2 =
      some s1.nextId := by
    rw [begin_node, hpush.1.hhead]
    rfl
  refine ⟨hhd, ?_, hkeyfresh, hvalfresh, hkeyfr,
    fun j hj => lvalOf_congr (hpush.2.2.1 j hj), hsomefr⟩
  have hfreshmap : s1.nextId ∉ s1.map := fun hc =>
    hmemne _ ((hinv1.mapMem _).mp hc) rfl
  refine ⟨hpush.1, List.nodup_cons.mpr ⟨hfreshmap, hinv1.mapNodup⟩, ?_, ?_, ?_, ?_, ?_⟩
  · intro i
    simp only [List.mem_cons, hinv1.mapMem i]
  · intro i hi j hj hk2
    rcases List.mem_cons.mp hi with rfl | hi'
    · rcases List.mem_cons.mp hj with rfl | hj'
      · rfl
      · exfalso
        rw [hkeyfresh, hkeyfr j (hmemne j hj')] at hk2
        exact hnok j hj' hk2.symm
    · rcases List.mem_cons.mp hj with rfl | hj'
      · exfalso
        rw [hkeyfresh, hkeyfr i (hmemne i hi')] at hk2
        exact hnok i hi' hk2
      · refine hinv1.keysU i hi' j hj' ?_
        rw [← hkeyfr i (hmemne i hi'), ← hkeyfr j (hmemne j hj')]
        exact hk2
  · intro i hi
    rcases List.mem_cons.mp hi with rfl | hi'
    · exact Nat.lt_succ_self _
    · exact Nat.lt_succ_of_lt (hinv1.bound i hi')
  · intro i hi
    by_cases hif : i = s1.nextId
    · subst hif
      exact List.mem_cons_self _ _
    · rw [hsomefr i hif] at hi
      exact List.mem_cons_of_mem _ (hinv1.domSub i hi)
  · show (s1.nextId :: s1.map).length ≤ max s1.cap 1
    rw [List.length_cons]
    exact hroom

theorem lruInsert_new_inv {K V : Type} [DecidableEq K] {s : LState K V}
    {ids : List Nat} {k : K} {v : V}
    (hinv : LInv s ids) (hmg : lmapGet s.heap s.map k = none) :
    (lruInsert s k v).1 = none ∧
    (lruInsert s k v).2.nextId = s.nextId + 1 ∧
    (lruInsert s k v).2.cap = s.cap ∧
    lkeyOf (lruInsert s k v).2.heap s.nextId = some k ∧
    lvalOf (lruInsert s k v).2.heap s.nextId = some v ∧
    ((¬ s.map.length + 1 > s.cap ∧
        LInv (lruInsert s k v).2 (s.nextId :: ids) ∧
        (lruInsert s k v).2.map = s.nextId :: s.map) ∨
     (s.map.length + 1 > s.cap ∧
      ((∃ t ids0, ids = ids0 ++ [t] ∧
          LInv (lruInsert s k v).2 (s.nextId :: ids0) ∧
          (lruInsert s k v).2.map = s.nextId :: s.map.erase t ∧
          hfind (lruInsert s k v).2.heap t = none) ∨
       (ids = [] ∧ LInv (lruInsert s k v).2 [s.nextId] ∧
          (lruInsert s k v).2.map = [s.nextId])))) := by
  have hnok : ∀ i ∈ ids, ¬ lkeyOf s.heap i = some k := by
    intro i hi hik
    have hnone := List.find?_eq_none.mp hmg i ((hinv.mapMem i).mpr hi)
    rw [hik] at hnone
    simp at hnone
  by_cases hcap : s.map.length + 1 > s.cap
  · rcases List.eq_nil_or_concat ids with hids | ⟨ids0, t, hids⟩
    · -- empty list: `back` misses, `pop_back` misses, plain push
      subst hids
      have hmap0 : s.map = [] := lmap_eq_nil_of_empty hinv
      have hbE : backE s.heap s.list = none := backE_rep_nil hinv.rep
      have htail : s.list.tail = none := by
        rw [hinv.rep.htail]
        rfl
      have hroom : s.map.length + 1 ≤ max s.cap 1 := by
        rw [hmap0]
        simp
      have hpir := lpush_index_rebuild (v := v) hinv hnok hroom
      have hres : lruInsert s k v =
          (none, { s with
            heap := (push_front s.heap s.list s.nextId ⟨k, v⟩).1,
            list := (push_front s.heap s.list s.nextId ⟨k, v⟩).2,
            nextId := s.nextId + 1,
            map := s.nextId :: s.map }) := by
        simp only [lruInsert, hmg, if_pos hcap, hbE, pop_back, htail, hpir.1]
      rw [hres]
      refine ⟨rfl, rfl, rfl, hpir.2.2.1, hpir.2.2.2.1,
        Or.inr ⟨hcap, Or.inr ⟨rfl, hpir.2.1, by rw [hmap0]⟩⟩⟩
    · -- evict the list tail, then push
      rw [List.concat_eq_append] at hids
      subst hids
      have htmem : t ∈ ids0 ++ [t] := List.mem_append_right ids0 (List.mem_singleton.mpr rfl)
      have htids0 : t ∉ ids0 := by
        have := hinv.rep.hnodup
        rw [List.nodup_append] at this
        exact fun hc => this.2.2 hc (List.mem_singleton.mpr rfl)
      obtain ⟨tnd, htnd, hbE⟩ := backE_rep hinv.rep
      have hktn : lkeyOf s.heap t = some tnd.element.key := by
        rw [lkeyOf, htnd]
        rfl
      have hmgt : lmapGet s.heap s.map tnd.element.key = some t := by
        refine find?_key_eq_some ((hinv.mapMem t).mpr htmem) hktn ?_
        intro i hi hik
        exact hinv.keysU i ((hinv.mapMem i).mp hi) t htmem (by rw [hik, hktn])
      have hpop := pop_back_rep hinv.rep
      obtain ⟨⟨tnd2, htnd2, hpop1⟩, hrep1, hfreet, hfr1, hfr2, hfr3⟩ := hpop
      have htmap : t ∈ s.map := (hinv.mapMem t).mpr htmem
      -- the intermediate state after eviction
      have hinv1 : LInv { s with
          map := s.map.erase t,
          heap := (pop_back s.heap s.list).2.1,
          list := (pop_back s.heap s.list).2.2 } ids0 := by
        refine ⟨hrep1, hinv.mapNodup.erase t, ?_, ?_, ?_, ?_, ?_⟩
        · intro i
          rw [List.Nodup.mem_erase_iff hinv.mapNodup, hinv.mapMem i]
          constructor
          · rintro ⟨hne, hmem2⟩
            rcases List.mem_append.mp hmem2 with hc | hc
            · exact hc
            · rw [List.mem_singleton] at hc
              exact absurd hc hne
          · intro hmem2
            exact ⟨fun hc => htids0 (hc ▸ hmem2), List.mem_append_left _ hmem2⟩
        · intro i hi j hj
          have hit : i ≠ t := fun hc => htids0 (hc ▸ hi)
          have hjt : j ≠ t := fun hc => htids0 (hc ▸ hj)
          rw [lkeyOf_congr (hfr2 i hit), lkeyOf_congr (hfr2 j hjt)]
          exact hinv.keysU i (List.mem_append_left _ hi) j (List.mem_append_left _ hj)
        · intro i hi
          exact hinv.bound i (List.mem_append_left _ hi)
        · intro i hi
          by_cases hit : i = t
          · subst hit
            rw [hfreet] at hi
            cases hi
          · rw [hfr3 i hit] at hi
            rcases List.mem_append.mp (hinv.domSub i hi) with hc | hc
            · exact hc
            · rw [List.mem_singleton] at hc
              exact absurd hc hit
        · calc (s.map.erase t).length ≤ s.map.length :=
              (List.erase_sublist t s.map).length_le
            _ ≤ max s.cap 1 := hinv.capB
      have hnok1 : ∀ i ∈ ids0, ¬ lkeyOf (pop_back s.heap s.list).2.1 i = some k := by
        intro i hi hik
        have hit : i ≠ t := fun hc => htids0 (hc ▸ hi)
        rw [lkeyOf_congr (hfr2 i hit)] at hik
        exact hnok i (List.mem_append_left _ hi) hik
      have hroom : (s.map.erase t).length + 1 ≤ max s.cap 1 := by
        rw [List.length_erase_of_mem htmap]
        have h1 : 1 ≤ s.map.length := List.length_pos.mpr (List.ne_nil_of_mem htmap)
        have := hinv.capB
        omega
      have hpir := lpush_index_rebuild (v := v) hinv1 hnok1 hroom
      have hres : lruInsert s k v =
          (none, { s with
            heap := (push_front (pop_back s.heap s.list).2.1
              (pop_back s.heap s.list).2.2 s.nextId ⟨k, v⟩).1,
            list := (push_front (pop_back s.heap s.list).2.1
              (pop_back s.heap s.list).2.2 s.nextId ⟨k, v⟩).2,
            nextId := s.nextId + 1,
            map := s.nextId :: s.map.erase t }) := by
        simp only [lruInsert, hmg, if_pos hcap, hbE, lmapRemove, hmgt, hpir.1]
      rw [hres]
      have htnid : t ≠ s.nextId := Nat.ne_of_lt (hinv.bound t htmem)
      refine ⟨rfl, rfl, rfl, hpir.2.2.1, hpir.2.2.2.1,
        Or.inr ⟨hcap, Or.inl ⟨t, ids0, rfl, hpir.2.1, rfl, ?_⟩⟩⟩
      have h1 := hpir.2.2.2.2.2.2 t htnid
      rw [hfreet] at h1
      cases h2 : hfind (push_front (pop_back s.heap s.list).2.1
          (pop_back s.heap s.list).2.2 s.nextId ⟨k, v⟩).1 t with
      | none => rfl
      | some nd => rw [h2] at h1; cases h1
  · -- below capacity: plain push
    have hroom : s.map.length + 1 ≤ max s.cap 1 := by
      push_neg at hcap
      omega
    have hpir := lpush_index_rebuild (v := v) hinv hnok hroom
    have hres : lruInsert s k v =
        (none, { s with
          heap := (push_front s.heap s.list s.nextId ⟨k, v⟩).1,
          list := (push_front s.heap s.list s.nextId ⟨k, v⟩).2,
          nextId := s.nextId + 1,
          map := s.nextId :: s.map }) := by
      simp only [lruInsert, hmg, if_neg hcap, hpir.1]
    rw [hres]
    exact ⟨rfl, rfl, rfl, hpir.2.2.1, hpir.2.2.2.1, Or.inl ⟨hcap, hpir.2.1, rfl⟩⟩

theorem lruRemove_absent {K V : Type} [DecidableEq K] {s : LState K V} {k : K}
    (hmg : lmapGet s.heap s.map k = none) : lruRemove s k = (none, s) := by
  simp only [lruRemove, lmapRemove, hmg]

theorem lruRemove_present_inv {K V : Type} [DecidableEq K] {s : LState K V}
    {ids : List Nat} {k : K} {n : Nat}
    (hinv : LInv s ids) (hmg : lmapGet s.heap s.map k = some n) :
    (lruRemove s k).1 = lvalOf s.heap n ∧
    (lruRemove s k).2.map = s.map.erase n ∧
    (lruRemove s k).2.nextId = s.nextId ∧
    (lruRemove s k).2.cap = s.cap ∧
    hfind (lruRemove s k).2.heap n = none ∧
    LInv (lruRemove s k).2 (ids.erase n) := by
  have hnmap : n ∈ s.map := List.mem_of_find?_eq_some hmg
  have hmem : n ∈ ids := (hinv.mapMem n).mp hnmap
  obtain ⟨xs, ys, hids⟩ := List.append_of_mem hmem
  subst hids
  have hnxs : n ∉ xs := (nodup_mid hinv.rep.hnodup).1
  have hnys : n ∉ ys := (nodup_mid hinv.rep.hnodup).2.1
  obtain ⟨nd, hnd⟩ := seg_live hinv.rep.hseg n
    (List.mem_append_right xs (List.mem_cons_self n ys))
  have hrem := remove_node_rep hinv.rep
  obtain ⟨⟨nd2, hnd2, hrfst⟩, hrep', hfree, hfr1, hfr2, hfr3⟩ := hrem
  rw [hnd] at hnd2
  injection hnd2 with hnd2e
  subst hnd2e
  have hres : lruRemove s k =
      ((remove_node s.heap s.list n).1.map (·.value),
       { s with
         map := s.map.erase n,
         heap := (remove_node s.heap s.list n).2.1,
         list := (remove_node s.heap s.list n).2.2 }) := by
    simp only [lruRemove, lmapRemove, hmg]
  rw [hres]
  have hiqne : ∀ i, i ∈ (xs ++ n :: ys).erase n → i ≠ n := by
    intro i hi
    rintro rfl
    rw [erase_of_mid hnxs] at hi
    rcases List.mem_append.mp hi with hc | hc
    · exact hnxs hc
    · exact hnys hc
  refine ⟨by rw [hrfst, lvalOf, hnd]; rfl, rfl, rfl, rfl, hfree, ?_⟩
  refine ⟨?_, hinv.mapNodup.erase n, ?_, ?_, ?_, ?_, ?_⟩
  · rw [erase_of_mid hnxs]
    exact hrep'
  · intro i
    rw [List.Nodup.mem_erase_iff hinv.mapNodup, hinv.mapMem i,
      List.Nodup.mem_erase_iff hinv.rep.hnodup]
  · intro i hi j hj
    rw [lkeyOf_congr (hfr2 i (hiqne i hi)), lkeyOf_congr (hfr2 j (hiqne j hj))]
    exact hinv.keysU i (List.mem_of_mem_erase hi) j (List.mem_of_mem_erase hj)
  · intro i hi
    exact hinv.bound i (List.mem_of_mem_erase hi)
  · intro i hi
    by_cases hiq : i = n
    · subst hiq
      rw [hfree] at hi
      cases hi
    · rw [hfr3 i hiq] at hi
      exact (List.Nodup.mem_erase_iff hinv.rep.hnodup).mpr ⟨hiq, hinv.domSub i hi⟩
  · calc (s.map.erase n).length ≤ s.map.length :=
        (List.erase_sublist n s.map).length_le
      _ ≤ max s.cap 1 := hinv.capB

theorem lruNew_inv {K V : Type} [DecidableEq K] (cap : Nat) :
    LInv (lruNew K V cap) [] := by
  refine ⟨⟨trivial, rfl, rfl, rfl, List.nodup_nil⟩, List.nodup_nil, ?_, ?_, ?_, ?_, ?_⟩
  · intro i
    constructor
    · intro hi
      cases hi
    · intro hi
      cases hi
  · intro i hi
    cases hi
  · intro i hi
    cases hi
  · intro i hi
    cases hi
  · exact Nat.zero_le _

theorem lruStep_inv {K V : Type} [DecidableEq K] {s : LState K V} {ids : List Nat}
    (hinv : LInv s ids) (op : Op K V) :
    (lruStep s op).cap = s.cap ∧ ∃ ids', LInv (lruStep s op) ids' := by
  cases op with
  | get k =>
      have hst : lruStep s (Op.get k) = (lruGet s k).2 := rfl
      cases hmg : lmapGet s.heap s.map k with
      | none =>
          rw [hst, lruGet_absent hmg]
          exact ⟨rfl, ids, hinv⟩
      | some n =>
          have hmem : n ∈ ids :=
            (hinv.mapMem n).mp (List.mem_of_find?_eq_some hmg)
          have hupd := lruUpdate_inv hinv hmem
          rw [hst, lruGet_present hmg]
          exact ⟨hupd.2.2.1, n :: ids.erase n, hupd.2.2.2.2.2.2⟩
  | insert k v =>
      cases hmg : lmapGet s.heap s.map k with
      | none =>
          have hins := lruInsert_new_inv (v := v) hinv hmg
          refine ⟨hins.2.2.1, ?_⟩
          rcases hins.2.2.2.2.2 with
            ⟨_, hk, _⟩ | ⟨_, ⟨t, ids0, _, hk, _⟩ | ⟨_, hk, _⟩⟩
          · exact ⟨s.nextId :: ids, hk⟩
          · exact ⟨s.nextId :: ids0, hk⟩
          · exact ⟨[s.nextId], hk⟩
      | some n =>
          have hins := lruInsert_existing_inv v hinv hmg
          exact ⟨hins.2.2.1, n :: ids.erase n, hins.2.2.2⟩
  | remove k =>
      have hst : lruStep s (Op.remove k) = (lruRemove s k).2 := rfl
      cases hmg : lmapGet s.heap s.map k with
      | none =>
          rw [hst, lruRemove_absent hmg]
          exact ⟨rfl, ids, hinv⟩
      | some n =>
          have hrem := lruRemove_present_inv hinv hmg
          exact ⟨hrem.2.2.2.1, ids.erase n, hrem.2.2.2.2.2⟩

theorem foldl_lruStep_inv {K V : Type} [DecidableEq K] (ops : List (Op K V)) :
    ∀ (s : LState K V) (ids : List Nat), LInv s ids →
    (ops.foldl lruStep s).cap = s.cap ∧
    ∃ ids', LInv (ops.foldl lruStep s) ids' := by
  induction ops with
  | nil =>
      intro s ids hinv
      exact ⟨rfl, ids, hinv⟩
  | cons op rest ih =>
      intro s ids hinv
      obtain ⟨hcp, ids1, hinv1⟩ := lruStep_inv hinv op
      obtain ⟨hcp2, ids2, hinv2⟩ := ih (lruStep s op) ids1 hinv1
      rw [List.foldl_cons]
      exact ⟨by rw [hcp2, hcp], ids2, hinv2⟩

theorem lruRun_inv {K V : Type} [DecidableEq K] (cap : Nat) (ops : List (Op K V)) :
    (lruRun cap ops).cap = cap ∧ ∃ ids, LInv (lruRun cap ops) ids :=
  foldl_lruStep_inv ops (lruNew K V cap) [] (lruNew_inv cap)

theorem LInv_entry_count {K V : Type} [DecidableEq K] {s : LState K V}
    {ids : List Nat} (hinv : LInv s ids) :
    s.list.len = ids.length ∧ s.map.length = ids.length := by
  have hsub1 : s.map.Subperm ids :=
    hinv.mapNodup.subperm (fun a ha => (hinv.mapMem a).mp ha)
  have hsub2 : ids.Subperm s.map :=
    hinv.rep.hnodup.subperm (fun a ha => (hinv.mapMem a).mpr ha)
  exact ⟨hinv.rep.hlen, Nat.le_antisymm hsub1.length_le hsub2.length_le⟩

def heapAgrees {T : Type} (h h' : Heap T) : Prop :=
  ∀ j, ((hfind h' j).map (·.element) = (hfind h j).map (·.element)) ∧
    ((hfind h' j).isSome = (hfind h j).isSome)

theorem heapAgrees_refl {T : Type} (h : Heap T) : heapAgrees h h :=
  fun _ => ⟨rfl, rfl⟩

theorem heapAgrees_trans {T : Type} {h1 h2 h3 : Heap T}
    (a : heapAgrees h1 h2) (b : heapAgrees h2 h3) : heapAgrees h1 h3 :=
  fun j => ⟨(b j).1.trans (a j).1, (b j).2.trans (a j).2⟩

theorem heapAgrees_hmodify {T : Type} (h : Heap T) (i : Nat) (f : Node T → Node T)
    (hf : ∀ nd, (f nd).element = nd.element) : heapAgrees h (hmodify h i f) :=
  fun j => ⟨map_element_hfind_hmodify h i j f hf, isSome_hfind_hmodify h i j f⟩

theorem heapAgrees_check_head {T : Type} (h : Heap T) (l : ListS) :
    heapAgrees h (check_head h l).1 := by
  rw [check_head]
  cases l.head with
  | none =>
      by_cases ht : l.tail.isSome <;> simp [ht] <;> exact heapAgrees_refl h
  | some n =>
      exact heapAgrees_hmodify h n (fun nd => { nd with prev := none })
        (fun _ => rfl)

theorem heapAgrees_check_tail {T : Type} (h : Heap T) (l : ListS) :
    heapAgrees h (check_tail h l).1 := by
  rw [check_tail]
  cases l.tail with
  | none =>
      by_cases ht : l.head.isSome <;> simp [ht] <;> exact heapAgrees_refl h
  | some n =>
      exact heapAgrees_hmodify h n (fun nd => { nd with next := none })
        (fun _ => rfl)

theorem heapAgrees_detach {T : Type} (h : Heap T) (l : ListS) (node : Nat) :
    heapAgrees h (detach h l node).1 := by
  cases hn : hfind h node with
  | none =>
      simp only [detach, hn]
      exact heapAgrees_refl h
  | some nd =>
      cases hp : nd.prev with
      | none =>
          cases h1n : hfind (check_head h { l with head := nd.next }).1 node with
          | none =>
              simp only [detach, hn, hp, h1n]
              exact heapAgrees_check_head h _
          | some nd1 =>
              cases hnx : nd1.next with
              | none =>
                  simp only [detach, hn, hp, h1n, hnx]
                  exact heapAgrees_trans (heapAgrees_check_head h _)
                    (heapAgrees_check_tail _ _)
              | some nx =>
                  simp only [detach, hn, hp, h1n, hnx]
                  exact heapAgrees_trans (heapAgrees_check_head h _)
                    (heapAgrees_hmodify _ nx
                      (fun x => { x with prev := nd1.prev }) (fun _ => rfl))
      | some p =>
          cases h1n : hfind (hmodify h p (fun x => { x with next := nd.next })) node with
          | none =>
              simp only [detach, hn, hp, h1n]
              exact heapAgrees_hmodify h p
                (fun x => { x with next := nd.next }) (fun _ => rfl)
          | some nd1 =>
              cases hnx : nd1.next with
              | none =>
                  simp only [detach, hn, hp, h1n, hnx]
                  exact heapAgrees_trans
                    (heapAgrees_hmodify h p
                      (fun x => { x with next := nd.next }) (fun _ => rfl))
                    (heapAgrees_check_tail _ _)
              | some nx =>
                  simp only [detach, hn, hp, h1n, hnx]
                  exact heapAgrees_trans
                    (heapAgrees_hmodify h p
                      (fun x => { x with next := nd.next }) (fun _ => rfl))
                    (heapAgrees_hmodify _ nx
                      (fun x => { x with prev := nd1.prev }) (fun _ => rfl))

theorem heapAgrees_splice_front_node {T : Type} (h : Heap T) (l : ListS)
    (dst : Option Nat) (src : Nat) :
    heapAgrees h (splice_front_node h l dst src).1 := by
  cases dst with
  | none =>
      simp only [splice_front_node]
      exact heapAgrees_trans
        (heapAgrees_hmodify h src (fun x => { x with next := none })
          (fun _ => rfl))
        (heapAgrees_hmodify _ src (fun x => { x with prev := none })
          (fun _ => rfl))
  | some d =>
      cases hd : hfind h d with
      | none =>
          simp only [splice_front_node, hd]
          exact heapAgrees_refl h
      | some dnd =>
          have hbase : heapAgrees h
              (hmodify (hmodify (hmodify h src (fun x => { x with next := some d }))
                src (fun x => { x with prev := dnd.prev })) d
                (fun x => { x with prev := some src })) :=
            heapAgrees_trans (heapAgrees_trans
                (heapAgrees_hmodify h src (fun x => { x with next := some d })
                  (fun _ => rfl))
                (heapAgrees_hmodify _ src (fun x => { x with prev := dnd.prev })
                  (fun _ => rfl)))
              (heapAgrees_hmodify _ d (fun x => { x with prev := some src })
                (fun _ => rfl))
          cases hdp : dnd.prev with
          | none =>
              simp only [splice_front_node, hd, hdp]
              rw [hdp] at hbase
              exact hbase
          | some p =>
              simp only [splice_front_node, hd, hdp]
              rw [hdp] at hbase
              exact heapAgrees_trans hbase (heapAgrees_hmodify _ p
                (fun x => { x with next := some src }) (fun _ => rfl))

theorem heapAgrees_splice_self_front {T : Type} (h : Heap T) (l : ListS)
    (dst : Option Nat) (src : Nat) :
    heapAgrees h (splice_self_front h l dst src).1 := by
  cases dst with
  | none =>
      simp only [splice_self_front]
      exact heapAgrees_trans (heapAgrees_detach h l src)
        (heapAgrees_splice_front_node _ _ _ _)
  | some d =>
      by_cases hds : d = src
      · simp only [splice_self_front, hds, if_pos rfl]
        exact heapAgrees_refl h
      · simp only [splice_self_front, if_neg hds]
        exact heapAgrees_trans (heapAgrees_detach h l src)
          (heapAgrees_splice_front_node _ _ _ _)

theorem heapAgrees_splice_front {T : Type} (h : Heap T) (dstL : ListS)
    (dst : Option Nat) (srcL : ListS) (src : Nat) :
    heapAgrees h (splice_front h dstL dst srcL src).1 := by
  simp only [splice_front]
  exact heapAgrees_trans (heapAgrees_detach h srcL src)
    (heapAgrees_splice_front_node _ _ _ _)

theorem option_eq_none_of_isSome_false {α : Type} {o : Option α}
    (h : o.isSome = false) : o = none := by
  cases o with
  | none => rfl
  | some a => simp at h

theorem pop_front_raw {T : Type} (h : Heap T) (l : ListS) :
    (pop_front h l).2.1 = h ∨
    ∃ e, l.head = some e ∧ hfind (pop_front h l).2.1 e = none ∧
      (∀ j, j ≠ e → (hfind (pop_front h l).2.1 j).map (·.element) =
        (hfind h j).map (·.element)) ∧
      (∀ j, j ≠ e → (hfind (pop_front h l).2.1 j).isSome = (hfind h j).isSome) := by
  cases hh : l.head with
  | none =>
      simp only [pop_front, hh]
      exact Or.inl trivial
  | some e =>
      cases he : hfind h e with
      | none =>
          simp only [pop_front, hh, he]
          exact Or.inl trivial
      | some nd =>
          simp only [pop_front, hh, he]
          have hagree := heapAgrees_check_head (herase h e) { l with head := nd.next }
          refine Or.inr ⟨e, rfl, ?_, ?_, ?_⟩
          · refine option_eq_none_of_isSome_false ?_
            rw [(hagree e).2, hfind_herase_self]
            rfl
          · intro j hj
            rw [(hagree j).1, hfind_herase_ne h hj]
          · intro j hj
            rw [(hagree j).2, hfind_herase_ne h hj]

theorem pop_back_raw {T : Type} (h : Heap T) (l : ListS) :
    (pop_back h l).2.1 = h ∨
    ∃ e, l.tail = some e ∧ hfind (pop_back h l).2.1 e = none ∧
      (∀ j, j ≠ e → (hfind (pop_back h l).2.1 j).map (·.element) =
        (hfind h j).map (·.element)) ∧
      (∀ j, j ≠ e → (hfind (pop_back h l).2.1 j).isSome = (hfind h j).isSome) := by
  cases hh : l.tail with
  | none =>
      simp only [pop_back, hh]
      exact Or.inl trivial
  | some e =>
      cases he : hfind h e with
      | none =>
          simp only [pop_back, hh, he]
          exact Or.inl trivial
      | some nd =>
          simp only [pop_back, hh, he]
          have hagree := heapAgrees_check_tail (herase h e) { l with tail := nd.prev }
          refine Or.inr ⟨e, rfl, ?_, ?_, ?_⟩
          · refine option_eq_none_of_isSome_false ?_
            rw [(hagree e).2, hfind_herase_self]
            rfl
          · intro j hj
            rw [(hagree j).1, hfind_herase_ne h hj]
          · intro j hj
            rw [(hagree j).2, hfind_herase_ne h hj]

theorem push_back_raw {T : Type} (h : Heap T) (l : ListS) (fresh : Nat) (ele : T) :
    end_node (push_back h l fresh ele).2 = some fresh ∧
    (hfind (push_back h l fresh ele).1 fresh).map (·.element) = some ele ∧
    (∀ j, j ≠ fresh → (hfind (push_back h l fresh ele).1 j).map (·.element) =
      (hfind h j).map (·.element)) ∧
    (∀ j, j ≠ fresh → (hfind (push_back h l fresh ele).1 j).isSome =
      (hfind h j).isSome) := by
  cases ht : l.tail with
  | none =>
      simp only [push_back, ht]
      refine ⟨rfl, ?_, ?_, ?_⟩
      · rw [hfind_halloc_same]
        rfl
      · intro j hj
        rw [hfind_halloc_ne h _ hj]
      · intro j hj
        rw [hfind_halloc_ne h _ hj]
  | some t =>
      simp only [push_back, ht]
      refine ⟨rfl, ?_, ?_, ?_⟩
      · rw [map_element_hfind_hmodify _ t _
            (fun nd => { nd with next := some fresh }) (fun _ => rfl),
          map_element_set_prev, hfind_halloc_same]
        rfl
      · intro j hj
        rw [map_element_hfind_hmodify _ t _
            (fun nd => { nd with next := some fresh }) (fun _ => rfl),
          map_element_set_prev, hfind_halloc_ne h _ hj]
      · intro j hj
        rw [isSome_hfind_hmodify, isSome_hfind_hmodify, hfind_halloc_ne h _ hj]

theorem remove_node_raw {T : Type} (h : Heap T) (l : ListS) (node : Nat) :
    (∀ j, j ≠ node → (hfind (remove_node h l node).2.1 j).map (·.element) =
      (hfind h j).map (·.element)) ∧
    (∀ j, j ≠ node → (hfind (remove_node h l node).2.1 j).isSome =
      (hfind h j).isSome) ∧
    ((hfind (remove_node h l node).2.1 node).isSome = (hfind h node).isSome ∨
      hfind (remove_node h l node).2.1 node = none) := by
  have hagree := heapAgrees_detach h l node
  cases hd : hfind (detach h l node).1 node with
  | none =>
      simp only [remove_node, hd]
      have h2 := (hagree node).2
      rw [hd] at h2
      exact ⟨fun j _ => (hagree j).1, fun j _ => (hagree j).2, Or.inl h2⟩
  | some nd =>
      simp only [remove_node, hd]
      refine ⟨?_, ?_, Or.inr (hfind_herase_self _ node)⟩
      · intro j hj
        rw [hfind_herase_ne _ hj]
        exact (hagree j).1
      · intro j hj
        rw [hfind_herase_ne _ hj]
        exact (hagree j).2

theorem keyOf_set_freq {K V : Type} (h : Heap (KItem K V)) (n j : Nat) :
    keyOf (hmodify h n
      (fun x => { x with element := { x.element with freq := x.element.freq + 1 } })) j =
      keyOf h j := by
  by_cases hj : j = n
  · subst hj
    rw [keyOf, keyOf, hfind_hmodify_self]
    cases hfind h j <;> rfl
  · rw [keyOf, keyOf, hfind_hmodify_ne h _ hj]

theorem AInv_rebuild {K V : Type} [DecidableEq K] {s s' : KState K V}
    (hA : AInv s) (hmap : s'.map = s.map) (hnext : s'.nextId = s.nextId)
    (hkey : ∀ j, keyOf s'.heap j = keyOf s.heap j)
    (hsome : ∀ j, (hfind s'.heap j).isSome = (hfind s.heap j).isSome) :
    AInv s' := by
  refine ⟨hmap ▸ hA.mapNodup, ?_, ?_, ?_⟩
  · intro i hi
    rw [hsome i]
    exact hA.alive i (hmap ▸ hi)
  · intro i hi j hj hk
    rw [hmap] at hi hj
    rw [hkey i, hkey j] at hk
    exact hA.keysU i hi j hj hk
  · intro i hi
    rw [hnext]
    exact hA.bound i (by rw [← hsome i]; exact hi)

theorem kUpdate_ainv {K V : Type} [DecidableEq K] {s : KState K V} (n : Nat)
    (hA : AInv s) :
    AInv (kUpdate s n) ∧ (kUpdate s n).map = s.map ∧
    (kUpdate s n).nextId = s.nextId ∧ (kUpdate s n).freq = s.freq ∧
    (kUpdate s n).cap = s.cap := by
  cases hn : hfind s.heap n with
  | none =>
      have hres : kUpdate s n = s := by
        simp only [kUpdate, hn]
      rw [hres]
      exact ⟨hA, rfl, rfl, rfl, rfl⟩
  | some nd =>
      by_cases hge : nd.element.freq ≥ s.freq
      · have hres : kUpdate s n = { s with
            heap := (splice_self_front s.heap s.lru (begin_node s.lru) n).1,
            lru := (splice_self_front s.heap s.lru (begin_node s.lru) n).2 } := by
          simp only [kUpdate, hn]
          rw [if_pos hge]
        rw [hres]
        have hagree := heapAgrees_splice_self_front s.heap s.lru (begin_node s.lru) n
        exact ⟨AInv_rebuild hA rfl rfl (fun j => keyOf_congr (hagree j).1)
          (fun j => (hagree j).2), rfl, rfl, rfl, rfl⟩
      · by_cases hge2 : nd.element.freq + 1 ≥ s.freq
        · have hres : kUpdate s n = { s with
              heap := (splice_front (hmodify s.heap n
                (fun x => { x with element :=
                  { x.element with freq := x.element.freq + 1 } }))
                s.lru (begin_node s.lru) s.fcfo n).1,
              lru := (splice_front (hmodify s.heap n
                (fun x => { x with element :=
                  { x.element with freq := x.element.freq + 1 } }))
                s.lru (begin_node s.lru) s.fcfo n).2.1,
              fcfo := (splice_front (hmodify s.heap n
                (fun x => { x with element :=
                  { x.element with freq := x.element.freq + 1 } }))
                s.lru (begin_node s.lru) s.fcfo n).2.2 } := by
            simp only [kUpdate, hn]
            rw [if_neg hge, if_pos hge2]
          rw [hres]
          have hagree := heapAgrees_splice_front (hmodify s.heap n
            (fun x => { x with element :=
              { x.element with freq := x.element.freq + 1 } }))
            s.lru (begin_node s.lru) s.fcfo n
          refine ⟨AInv_rebuild hA rfl rfl ?_ ?_, rfl, rfl, rfl, rfl⟩
          · intro j
            rw [keyOf_congr (hagree j).1, keyOf_set_freq]
          · intro j
            rw [(hagree j).2, isSome_hfind_hmodify]
        · have hres : kUpdate s n = { s with
              heap := hmodify s.heap n
                (fun x => { x with element :=
                  { x.element with freq := x.element.freq + 1 } }) } := by
            simp only [kUpdate, hn]
            rw [if_neg hge, if_neg hge2]
          rw [hres]
          refine ⟨AInv_rebuild hA rfl rfl ?_ ?_, rfl, rfl, rfl, rfl⟩
          · intro j
            rw [keyOf_set_freq]
          · intro j
            rw [isSome_hfind_hmodify]

theorem kGet_ainv {K V : Type} [DecidableEq K] {s : KState K V} (k : K)
    (hA : AInv s) :
    AInv (kGet s k).2 ∧ (kGet s k).2.map = s.map ∧
    (kGet s k).2.nextId = s.nextId ∧ (kGet s k).2.freq = s.freq ∧
    (kGet s k).2.cap = s.cap := by
  cases hmg : mapGet s.heap s.map k with
  | none =>
      rw [kGet_absent hmg]
      exact ⟨hA, rfl, rfl, rfl, rfl⟩
  | some n =>
      rw [kGet_present hmg]
      exact kUpdate_ainv n hA

theorem AInv_erase_frames {K V : Type} [DecidableEq K] {s s' : KState K V} {n : Nat}
    (hA : AInv s) (hmap : s'.map = s.map.erase n) (hnext : s'.nextId = s.nextId)
    (hkey : ∀ j, j ∈ s.map.erase n → keyOf s'.heap j = keyOf s.heap j)
    (hsome : ∀ j, j ∈ s.map.erase n →
      (hfind s'.heap j).isSome = (hfind s.heap j).isSome)
    (hbd : ∀ i, (hfind s'.heap i).isSome = true →
      (hfind s.heap i).isSome = true ∨ i < s.nextId) :
    AInv s' := by
  refine ⟨hmap ▸ hA.mapNodup.erase n, ?_, ?_, ?_⟩
  · intro i hi
    rw [hmap] at hi
    rw [hsome i hi]
    exact hA.alive i (List.mem_of_mem_erase hi)
  · intro i hi j hj hk
    rw [hmap] at hi hj
    rw [hkey i hi, hkey j hj] at hk
    exact hA.keysU i (List.mem_of_mem_erase hi) j (List.mem_of_mem_erase hj) hk
  · intro i hi
    rw [hnext]
    rcases hbd i hi with hc | hc
    · exact hA.bound i hc
    · exact hc

theorem kDisuse_ainv {K V : Type} [DecidableEq K] {s : KState K V} (hA : AInv s) :
    AInv (kDisuse s).2 ∧ (kDisuse s).2.nextId = s.nextId ∧
    (kDisuse s).2.freq = s.freq ∧ (kDisuse s).2.cap = s.cap ∧
    (∀ j, j ∈ (kDisuse s).2.map → j ∈ s.map) ∧
    (∀ j, j ∈ (kDisuse s).2.map → keyOf (kDisuse s).2.heap j = keyOf s.heap j) := by
  by_cases hisE : listIsEmpty s.fcfo = false
  · cases hfE : frontE s.heap s.fcfo with
    | none =>
        have hres : kDisuse s = (none, s) := by
          simp only [kDisuse, hisE, hfE, if_true, eq_self_iff_true]
        rw [hres]
        exact ⟨hA, rfl, rfl, rfl, fun j hj => hj, fun j _ => rfl⟩
    | some it =>
        obtain ⟨e, hhd, hfe⟩ : ∃ e, s.fcfo.head = some e ∧
            ∃ nd, hfind s.heap e = some nd ∧ nd.element = it := by
          rw [frontE] at hfE
          cases hh : s.fcfo.head with
          | none => rw [hh] at hfE; cases hfE
          | some e =>
              rw [hh] at hfE
              simp only [Option.some_bind] at hfE
              cases hfd : hfind s.heap e with
              | none => rw [hfd] at hfE; cases hfE
              | some nd =>
                  rw [hfd] at hfE
                  exact ⟨e, rfl, nd, hfd, by injection hfE⟩
        obtain ⟨end1, hfend, hite⟩ := hfe
        cases hmg : mapGet s.heap s.map it.key with
        | none =>
            have hres : kDisuse s = (none, s) := by
              simp only [kDisuse, hisE, hfE, mapRemove, hmg, if_true, eq_self_iff_true]
            rw [hres]
            exact ⟨hA, rfl, rfl, rfl, fun j hj => hj, fun j _ => rfl⟩
        | some n =>
            obtain ⟨hnmap, hkn⟩ := find?_key_some hmg
            have hjne : ∀ j, j ∈ s.map.erase n → j ≠ e := by
              intro j hj
              rintro rfl
              have hj2 := (List.Nodup.mem_erase_iff hA.mapNodup).mp hj
              have hkj : keyOf s.heap j = some it.key := by
                rw [keyOf, hfend, ← hite]
                rfl
              exact hj2.1 (hA.keysU j hj2.2 n hnmap (by rw [hkj, hkn]))
            have hres : kDisuse s = ((kDisuse s).1,
                { s with
                  map := s.map.erase n,
                  heap := (pop_front s.heap s.fcfo).2.1,
                  fcfo := (pop_front s.heap s.fcfo).2.2 }) := by
              cases hr1 : (pop_front s.heap s.fcfo).1 with
              | none =>
                  simp only [kDisuse, hisE, hfE, mapRemove, hmg, hr1,
                    if_true, eq_self_iff_true]
              | some u =>
                  simp only [kDisuse, hisE, hfE, mapRemove, hmg, hr1,
                    if_true, eq_self_iff_true]
            rw [hres]
            rcases pop_front_raw s.heap s.fcfo with hp | ⟨e2, hhd2, hnone2, hfr1, hfr2⟩
            · rw [hp]
              refine ⟨AInv_erase_frames hA rfl rfl (fun j _ => rfl) (fun j _ => rfl)
                (fun i hi => Or.inl hi), rfl, rfl, rfl,
                fun j hj => List.mem_of_mem_erase hj, fun j _ => rfl⟩
            · have he2 : e2 = e := by
                rw [hhd] at hhd2
                injection hhd2 with h
                exact h.symm
              subst he2
              refine ⟨AInv_erase_frames hA rfl rfl
                (fun j hj => keyOf_congr (hfr1 j (hjne j hj)))
                (fun j hj => hfr2 j (hjne j hj)) ?_, rfl, rfl, rfl,
                fun j hj => List.mem_of_mem_erase hj,
                fun j hj => keyOf_congr (hfr1 j (hjne j hj))⟩
              intro i hi
              by_cases hie : i = e2
              · subst hie
                rw [hnone2] at hi
                cases hi
              · rw [hfr2 i hie] at hi
                exact Or.inl hi
  · cases hbE : backE s.heap s.lru with
    | none =>
        have hres : kDisuse s = (none, s) := by
          simp only [kDisuse, hisE, hbE, Bool.true_eq_false, if_false]
        rw [hres]
        exact ⟨hA, rfl, rfl, rfl, fun j hj => hj, fun j _ => rfl⟩
    | some it =>
        obtain ⟨e, hhd, hfe⟩ : ∃ e, s.lru.tail = some e ∧
            ∃ nd, hfind s.heap e = some nd ∧ nd.element = it := by
          rw [backE] at hbE
          cases hh : s.lru.tail with
          | none => rw [hh] at hbE; cases hbE
          | some e =>
              rw [hh] at hbE
              simp only [Option.some_bind] at hbE
              cases hfd : hfind s.heap e with
              | none => rw [hfd] at hbE; cases hbE
              | some nd =>
                  rw [hfd] at hbE
                  exact ⟨e, rfl, nd, hfd, by injection hbE⟩
        obtain ⟨end1, hfend, hite⟩ := hfe
        cases hmg : mapGet s.heap s.map it.key with
        | none =>
            have hres : kDisuse s = (none, s) := by
              simp only [kDisuse, hisE, hbE, mapRemove, hmg, Bool.true_eq_false,
                if_false]
            rw [hres]
            exact ⟨hA, rfl, rfl, rfl, fun j hj => hj, fun j _ => rfl⟩
        | some n =>
            obtain ⟨hnmap, hkn⟩ := find?_key_some hmg
            have hjne : ∀ j, j ∈ s.map.erase n → j ≠ e := by
              intro j hj
              rintro rfl
              have hj2 := (List.Nodup.mem_erase_iff hA.mapNodup).mp hj
              have hkj : keyOf s.heap j = some it.key := by
                rw [keyOf, hfend, ← hite]
                rfl
              exact hj2.1 (hA.keysU j hj2.2 n hnmap (by rw [hkj, hkn]))
            have hres : kDisuse s = ((kDisuse s).1,
                { s with
                  map := s.map.erase n,
                  heap := (pop_back s.heap s.lru).2.1,
                  lru := (pop_back s.heap s.lru).2.2 }) := by
              cases hr1 : (pop_back s.heap s.lru).1 with
              | none =>
                  simp only [kDisuse, hisE, hbE, mapRemove, hmg, hr1,
                    Bool.true_eq_false, if_false]
              | some u =>
                  simp only [kDisuse, hisE, hbE, mapRemove, hmg, hr1,
                    Bool.true_eq_false, if_false]
            rw [hres]
            rcases pop_back_raw s.heap s.lru with hp | ⟨e2, hhd2, hnone2, hfr1, hfr2⟩
            · rw [hp]
              refine ⟨AInv_erase_frames hA rfl rfl (fun j _ => rfl) (fun j _ => rfl)
                (fun i hi => Or.inl hi), rfl, rfl, rfl,
                fun j hj => List.mem_of_mem_erase hj, fun j _ => rfl⟩
            · have he2 : e2 = e := by
                rw [hhd] at hhd2
                injection hhd2 with h
                exact h.symm
              subst he2
              refine ⟨AInv_erase_frames hA rfl rfl
                (fun j hj => keyOf_congr (hfr1 j (hjne j hj)))
                (fun j hj => hfr2 j (hjne j hj)) ?_, rfl, rfl, rfl,
                fun j hj => List.mem_of_mem_erase hj,
                fun j hj => keyOf_congr (hfr1 j (hjne j hj))⟩
              intro i hi
              by_cases hie : i = e2
              · subst hie
                rw [hnone2] at hi
                cases hi
              · rw [hfr2 i hie] at hi
                exact Or.inl hi

theorem isSome_of_map_elem {T α : Type} {h : Heap T} {j : Nat} {e : α}
    {g : Node T → α} (he : (hfind h j).map g = some e) :
    (hfind h j).isSome = true := by
  cases hf : hfind h j with
  | none => rw [hf] at he; cases he
  | some nd => rfl

theorem kInsert_push_ainv {K V : Type} [DecidableEq K] {s1 : KState K V} {k : K}
    (v : V) (hA1 : AInv s1)
    (hnok : ∀ j ∈ s1.map, ¬ keyOf s1.heap j = some k) :
    AInv { s1 with
      heap := (push_back s1.heap s1.fcfo s1.nextId ⟨k, v, 0⟩).1,
      fcfo := (push_back s1.heap s1.fcfo s1.nextId ⟨k, v, 0⟩).2,
      nextId := s1.nextId + 1,
      map := s1.nextId :: s1.map } ∧
    keyOf (push_back s1.heap s1.fcfo s1.nextId ⟨k, v, 0⟩).1 s1.nextId = some k ∧
    valOf (push_back s1.heap s1.fcfo s1.nextId ⟨k, v, 0⟩).1 s1.nextId = some v ∧
    freqOf (push_back s1.heap s1.fcfo s1.nextId ⟨k, v, 0⟩).1 s1.nextId = some 0 := by
  have hpush := push_back_raw s1.heap s1.fcfo s1.nextId (⟨k, v, 0⟩ : KItem K V)
  have hfreshel := hpush.2.1
  have hkeyfresh : keyOf (push_back s1.heap s1.fcfo s1.nextId ⟨k, v, 0⟩).1
      s1.nextId = some k := proj_of_element (fun it : KItem K V => it.key) hfreshel
  have hvalfresh : valOf (push_back s1.heap s1.fcfo s1.nextId ⟨k, v, 0⟩).1
      s1.nextId = some v := proj_of_element (fun it : KItem K V => it.value) hfreshel
  have hfreqfresh : freqOf (push_back s1.heap s1.fcfo s1.nextId ⟨k, v, 0⟩).1
      s1.nextId = some 0 := proj_of_element (fun it : KItem K V => it.freq) hfreshel
  have hmapne : ∀ j, j ∈ s1.map → j ≠ s1.nextId := by
    intro j hj
    exact Nat.ne_of_lt (hA1.bound j (hA1.alive j hj))
  have hfreshmap : s1.nextId ∉ s1.map := fun hc => hmapne _ hc rfl
  refine ⟨⟨List.nodup_cons.mpr ⟨hfreshmap, hA1.mapNodup⟩, ?_, ?_, ?_⟩,
    hkeyfresh, hvalfresh, hfreqfresh⟩
  · intro i hi
    rcases List.mem_cons.mp hi with rfl | hi'
    · exact isSome_of_map_elem hfreshel
    · rw [hpush.2.2.2 i (hmapne i hi')]
      exact hA1.alive i hi'
  · intro i hi j hj hk
    rcases List.mem_cons.mp hi with rfl | hi'
    · rcases List.mem_cons.mp hj with rfl | hj'
      · rfl
      · exfalso
        rw [hkeyfresh, keyOf_congr (hpush.2.2.1 j (hmapne j hj'))] at hk
        exact hnok j hj' hk.symm
    · rcases List.mem_cons.mp hj with rfl | hj'
      · exfalso
        rw [hkeyfresh, keyOf_congr (hpush.2.2.1 i (hmapne i hi'))] at hk
        exact hnok i hi' hk
      · rw [keyOf_congr (hpush.2.2.1 i (hmapne i hi')),
          keyOf_congr (hpush.2.2.1 j (hmapne j hj'))] at hk
        exact hA1.keysU i hi' j hj' hk
  · intro i hi
    by_cases hif : i = s1.nextId
    · subst hif
      exact Nat.lt_succ_self _
    · rw [hpush.2.2.2 i hif] at hi
      exact Nat.lt_succ_of_lt (hA1.bound i hi)

theorem kInsert_new_ainv {K V : Type} [DecidableEq K] {s : KState K V} {k : K}
    (v : V) (hA : AInv s) (hmg : mapGet s.heap s.map k = none) :
    (kInsert s k v).1 = none ∧
    AInv (kInsert s k v).2 ∧
    (kInsert s k v).2.nextId = s.nextId + 1 ∧
    (kInsert s k v).2.freq = s.freq ∧
    (kInsert s k v).2.cap = s.cap ∧
    end_node (kInsert s k v).2.fcfo = some s.nextId ∧
    keyOf (kInsert s k v).2.heap s.nextId = some k ∧
    valOf (kInsert s k v).2.heap s.nextId = some v ∧
    freqOf (kInsert s k v).2.heap s.nextId = some 0 := by
  have hnok : ∀ j ∈ s.map, ¬ keyOf s.heap j = some k := by
    intro j hj hjk
    have hnone := List.find?_eq_none.mp hmg j hj
    rw [hjk] at hnone
    simp at hnone
  by_cases hcap : s.map.length + 1 > s.cap
  · have hdis := kDisuse_ainv hA
    have hnok1 : ∀ j ∈ (kDisuse s).2.map, ¬ keyOf (kDisuse s).2.heap j = some k := by
      intro j hj hjk
      rw [hdis.2.2.2.2.2 j hj] at hjk
      exact hnok j (hdis.2.2.2.2.1 j hj) hjk
    have hpa := kInsert_push_ainv v hdis.1 hnok1
    have htl := (push_back_raw (kDisuse s).2.heap (kDisuse s).2.fcfo
      (kDisuse s).2.nextId (⟨k, v, 0⟩ : KItem K V)).1
    have hres : kInsert s k v =
        (none, { (kDisuse s).2 with
          heap := (push_back (kDisuse s).2.heap (kDisuse s).2.fcfo
            (kDisuse s).2.nextId ⟨k, v, 0⟩).1,
          fcfo := (push_back (kDisuse s).2.heap (kDisuse s).2.fcfo
            (kDisuse s).2.nextId ⟨k, v, 0⟩).2,
          nextId := (kDisuse s).2.nextId + 1,
          map := (kDisuse s).2.nextId :: (kDisuse s).2.map }) := by
      simp only [kInsert, hmg, if_pos hcap, htl]
    rw [hres]
    have hnid := hdis.2.1
    refine ⟨rfl, hpa.1, by rw [hnid], hdis.2.2.1, hdis.2.2.2.1, ?_, ?_, ?_, ?_⟩
    · rw [← hnid]
      exact htl
    · rw [← hnid]
      exact hpa.2.1
    · rw [← hnid]
      exact hpa.2.2.1
    · rw [← hnid]
      exact hpa.2.2.2
  · have hpa := kInsert_push_ainv v hA hnok
    have htl := (push_back_raw s.heap s.fcfo s.nextId (⟨k, v, 0⟩ : KItem K V)).1
    have hres : kInsert s k v =
        (none, { s with
          heap := (push_back s.heap s.fcfo s.nextId ⟨k, v, 0⟩).1,
          fcfo := (push_back s.heap s.fcfo s.nextId ⟨k, v, 0⟩).2,
          nextId := s.nextId + 1,
          map := s.nextId :: s.map }) := by
      simp only [kInsert, hmg, if_neg hcap, htl]
    rw [hres]
    exact ⟨rfl, hpa.1, rfl, rfl, rfl, htl, hpa.2.1, hpa.2.2.1, hpa.2.2.2⟩

theorem kInsert_existing_ainv {K V : Type} [DecidableEq K] {s : KState K V}
    {k : K} {n : Nat} (v : V) (hA : AInv s)
    (hmg : mapGet s.heap s.map k = some n) :
    AInv (kInsert s k v).2 ∧ (kInsert s k v).2.map = s.map ∧
    (kInsert s k v).2.nextId = s.nextId ∧
    (kInsert s k v).2.freq = s.freq ∧ (kInsert s k v).2.cap = s.cap := by
  have hres : kInsert s k v =
      ((hfind s.heap n).map (·.element.value),
        kUpdate { s with
          heap := hmodify s.heap n
            (fun x => { x with element := { x.element with value := v } }) } n) := by
    simp only [kInsert, hmg]
  rw [hres]
  have hAi : AInv { s with
      heap := hmodify s.heap n
        (fun x => { x with element := { x.element with value := v } }) } := by
    refine AInv_rebuild hA rfl rfl ?_ ?_
    · intro j
      exact keyOf_set_value s.heap n j v
    · intro j
      exact isSome_hfind_hmodify s.heap n j
        (fun x => { x with element := { x.element with value := v } })
  exact kUpdate_ainv n hAi

theorem kRemove_ainv {K V : Type} [DecidableEq K] {s : KState K V} (k : K)
    (hA : AInv s) :
    AInv (kRemove s k).2 ∧ (kRemove s k).2.nextId = s.nextId ∧
    (kRemove s k).2.freq = s.freq ∧ (kRemove s k).2.cap = s.cap := by
  cases hmg : mapGet s.heap s.map k with
  | none =>
      rw [kRemove_absent hmg]
      exact ⟨hA, rfl, rfl, rfl⟩
  | some n =>
      have hres0 : mapRemove s.heap s.map k = (some n, s.map.erase n) := by
        simp only [mapRemove, hmg]
      have hjne : ∀ j, j ∈ s.map.erase n → j ≠ n := by
        intro j hj
        exact ((List.Nodup.mem_erase_iff hA.mapNodup).mp hj).1
      cases hn : hfind s.heap n with
      | none =>
          have hres : kRemove s k = (none, { s with map := s.map.erase n }) := by
            simp only [kRemove, hres0, hn]
          rw [hres]
          exact ⟨AInv_erase_frames hA rfl rfl (fun j _ => rfl) (fun j _ => rfl)
            (fun i hi => Or.inl hi), rfl, rfl, rfl⟩
      | some nd =>
          by_cases hge : nd.element.freq ≥ s.freq
          · have hres : kRemove s k =
                ((remove_node s.heap s.lru n).1.map (·.value),
                 { s with
                   map := s.map.erase n,
                   heap := (remove_node s.heap s.lru n).2.1,
                   lru := (remove_node s.heap s.lru n).2.2 }) := by
              simp only [kRemove, hres0, hn]
              rw [if_pos hge]
            rw [hres]
            have hraw := remove_node_raw s.heap s.lru n
            refine ⟨AInv_erase_frames hA rfl rfl
              (fun j hj => keyOf_congr (hraw.1 j (hjne j hj)))
              (fun j hj => hraw.2.1 j (hjne j hj)) ?_, rfl, rfl, rfl⟩
            intro i hi
            by_cases hin : i = n
            · subst hin
              rcases hraw.2.2 with hc | hc
              · rw [hc] at hi
                exact Or.inl hi
              · rw [hc] at hi
                cases hi
            · rw [hraw.2.1 i hin] at hi
              exact Or.inl hi
          · have hres : kRemove s k =
                ((remove_node s.heap s.fcfo n).1.map (·.value),
                 { s with
                   map := s.map.erase n,
                   heap := (remove_node s.heap s.fcfo n).2.1,
                   fcfo := (remove_node s.heap s.fcfo n).2.2 }) := by
              simp only [kRemove, hres0, hn]
              rw [if_neg hge]
            rw [hres]
            have hraw := remove_node_raw s.heap s.fcfo n
            refine ⟨AInv_erase_frames hA rfl rfl
              (fun j hj => keyOf_congr (hraw.1 j (hjne j hj)))
              (fun j hj => hraw.2.1 j (hjne j hj)) ?_, rfl, rfl, rfl⟩
            intro i hi
            by_cases hin : i = n
            · subst hin
              rcases hraw.2.2 with hc | hc
              · rw [hc] at hi
                exact Or.inl hi
              · rw [hc] at hi
                cases hi
            · rw [hraw.2.1 i hin] at hi
              exact Or.inl hi

theorem kNew_ainv {K V : Type} [DecidableEq K] (cap freq : Nat) :
    AInv (kNew K V cap freq) := by
  refine ⟨List.nodup_nil, ?_, ?_, ?_⟩
  · intro i hi
    cases hi
  · intro i hi
    cases hi
  · intro i hi
    cases hi

theorem kStep_ainv {K V : Type} [DecidableEq K] {s : KState K V} (hA : AInv s)
    (op : Op K V) : AInv (kStep s op) := by
  cases op with
  | get k => exact (kGet_ainv k hA).1
  | insert k v =>
      cases hmg : mapGet s.heap s.map k with
      | none => exact (kInsert_new_ainv v hA hmg).2.1
      | some n => exact (kInsert_existing_ainv v hA hmg).1
  | remove k => exact (kRemove_ainv k hA).1

theorem kRun_ainv {K V : Type} [DecidableEq K] (cap freq : Nat)
    (ops : List (Op K V)) : AInv (kRun cap freq ops) := by
  have hgen : ∀ (l : List (Op K V)) (s : KState K V), AInv s →
      AInv (l.foldl kStep s) := by
    intro l
    induction l with
    | nil => intro s hA; exact hA
    | cons op rest ih =>
        intro s hA
        rw [List.foldl_cons]
        exact ih (kStep s op) (kStep_ainv hA op)
  exact hgen ops (kNew K V cap freq) (kNew_ainv cap freq)

theorem kRemove_found_key_gone {K V : Type} [DecidableEq K] {s : KState K V}
    {k : K} {v0 : V} (hA : AInv s) (hrm : (kRemove s k).1 = some v0) :
    mapGet (kRemove s k).2.heap (kRemove s k).2.map k = none := by
  cases hmg : mapGet s.heap s.map k with
  | none =>
      rw [kRemove_absent hmg] at hrm
      cases hrm
  | some n =>
      have hres0 : mapRemove s.heap s.map k = (some n, s.map.erase n) := by
        simp only [mapRemove, hmg]
      obtain ⟨hnmap, hkn⟩ := find?_key_some hmg
      have hjne : ∀ j, j ∈ s.map.erase n → j ≠ n := by
        intro j hj
        exact ((List.Nodup.mem_erase_iff hA.mapNodup).mp hj).1
      have hgone : ∀ (hp : Heap (KItem K V)),
          (∀ j, j ≠ n → keyOf hp j = keyOf s.heap j) →
          List.find? (fun i => decide (keyOf hp i = some k)) (s.map.erase n) =
            none := by
        intro hp hfr
        refine find?_key_eq_none ?_
        intro j hj hjk
        rw [hfr j (hjne j hj)] at hjk
        exact hjne j hj (hA.keysU j (List.mem_of_mem_erase hj) n hnmap
          (by rw [hjk, hkn]))
      cases hn : hfind s.heap n with
      | none =>
          have hres : kRemove s k = (none, { s with map := s.map.erase n }) := by
            simp only [kRemove, hres0, hn]
          rw [hres] at hrm
          cases hrm
      | some nd =>
          by_cases hge : nd.element.freq ≥ s.freq
          · have hres : kRemove s k =
                ((remove_node s.heap s.lru n).1.map (·.value),
                 { s with
                   map := s.map.erase n,
                   heap := (remove_node s.heap s.lru n).2.1,
                   lru := (remove_node s.heap s.lru n).2.2 }) := by
              simp only [kRemove, hres0, hn]
              rw [if_pos hge]
            rw [hres]
            exact hgone _ (fun j hj => keyOf_congr
              ((remove_node_raw s.heap s.lru n).1 j hj))
          · have hres : kRemove s k =
                ((remove_node s.heap s.fcfo n).1.map (·.value),
                 { s with
                   map := s.map.erase n,
                   heap := (remove_node s.heap s.fcfo n).2.1,
                   fcfo := (remove_node s.heap s.fcfo n).2.2 }) := by
              simp only [kRemove, hres0, hn]
              rw [if_neg hge]
            rw [hres]
            exact hgone _ (fun j hj => keyOf_congr
              ((remove_node_raw s.heap s.fcfo n).1 j hj))

theorem kIsEmtpy_iff {K V : Type} [DecidableEq K] {s : KState K V}
    {pf pl : List Nat} (hinv : KInv s pf pl) :
    kIsEmtpy s = true ↔ s.map = [] ∧ pf = [] ∧ pl = [] := by
  rw [kIsEmtpy, Bool.and_eq_true, Bool.and_eq_true,
    listIsEmpty_rep hinv.repF, listIsEmpty_rep hinv.repL,
    List.isEmpty_iff, List.isEmpty_iff, List.isEmpty_iff]
  tauto

theorem lruIsEmtpy_iff {K V : Type} [DecidableEq K] {s : LState K V}
    {ids : List Nat} (hinv : LInv s ids) :
    lruIsEmtpy s = true ↔ s.map = [] ∧ ids = [] := by
  rw [lruIsEmtpy, Bool.and_eq_true, listIsEmpty_rep hinv.rep,
    List.isEmpty_iff, List.isEmpty_iff]

/-- C1 (amended: the LRU-K half additionally requires a threshold `K ≥ 1`;
for `K = 0` the bound fails, see the counterexample): for every cache
constructed with a positive capacity and every operation sequence, the
entry count — index size and sum of list lengths alike — never exceeds
the capacity. -/
theorem c1_capacity_bound {K V : Type} [DecidableEq K] (cap freqK : Nat)
    (hcap : 1 ≤ cap) (hK : 1 ≤ freqK) (ops : List (Op K V)) :
    (kRun cap freqK ops).map.length ≤ cap ∧
    (kRun cap freqK ops).fcfo.len + (kRun cap freqK ops).lru.len ≤ cap ∧
    (lruRun cap ops).map.length ≤ cap ∧
    (lruRun cap ops).list.len ≤ cap := by
  obtain ⟨hfq, hcp, pf, pl, hinv⟩ := kRun_inv cap freqK hK ops
  obtain ⟨hlf, hll, hlm⟩ := KInv_entry_count hinv
  have hcb := hinv.capB
  rw [hcp, Nat.max_eq_left hcap] at hcb
  obtain ⟨hcp2, ids, hinv2⟩ := lruRun_inv (K := K) (V := V) cap ops
  obtain ⟨hlf2, hlm2⟩ := LInv_entry_count hinv2
  have hcb2 := hinv2.capB
  rw [hcp2, Nat.max_eq_left hcap] at hcb2
  refine ⟨hcb, ?_, hcb2, ?_⟩
  · rw [hlf, hll]
    omega
  · rw [hlf2]
    omega

/-- C8 (amended: the LRU-K half requires a threshold `K ≥ 1`; for `K = 0`
the index and the lists desynchronise, see the counterexample): on every
reachable state the index holds exactly the nodes of the backing chains,
and `is_emtpy` answers true exactly when index and chains are all empty.
The LRU half holds for every capacity. -/
theorem c8_index_list_sync {K V : Type} [DecidableEq K] (cap freqK : Nat)
    (hK : 1 ≤ freqK) (ops : List (Op K V)) :
    (∃ pf pl,
      chainOf (kRun cap freqK ops).heap (kRun cap freqK ops).fcfo = pf ∧
      chainOf (kRun cap freqK ops).heap (kRun cap freqK ops).lru = pl ∧
      (∀ i, i ∈ (kRun cap freqK ops).map ↔ i ∈ pf ++ pl) ∧
      (kIsEmtpy (kRun cap freqK ops) = true ↔
        (kRun cap freqK ops).map = [] ∧ pf = [] ∧ pl = [])) ∧
    (∃ ids,
      chainOf (lruRun cap ops).heap (lruRun cap ops).list = ids ∧
      (∀ i, i ∈ (lruRun cap ops).map ↔ i ∈ ids) ∧
      (lruIsEmtpy (lruRun cap ops) = true ↔
        (lruRun cap ops).map = [] ∧ ids = [])) := by
  obtain ⟨hfq, hcp, pf, pl, hinv⟩ := kRun_inv cap freqK hK ops
  obtain ⟨hcp2, ids, hinv2⟩ := lruRun_inv (K := K) (V := V) cap ops
  exact ⟨⟨pf, pl, chainOf_rep hinv.repF, chainOf_rep hinv.repL,
      hinv.mapMem, kIsEmtpy_iff hinv⟩,
    ⟨ids, chainOf_rep hinv2.rep, hinv2.mapMem, lruIsEmtpy_iff hinv2⟩⟩

/-- C10: after `remove(k)` has returned a value, re-inserting `k` treats it
as brand new for every threshold and capacity: the insert misses (returns
none), allocates a fresh node that becomes the tail of the probationary
list, and stores key `k`, the new value, and a frequency counter reset
to zero. -/
theorem c10_reinsert_after_remove_fresh {K V : Type} [DecidableEq K]
    (cap freqK : Nat) (ops : List (Op K V)) (k : K) (v0 v : V)
    (hrm : (kRemove (kRun cap freqK ops) k).1 = some v0) :
    (kInsert (kRemove (kRun cap freqK ops) k).2 k v).1 = none ∧
    end_node (kInsert (kRemove (kRun cap freqK ops) k).2 k v).2.fcfo =
      some (kRemove (kRun cap freqK ops) k).2.nextId ∧
    keyOf (kInsert (kRemove (kRun cap freqK ops) k).2 k v).2.heap
      (kRemove (kRun cap freqK ops) k).2.nextId = some k ∧
    valOf (kInsert (kRemove (kRun cap freqK ops) k).2 k v).2.heap
      (kRemove (kRun cap freqK ops) k).2.nextId = some v ∧
    freqOf (kInsert (kRemove (kRun cap freqK ops) k).2 k v).2.heap
      (kRemove (kRun cap freqK ops) k).2.nextId = some 0 := by
  have hA := kRun_ainv (K := K) (V := V) cap freqK ops
  have hA2 := (kRemove_ainv k hA).1
  have hmg2 := kRemove_found_key_gone hA hrm
  have h := kInsert_new_ainv v hA2 hmg2
  exact ⟨h.1, h.2.2.2.2.2.1, h.2.2.2.2.2.2.1, h.2.2.2.2.2.2.2.1,
    h.2.2.2.2.2.2.2.2⟩

/-- C2 (amended: requires a threshold `K ≥ 1`; for `K = 0` a fresh item sits
in the probationary list while already counting as promoted, see the
counterexample): on a well-formed cache a new key enters with counter zero at
the probationary tail; an access of a probationary item increments its counter
by exactly one, splicing it to the promoted front exactly when the counter
reaches the threshold and otherwise leaving both chains unchanged; an access
of a promoted item only moves it to the promoted front, never incrementing
the counter; promoted items stay in the promoted chain. -/
theorem c2_counter_and_promotion {K V : Type} [DecidableEq K] {s : KState K V}
    {pf pl : List Nat} (hinv : KInv s pf pl) (hK : 1 ≤ s.freq) :
    (∀ k v, mapGet s.heap s.map k = none →
      freqOf (kInsert s k v).2.heap s.nextId = some 0 ∧
      ∃ pf' pl', KInv (kInsert s k v).2 pf' pl' ∧ pf'.getLast? = some s.nextId) ∧
    (∀ n, n ∈ pf ++ pl →
      ((∃ c, freqOf s.heap n = some c ∧ s.freq ≤ c ∧
          freqOf (kUpdate s n).heap n = some c ∧ n ∈ pl ∧
          KInv (kUpdate s n) pf (n :: pl.erase n)) ∨
       (∃ c, freqOf s.heap n = some c ∧ c < s.freq ∧ s.freq ≤ c + 1 ∧
          freqOf (kUpdate s n).heap n = some (c + 1) ∧ n ∈ pf ∧
          KInv (kUpdate s n) (pf.erase n) (n :: pl)) ∨
       (∃ c, freqOf s.heap n = some c ∧ c + 1 < s.freq ∧
          freqOf (kUpdate s n).heap n = some (c + 1) ∧ n ∈ pf ∧
          KInv (kUpdate s n) pf pl))) := by
  constructor
  · intro k v hmg
    have hins := kInsert_new_inv (v := v) hinv hK hmg
    refine ⟨hins.2.2.2.2.2.2.1, ?_⟩
    rcases hins.2.2.2.2.2.2.2 with
      ⟨_, hk, _⟩ | ⟨_, ⟨q, pf', _, hk, _⟩ | ⟨t, pl', _, _, hk, _⟩ | ⟨_, _, hk, _⟩⟩
    · exact ⟨pf ++ [s.nextId], pl, hk, by rw [List.getLast?_append_cons]; rfl⟩
    · exact ⟨pf' ++ [s.nextId], pl, hk, by rw [List.getLast?_append_cons]; rfl⟩
    · exact ⟨[s.nextId], pl', hk, rfl⟩
    · exact ⟨[s.nextId], [], hk, rfl⟩
  · intro n hmem
    exact (kUpdate_inv hinv hmem).2.2.2.2.2.2.2.2

/-- C3 (amended: requires a threshold `K ≥ 1`; for `K = 0` eviction can miss
both lists and overfill the cache, see the counterexample): when a new key is
inserted at capacity, a non-empty probationary list loses its front — the
minimal, i.e. earliest-allocated, probationary identifier, independent of its
value or counter — and the promoted tail is evicted only when the
probationary list is empty. -/
theorem c3_eviction_fifo {K V : Type} [DecidableEq K] {s : KState K V}
    {pf pl : List Nat} {k : K} (v : V)
    (hinv : KInv s pf pl) (hK : 1 ≤ s.freq)
    (hmg : mapGet s.heap s.map k = none)
    (hcap : s.map.length + 1 > s.cap) :
    ((∃ q pf', pf = q :: pf' ∧ (∀ i ∈ pf', q < i) ∧
        hfind (kInsert s k v).2.heap q = none ∧
        (kInsert s k v).2.map = s.nextId :: s.map.erase q ∧
        KInv (kInsert s k v).2 (pf' ++ [s.nextId]) pl) ∨
     (pf = [] ∧ ∃ t pl', pl = pl' ++ [t] ∧
        hfind (kInsert s k v).2.heap t = none ∧
        (kInsert s k v).2.map = s.nextId :: s.map.erase t ∧
        KInv (kInsert s k v).2 [s.nextId] pl') ∨
     (pf = [] ∧ pl = [] ∧ KInv (kInsert s k v).2 [s.nextId] [] ∧
        (kInsert s k v).2.map = [s.nextId])) := by
  have hins := kInsert_new_inv (v := v) hinv hK hmg
  rcases hins.2.2.2.2.2.2.2 with
    ⟨hnc, _⟩ | ⟨_, ⟨q, pf', hpf, hk, hm, hq, _⟩ | ⟨t, pl', hpf, hpl, hk, hm, ht, _⟩ |
      ⟨hpf, hpl, hk, hm⟩⟩
  · exact absurd hcap hnc
  · refine Or.inl ⟨q, pf', hpf, ?_, hq, hm, hk⟩
    intro i hi
    have := hinv.sortF
    rw [hpf, List.pairwise_cons] at this
    exact this.1 i hi
  · exact Or.inr (Or.inl ⟨hpf, t, pl', hpl, ht, hm, hk⟩)
  · exact Or.inr (Or.inr ⟨hpf, hpl, hk, hm⟩)

/-- C6 (amended: the claimed behaviour needs a threshold `K ≥ 1` for the
frequency state to describe the lists correctly on reachable caches; for
`K = 0` removal consults the wrong list, see the counterexample): on a
well-formed cache, `remove` of an absent key is a miss leaving the state
unchanged, and `remove` of a present key returns its stored value and
removes its node from exactly the list its counter designates — the
promoted chain when `counter ≥ K` (the probationary list untouched),
the probationary chain when `counter < K` (the promoted list untouched) —
leaving every other entry in place. -/
theorem c6_remove_follows_frequency {K V : Type} [DecidableEq K]
    {s : KState K V} {pf pl : List Nat} (k : K)
    (hinv : KInv s pf pl) (hK1 : 1 ≤ s.freq) :
    (mapGet s.heap s.map k = none → kRemove s k = (none, s)) ∧
    (∀ n, mapGet s.heap s.map k = some n →
      (kRemove s k).1 = valOf s.heap n ∧
      (kRemove s k).2.map = s.map.erase n ∧
      hfind (kRemove s k).2.heap n = none ∧
      (∀ j, j ≠ n → keyOf (kRemove s k).2.heap j = keyOf s.heap j) ∧
      (∀ j, j ≠ n → valOf (kRemove s k).2.heap j = valOf s.heap j) ∧
      ((∃ c, freqOf s.heap n = some c ∧ s.freq ≤ c ∧ n ∈ pl ∧
          (kRemove s k).2.fcfo = s.fcfo ∧
          KInv (kRemove s k).2 pf (pl.erase n)) ∨
       (∃ c, freqOf s.heap n = some c ∧ c < s.freq ∧ n ∈ pf ∧
          (kRemove s k).2.lru = s.lru ∧
          KInv (kRemove s k).2 (pf.erase n) pl))) := by
  constructor
  · intro hmg
    exact kRemove_absent hmg
  · intro n hmg
    have h := kRemove_present_inv hinv hmg
    exact ⟨h.1, h.2.1, h.2.2.2.2.2.1, h.2.2.2.2.2.2.1, h.2.2.2.2.2.2.2.1,
      h.2.2.2.2.2.2.2.2.2.2⟩

theorem c1_capacity_bound_witness :
    ((1:Nat) ≤ 2 ∧ (1:Nat) ≤ 1) ∧
    (kRun 2 1 [(Op.insert 1 10 : Op Nat Nat), Op.insert 2 20, Op.get 1,
      Op.insert 3 30]).map.length ≤ 2 ∧
    (kRun 2 1 [(Op.insert 1 10 : Op Nat Nat), Op.insert 2 20, Op.get 1,
      Op.insert 3 30]).fcfo.len +
      (kRun 2 1 [(Op.insert 1 10 : Op Nat Nat), Op.insert 2 20, Op.get 1,
        Op.insert 3 30]).lru.len ≤ 2 ∧
    (lruRun 2 [(Op.insert 1 10 : Op Nat Nat), Op.insert 2 20, Op.get 1,
      Op.insert 3 30]).map.length ≤ 2 ∧
    (lruRun 2 [(Op.insert 1 10 : Op Nat Nat), Op.insert 2 20, Op.get 1,
      Op.insert 3 30]).list.len ≤ 2 :=
  ⟨⟨by decide, by decide⟩, c1_capacity_bound 2 1 (by decide) (by decide) _⟩

theorem c2_counter_and_promotion_witness :
    freqOf (kUpdate (kRun 3 1 [(Op.insert 1 10 : Op Nat Nat)]) 0).heap 0 =
      some 1 := by
  obtain ⟨hfq, hcp, pf, pl, hinv⟩ :=
    kRun_inv (K := Nat) (V := Nat) 3 1 (by decide) [Op.insert 1 10]
  have h := c2_counter_and_promotion hinv (by decide)
  have hm : (0:Nat) ∈ pf ++ pl := (hinv.mapMem 0).mp (by decide)
  rcases h.2 0 hm with ⟨c, hc1, hc2, _⟩ | ⟨c, hc1, _, _, hc4, _⟩ | ⟨c, hc1, hc2, _⟩
  · rw [show freqOf (kRun 3 1 [(Op.insert 1 10 : Op Nat Nat)]).heap 0 = some 0
      from by decide] at hc1
    injection hc1 with h0
    rw [hfq, ← h0] at hc2
    exact absurd hc2 (by decide)
  · rw [show freqOf (kRun 3 1 [(Op.insert 1 10 : Op Nat Nat)]).heap 0 = some 0
      from by decide] at hc1
    injection hc1 with h0
    rw [← h0] at hc4
    exact hc4
  · rw [show freqOf (kRun 3 1 [(Op.insert 1 10 : Op Nat Nat)]).heap 0 = some 0
      from by decide] at hc1
    injection hc1 with h0
    rw [hfq, ← h0] at hc2
    exact absurd hc2 (by decide)

theorem c3_eviction_fifo_witness :
    hfind (kInsert (kRun 1 1 [(Op.insert 1 10 : Op Nat Nat)]) 2 20).2.heap 0 =
      none := by
  obtain ⟨hfq, hcp, pf, pl, hinv⟩ :=
    kRun_inv (K := Nat) (V := Nat) 1 1 (by decide) [Op.insert 1 10]
  have h := c3_eviction_fifo (k := 2) 20 hinv (by decide) (by decide) (by decide)
  rcases h with ⟨q, pf', hpf, _, hq, _⟩ | ⟨hpf, t, pl', hpl, ht, _⟩ | ⟨hpf, hpl, _⟩
  · have hq0 : q = 0 := by
      have := (hinv.mapMem q).mpr (by
        rw [hpf]
        exact List.mem_append_left pl (List.mem_cons_self q pf'))
      have h01 : (kRun 1 1 [(Op.insert 1 10 : Op Nat Nat)]).map = [0] := by decide
      rw [h01] at this
      exact List.mem_singleton.mp this
    rw [hq0] at hq
    exact hq
  · have ht0 : t = 0 := by
      have := (hinv.mapMem t).mpr (by
        rw [hpl]
        exact List.mem_append_right pf
          (List.mem_append_right pl' (List.mem_cons_self t [])))
      have h01 : (kRun 1 1 [(Op.insert 1 10 : Op Nat Nat)]).map = [0] := by decide
      rw [h01] at this
      exact List.mem_singleton.mp this
    rw [ht0] at ht
    exact ht
  · have := (hinv.mapMem 0).mp (by decide)
    rw [hpf, hpl] at this
    cases this

theorem c6_remove_follows_frequency_witness :
    (kRemove (kRun 2 1 [(Op.insert 1 10 : Op Nat Nat)]) 1).1 = some 10 := by
  obtain ⟨hfq, hcp, pf, pl, hinv⟩ :=
    kRun_inv (K := Nat) (V := Nat) 2 1 (by decide) [Op.insert 1 10]
  have h := (c6_remove_follows_frequency 1 hinv (by decide)).2 0 (by decide)
  rw [h.1]
  decide

theorem c8_index_list_sync_witness :
    (1:Nat) ≤ 1 ∧
    ((∃ pf pl,
      chainOf (kRun 2 1 [(Op.insert 1 10 : Op Nat Nat), Op.get 1]).heap
        (kRun 2 1 [(Op.insert 1 10 : Op Nat Nat), Op.get 1]).fcfo = pf ∧
      chainOf (kRun 2 1 [(Op.insert 1 10 : Op Nat Nat), Op.get 1]).heap
        (kRun 2 1 [(Op.insert 1 10 : Op Nat Nat), Op.get 1]).lru = pl ∧
      (∀ i, i ∈ (kRun 2 1 [(Op.insert 1 10 : Op Nat Nat), Op.get 1]).map ↔
        i ∈ pf ++ pl) ∧
      (kIsEmtpy (kRun 2 1 [(Op.insert 1 10 : Op Nat Nat), Op.get 1]) = true ↔
        (kRun 2 1 [(Op.insert 1 10 : Op Nat Nat), Op.get 1]).map = [] ∧
        pf = [] ∧ pl = [])) ∧
    (∃ ids,
      chainOf (lruRun 2 [(Op.insert 1 10 : Op Nat Nat), Op.get 1]).heap
        (lruRun 2 [(Op.insert 1 10 : Op Nat Nat), Op.get 1]).list = ids ∧
      (∀ i, i ∈ (lruRun 2 [(Op.insert 1 10 : Op Nat Nat), Op.get 1]).map ↔
        i ∈ ids) ∧
      (lruIsEmtpy (lruRun 2 [(Op.insert 1 10 : Op Nat Nat), Op.get 1]) = true ↔
        (lruRun 2 [(Op.insert 1 10 : Op Nat Nat), Op.get 1]).map = [] ∧
        ids = []))) :=
  ⟨by decide, c8_index_list_sync 2 1 (by decide) _⟩

theorem c10_reinsert_after_remove_fresh_witness :
    (kRemove (kRun 2 2 [(Op.insert 1 10 : Op Nat Nat)]) 1).1 = some 10 ∧
    ((kInsert (kRemove (kRun 2 2 [(Op.insert 1 10 : Op Nat Nat)]) 1).2 1 99).1 =
      none ∧
    end_node (kInsert
      (kRemove (kRun 2 2 [(Op.insert 1 10 : Op Nat Nat)]) 1).2 1 99).2.fcfo =
      some (kRemove (kRun 2 2 [(Op.insert 1 10 : Op Nat Nat)]) 1).2.nextId ∧
    keyOf (kInsert
      (kRemove (kRun 2 2 [(Op.insert 1 10 : Op Nat Nat)]) 1).2 1 99).2.heap
      (kRemove (kRun 2 2 [(Op.insert 1 10 : Op Nat Nat)]) 1).2.nextId =
      some 1 ∧
    valOf (kInsert
      (kRemove (kRun 2 2 [(Op.insert 1 10 : Op Nat Nat)]) 1).2 1 99).2.heap
      (kRemove (kRun 2 2 [(Op.insert 1 10 : Op Nat Nat)]) 1).2.nextId =
      some 99 ∧
    freqOf (kInsert
      (kRemove (kRun 2 2 [(Op.insert 1 10 : Op Nat Nat)]) 1).2 1 99).2.heap
      (kRemove (kRun 2 2 [(Op.insert 1 10 : Op Nat Nat)]) 1).2.nextId =
      some 0) :=
  ⟨by decide, c10_reinsert_after_remove_fresh 2 2 [Op.insert 1 10] 1 10 99
    (by decide)⟩

end RsLru
